import Mathlib

/-!
# Maze generator and play loop (`main.cpp`)

A shallow embedding of the maze program: the grid model, `isValidMove`,
`getNeighbors`, `recursiveBacktrack`, `generateMaze`, `printMaze` and the
movement / win-detection loop of `main`, followed by the properties proved
about them.

Modelling conventions.
* `int` values are `Int`; `std::vector` sizes are `Nat`.  The only unsigned
  arithmetic of the program, `size() - 1`, is modelled by `sizeSub1`, which
  wraps at `0` the way a 64-bit `size_t` does.  Every comparison between an
  `int` and a `size_t` in the source is guarded by a preceding `> 0` test on
  the `int`, so the conversion keeps the value.
* Indexing a vector (`maze[y][x]`, `maze[0]`) outside its bounds is undefined
  behaviour in the source; the embedding reports it as `Fault.outOfBounds`.
* The recursion of `recursiveBacktrack` is driven by a fuel argument; running
  out of it is reported as `Fault.outOfFuel`.
* `std::shuffle` with a freshly seeded generator is modelled by an oracle
  that returns, for the `n`-th shuffle performed, an arbitrary permutation of
  the list it is given.
* Statements about the steps of a run (which cells are carved, in which
  order) are made on `recursiveBacktrackLog`, a copy of `recursiveBacktrack`
  that also records each carving step; `recursiveBacktrackLog_erase` shows
  that it computes the same grid.
-/

namespace MazeGame

/-! ## Data model -/

/-- Cell states, in the order of `enum Cell`. -/
inductive Cell where
  | WALL
  | PATH
  | START
  | END
  | PLAYER
  | SOLUTION
  deriving DecidableEq, Repr

/-- A grid coordinate: `x` is the column, `y` the row (`struct Position`). -/
structure Position where
  x : Int
  y : Int
  deriving DecidableEq, Repr

/-- The grid, `std::vector<std::vector<Cell>>`: a list of rows. -/
abbrev Maze := List (List Cell)

/-- Ways in which a run of the embedded code can fail to produce a value. -/
inductive Fault where
  | outOfBounds
  | outOfFuel
  deriving DecidableEq, Repr

/-- Constant `BASE_WIDTH`. -/
def BASE_WIDTH : Int := 16

/-- Constant `BASE_HEIGHT`. -/
def BASE_HEIGHT : Int := 16

/-- The cell stored at column `x`, row `y`, if that index exists. -/
def cellAt (maze : Maze) (x y : Int) : Option Cell :=
  if x < 0 ∨ y < 0 then none
  else
    match maze[y.toNat]? with
    | none => none
    | some row => row[x.toNat]?

/-- The read `maze[y][x]`. -/
def readCell (maze : Maze) (x y : Int) : Except Fault Cell :=
  match cellAt maze x y with
  | some c => .ok c
  | none => .error .outOfBounds

/-- The assignment `maze[y][x] = c`. -/
def writeCell (maze : Maze) (x y : Int) (c : Cell) : Except Fault Maze :=
  if x < 0 ∨ y < 0 then .error .outOfBounds
  else
    match maze[y.toNat]? with
    | none => .error .outOfBounds
    | some row =>
      if x.toNat < row.length then .ok (maze.set y.toNat (row.set x.toNat c))
      else .error .outOfBounds

/-- The value of `n - 1` computed on a 64-bit `size_t`. -/
def sizeSub1 (n : Nat) : Nat :=
  if n = 0 then 2 ^ 64 - 1 else n - 1

/-! ## Maze generation -/

/-- Function `isValidMove(x, y, maze)`: the short-circuit chain of bound tests
followed by the read of `maze[y][x]`. -/
def isValidMove (x y : Int) (maze : Maze) : Except Fault Bool :=
  if x ≤ 0 then .ok false
  else
    match maze with
    | [] => .error .outOfBounds
    | row0 :: rest =>
      if (sizeSub1 row0.length : Int) ≤ x then .ok false
      else if y ≤ 0 then .ok false
      else if (sizeSub1 (row0 :: rest).length : Int) ≤ y then .ok false
      else
        match readCell (row0 :: rest) x y with
        | .error e => .error e
        | .ok c => .ok (decide (c = Cell.WALL))

/-- Function `getNeighbors(pos)`: the four positions two cells away. -/
def getNeighbors (pos : Position) : List Position :=
  [⟨pos.x + 2, pos.y⟩, ⟨pos.x - 2, pos.y⟩, ⟨pos.x, pos.y + 2⟩, ⟨pos.x, pos.y - 2⟩]

/-- The outcomes of the calls to `std::shuffle`: `run n l` is the order in
which the `n`-th shuffle of a run leaves the list `l`. -/
structure ShuffleOracle where
  run : Nat → List Position → List Position
  perm : ∀ n l, List.Perm (run n l) l

/-- The oracle of a run in which no shuffle moves anything. -/
def ShuffleOracle.identity : ShuffleOracle where
  run := fun _ l => l
  perm := fun _ l => List.Perm.refl l

/-- The `for (next : neighbors)` loop of `recursiveBacktrack`, with the
recursive call passed in as `rec`.  The state is the grid and the number of
shuffles performed so far. -/
def carveLoop (rec : Maze → Position → Nat → Except Fault (Maze × Nat))
    (current : Position) : List Position → Maze → Nat → Except Fault (Maze × Nat)
  | [], maze, n => .ok (maze, n)
  | next :: rest, maze, n =>
    let midX := (current.x + next.x).tdiv 2
    let midY := (current.y + next.y).tdiv 2
    match isValidMove next.x next.y maze with
    | .error e => .error e
    | .ok false => carveLoop rec current rest maze n
    | .ok true =>
      match readCell maze next.x next.y with
      | .error e => .error e
      | .ok c =>
        if c = Cell.WALL then
          match writeCell maze midX midY Cell.PATH with
          | .error e => .error e
          | .ok maze1 =>
            match writeCell maze1 next.x next.y Cell.PATH with
            | .error e => .error e
            | .ok maze2 =>
              match rec maze2 next n with
              | .error e => .error e
              | .ok (maze3, n3) => carveLoop rec current rest maze3 n3
        else carveLoop rec current rest maze n

/-- Function `recursiveBacktrack(maze, current)`.  It returns the grid it
leaves behind together with the updated shuffle count. -/
def recursiveBacktrack (sh : ShuffleOracle) :
    Nat → Maze → Position → Nat → Except Fault (Maze × Nat)
  | 0, _, _, _ => .error .outOfFuel
  | fuel + 1, maze, current, n =>
    carveLoop (recursiveBacktrack sh fuel) current
      (sh.run n (getNeighbors current)) maze (n + 1)

/-- The `for (pos : goalNeighbors)` loop that ends `generateMaze`. -/
def openGoalNeighbors (width height : Int) : List Position → Maze → Except Fault Maze
  | [], maze => .ok maze
  | pos :: rest, maze =>
    if pos.x > 0 ∧ pos.x < width - 1 ∧ pos.y > 0 ∧ pos.y < height - 1 then
      match writeCell maze pos.x pos.y Cell.PATH with
      | .error e => .error e
      | .ok maze1 => openGoalNeighbors width height rest maze1
    else openGoalNeighbors width height rest maze

/-- The grid width `generateMaze` picks for a level. -/
def levelWidth (level : Int) : Int :=
  if level = 2 then BASE_WIDTH + 10
  else if level = 3 then BASE_WIDTH + 20
  else BASE_WIDTH

/-- The grid height `generateMaze` picks for a level. -/
def levelHeight (level : Int) : Int :=
  if level = 2 then BASE_HEIGHT + 10
  else if level = 3 then BASE_HEIGHT + 20
  else BASE_HEIGHT

/-- Function `generateMaze(maze, level, passageWidth)`; the grid it builds is
the result. -/
def generateMaze (fuel : Nat) (sh : ShuffleOracle) (level : Int) (passageWidth : Int) :
    Except Fault Maze :=
  let _unused := passageWidth
  let width := levelWidth level
  let height := levelHeight level
  let maze0 : Maze := List.replicate height.toNat (List.replicate width.toNat Cell.WALL)
  let start : Position := ⟨1, 1⟩
  let goal : Position := ⟨width - 2, height - 2⟩
  match writeCell maze0 start.x start.y Cell.START with
  | .error e => .error e
  | .ok maze1 =>
    match writeCell maze1 goal.x goal.y Cell.END with
    | .error e => .error e
    | .ok maze2 =>
      match recursiveBacktrack sh fuel maze2 start 0 with
      | .error e => .error e
      | .ok (maze3, _) =>
        openGoalNeighbors width height
          [⟨goal.x - 1, goal.y⟩, ⟨goal.x + 1, goal.y⟩, ⟨goal.x, goal.y - 1⟩, ⟨goal.x, goal.y + 1⟩]
          maze3

/-! ## Rendering -/

/-- The `switch (*cell)` of `printMaze`: the character printed for a cell the
player is not on. -/
def cellChar : Cell → Char
  | .WALL => '#'
  | .PATH => ' '
  | .START => 'S'
  | .END => 'E'
  | .SOLUTION => '*'
  | .PLAYER => ' '

/-- The inner loop of `printMaze` over the cells of row number `rowIdx`,
starting at column `col`, followed by the `std::endl` that ends the row. -/
def printRow (player : Position) (rowIdx : Nat) : Nat → List Cell → List Char
  | _, [] => ['\n']
  | col, cell :: rest =>
    (if player.x = (col : Int) ∧ player.y = (rowIdx : Int) then 'P' else cellChar cell) ::
      printRow player rowIdx (col + 1) rest

/-- The outer loop of `printMaze` over the rows, starting at row `rowIdx`. -/
def printRows (player : Position) : Nat → Maze → List Char
  | _, [] => []
  | rowIdx, row :: rest => printRow player rowIdx 0 row ++ printRows player (rowIdx + 1) rest

/-- Function `printMaze(maze, player)`: the characters written to standard
output after the screen has been cleared. -/
def printMaze (maze : Maze) (player : Position) : List Char :=
  printRows player 0 maze

/-! ## The play loop of `main` -/

/-- The `switch (input)` of the play loop: the position the key asks for. -/
def keyTarget (player : Position) (input : Char) : Position :=
  if input = 'w' then ⟨player.x, player.y - 1⟩
  else if input = 's' then ⟨player.x, player.y + 1⟩
  else if input = 'a' then ⟨player.x - 1, player.y⟩
  else if input = 'd' then ⟨player.x + 1, player.y⟩
  else player

/-- One movement step of the play loop: from reading `input` to the end of
the `if` that may update `player`.  The tests are evaluated left to right, as
`&&` does. -/
def movePlayer (maze : Maze) (player : Position) (input : Char) : Except Fault Position :=
  let target := keyTarget player input
  if target.x > 0 then
    match maze with
    | [] => .error .outOfBounds
    | row0 :: rest =>
      if target.x < (row0.length : Int) then
        if target.y > 0 then
          if target.y < ((row0 :: rest).length : Int) then
            match readCell (row0 :: rest) target.x target.y with
            | .error e => .error e
            | .ok c => if c ≠ Cell.WALL then .ok target else .ok player
          else .ok player
        else .ok player
      else .ok player
  else .ok player

/-- The two states of the play loop. -/
inductive LoopState where
  | Playing
  | Won
  deriving DecidableEq, Repr

/-- Where a run of the play loop stands once its input is used up or the game
is won: the state, the player position, and the number of characters read. -/
structure LoopResult where
  state : LoopState
  player : Position
  consumed : Nat
  deriving DecidableEq, Repr

/-- The `while (true)` loop of `main`, fed the characters `getInput` returns.
Each iteration reads one character, moves, and tests `maze[player.y][player.x]
== END`; on success the loop is left, otherwise it goes round again. -/
def playLoop (maze : Maze) : Position → List Char → Except Fault LoopResult
  | player, [] => .ok ⟨.Playing, player, 0⟩
  | player, input :: rest =>
    match movePlayer maze player input with
    | .error e => .error e
    | .ok player1 =>
      match readCell maze player1.x player1.y with
      | .error e => .error e
      | .ok c =>
        if c = Cell.END then .ok ⟨.Won, player1, 1⟩
        else
          match playLoop maze player1 rest with
          | .error e => .error e
          | .ok r => .ok ⟨r.state, r.player, r.consumed + 1⟩

/-! ## Vocabulary of the specification -/

/-- A grid with `h` rows, each of `w` cells. -/
def Rect (w h : Nat) (m : Maze) : Prop :=
  m.length = h ∧ ∀ row ∈ m, row.length = w

/-- The position lies strictly inside the border of a `w × h` grid. -/
def Interior (w h : Nat) (x y : Int) : Prop :=
  0 < x ∧ x < (w : Int) - 1 ∧ 0 < y ∧ y < (h : Int) - 1

instance (w h : Nat) (x y : Int) : Decidable (Interior w h x y) :=
  inferInstanceAs (Decidable (0 < x ∧ x < (w : Int) - 1 ∧ 0 < y ∧ y < (h : Int) - 1))

/-- The cell at `p` exists and is not `WALL`. -/
def NonWall (m : Maze) (p : Position) : Prop :=
  cellAt m p.x p.y ≠ none ∧ cellAt m p.x p.y ≠ some Cell.WALL

instance (m : Maze) (p : Position) : Decidable (NonWall m p) :=
  inferInstanceAs (Decidable (cellAt m p.x p.y ≠ none ∧ cellAt m p.x p.y ≠ some Cell.WALL))

/-- Two positions are horizontally or vertically adjacent. -/
def Adjacent (a b : Position) : Prop :=
  (a.x = b.x ∧ (a.y = b.y + 1 ∨ b.y = a.y + 1)) ∨ (a.y = b.y ∧ (a.x = b.x + 1 ∨ b.x = a.x + 1))

instance (a b : Position) : Decidable (Adjacent a b) :=
  inferInstanceAs (Decidable ((a.x = b.x ∧ (a.y = b.y + 1 ∨ b.y = a.y + 1)) ∨
    (a.y = b.y ∧ (a.x = b.x + 1 ∨ b.x = a.x + 1))))

/-- The graph of a grid: its vertices are positions, its edges join adjacent
non-`WALL` cells. -/
def mazeGraph (m : Maze) : SimpleGraph Position where
  Adj a b := Adjacent a b ∧ NonWall m a ∧ NonWall m b
  symm := fun a b hab => by
    refine ⟨?_, hab.2.2, hab.2.1⟩
    have h1 := hab.1
    unfold Adjacent at h1 ⊢
    omega
  loopless := fun a hab => by
    have h1 := hab.1
    unfold Adjacent at h1
    omega

/-- Cell `b` can be reached from cell `a` through adjacent non-`WALL` cells. -/
def Reach (m : Maze) (a b : Position) : Prop :=
  (mazeGraph m).Reachable a b

/-- Every non-`WALL` cell of `m` is unchanged in `m'`, and a `WALL` cell of `m`
is `WALL` or `PATH` in `m'`. -/
def Carved (m m' : Maze) : Prop :=
  ∀ x y, (cellAt m x y = none → cellAt m' x y = none) ∧
    (∀ c, cellAt m x y = some c → c ≠ Cell.WALL → cellAt m' x y = some c) ∧
    (cellAt m x y = some Cell.WALL →
      cellAt m' x y = some Cell.WALL ∨ cellAt m' x y = some Cell.PATH)

/-- Number of `WALL` cells of a `w × h` grid. -/
def wallCount (w h : Nat) (m : Maze) : Nat :=
  ((Finset.range w ×ˢ Finset.range h).filter
    (fun p => cellAt m (p.1 : Int) (p.2 : Int) = some Cell.WALL)).card

/-- Grid sizes the generator works with: even and at least four. -/
def Dims (w h : Nat) : Prop :=
  w % 2 = 0 ∧ h % 2 = 0 ∧ 4 ≤ w ∧ 4 ≤ h

/-- A room: an interior cell both of whose coordinates are odd. -/
def Room (w h : Nat) (p : Position) : Prop :=
  Interior w h p.x p.y ∧ p.x % 2 = 1 ∧ p.y % 2 = 1

/-- What holds of the grid at every moment of the generation once Start and
End have been marked. -/
structure GenInv (w h : Nat) (m : Maze) : Prop where
  dims : Dims w h
  rect : Rect w h m
  inside : ∀ x y c, cellAt m x y = some c → c ≠ Cell.WALL → Interior w h x y
  start : cellAt m 1 1 = some Cell.START
  goal : cellAt m ((w : Int) - 2) ((h : Int) - 2) = some Cell.END
  others : ∀ x y c, cellAt m x y = some c →
    c = Cell.WALL ∨ c = Cell.PATH ∨ (c = Cell.START ∧ x = 1 ∧ y = 1) ∨
      (c = Cell.END ∧ x = (w : Int) - 2 ∧ y = (h : Int) - 2)
  evens : ∀ x y c, cellAt m x y = some c → x % 2 = 0 → y % 2 = 0 →
    c = Cell.WALL ∨ (x = (w : Int) - 2 ∧ y = (h : Int) - 2)

/-- All rooms two cells away from `p` are open. -/
def Closed (w h : Nat) (m : Maze) (p : Position) : Prop :=
  ∀ q ∈ getNeighbors p, Room w h q → NonWall m q

/-- What a run of the neighbour loop at `cur`, over the candidates `l`, leaves
behind: the invariant, nothing but carving, every newly opened cell joined to
`cur` and (if a room) with all its neighbouring rooms open, and every room
among the candidates open. -/
structure LoopPost (w h : Nat) (m : Maze) (cur : Position) (l : List Position)
    (m' : Maze) : Prop where
  inv : GenInv w h m'
  carved : Carved m m'
  fresh : ∀ p : Position, cellAt m p.x p.y = some Cell.WALL → NonWall m' p →
    Reach m' cur p ∧ (Room w h p → Closed w h m' p)
  done : ∀ q ∈ l, Room w h q → NonWall m' q

/-- What `generateMaze` guarantees of the grid it returns. -/
structure GenPost (w h : Nat) (m : Maze) : Prop where
  inv : GenInv w h m
  rooms : ∀ p, Room w h p → NonWall m p
  reach : ∀ p, NonWall m p → Reach m ⟨1, 1⟩ p
  west : cellAt m ((w : Int) - 3) ((h : Int) - 2) = some Cell.PATH
  north : cellAt m ((w : Int) - 2) ((h : Int) - 3) = some Cell.PATH

/-- The list `l` is a sequence of non-`WALL` cells of `m` that starts at `a`,
ends at `b`, and moves between adjacent cells. -/
def IsMazePath (m : Maze) (a b : Position) (l : List Position) : Prop :=
  l.head? = some a ∧ l.getLast? = some b ∧ l.Chain' Adjacent ∧ ∀ p ∈ l, NonWall m p

/-- A path of the grid that visits no cell twice. -/
def IsSimplePath (m : Maze) (a b : Position) (l : List Position) : Prop :=
  IsMazePath m a b l ∧ l.Nodup

/-- A perfect maze: exactly one simple path joins any two non-`WALL` cells. -/
def PerfectMaze (m : Maze) : Prop :=
  ∀ a b, NonWall m a → NonWall m b → ∃! l, IsSimplePath m a b l

/-- The direction vector of a key, as the keyboard mapping of the
specification gives it: `w` up, `s` down, `a` left, `d` right. -/
def keyVector (k : Char) : Int × Int :=
  if k = 'w' then (0, -1)
  else if k = 's' then (0, 1)
  else if k = 'a' then (-1, 0)
  else if k = 'd' then (1, 0)
  else (0, 0)

/-- The position `p` shifted by the direction vector of key `k`. -/
def shifted (p : Position) (k : Char) : Position :=
  ⟨p.x + (keyVector k).1, p.y + (keyVector k).2⟩

/-- The width of the grid as the play loop measures it, `maze[0].size()`
(taken as `0` when there is no row). -/
def gridWidth (m : Maze) : Nat :=
  (m.headD []).length

/-- The movement rule of the specification: the target is within
`0 < x < width`, `0 < y < height` and its cell is not `WALL`. -/
def LegalTarget (m : Maze) (q : Position) : Prop :=
  0 < q.x ∧ q.x < (gridWidth m : Int) ∧ 0 < q.y ∧ q.y < (m.length : Int) ∧ NonWall m q

instance (m : Maze) (q : Position) : Decidable (LegalTarget m q) :=
  inferInstanceAs (Decidable (0 < q.x ∧ q.x < (gridWidth m : Int) ∧ 0 < q.y ∧
    q.y < (m.length : Int) ∧ NonWall m q))

instance (w h : Nat) (m : Maze) : Decidable (Rect w h m) :=
  inferInstanceAs (Decidable (m.length = h ∧ ∀ row ∈ m, row.length = w))

/-- A 3 by 4 grid with Start at (1,1) and an open cell below it, used to run
the movement step on a concrete input. -/
def corridor : Maze :=
  [[.WALL, .WALL, .WALL],
   [.WALL, .START, .WALL],
   [.WALL, .PATH, .WALL],
   [.WALL, .WALL, .WALL]]

/-- What the specification says of a run of the play loop from position `p`
on the inputs `inputs` that ends in `r`. -/
structure LoopContract (m : Maze) (p : Position) (inputs : List Char) (r : LoopResult) :
    Prop where
  /-- The loop reads no more characters than it is given. -/
  consumed_le : r.consumed ≤ inputs.length
  /-- The loop is in `Won` exactly when the player stands on `END`. -/
  won_iff : r.state = LoopState.Won ↔ cellAt m r.player.x r.player.y = some Cell.END
  /-- While in `Playing` the loop has read every character. -/
  playing_reads_all : r.state = LoopState.Playing → r.consumed = inputs.length
  /-- Once `Won`, the result is fixed by the characters read so far: whatever
  follows them is never read. -/
  won_stops : r.state = LoopState.Won →
    0 < r.consumed ∧ ∀ extra, playLoop m p (inputs.take r.consumed ++ extra) = .ok r
  /-- Before each character it reads, the loop is in `Playing` with the player
  off `END`, and reading the character applies one movement step. -/
  before : ∀ k, k < r.consumed → ∃ rk rk1 c,
    inputs[k]? = some c ∧
    playLoop m p (inputs.take k) = .ok rk ∧ rk.state = LoopState.Playing ∧ rk.consumed = k ∧
    cellAt m rk.player.x rk.player.y ≠ some Cell.END ∧
    playLoop m p (inputs.take (k + 1)) = .ok rk1 ∧ rk1.consumed = k + 1 ∧
    movePlayer m rk.player c = .ok rk1.player

/-- The character the specification assigns to the cell `c` at column `x`,
row `y`: `P` where the player stands, otherwise the character of the cell. -/
def renderCell (player : Position) (x y : Nat) (c : Cell) : Char :=
  if player = ⟨(x : Int), (y : Int)⟩ then 'P'
  else
    match c with
    | .WALL => '#'
    | .PATH => ' '
    | .START => 'S'
    | .END => 'E'
    | .SOLUTION => '*'
    | .PLAYER => ' '

/-- The text of the specification: for each row in order, one character per
cell followed by one line break. -/
def renderGrid (m : Maze) (player : Position) : List Char :=
  (m.enum.map (fun yr =>
    yr.2.enum.map (fun xc => renderCell player xc.1 yr.1 xc.2) ++ ['\n'])).flatten

/-! ## Instrumented generation -/

/-- One execution of the body of the `if` in `recursiveBacktrack`: called at
`current`, the loop opened the cell `mid` and the candidate `next`, and
recursed into `next`. -/
structure CarveEvent where
  current : Position
  mid : Position
  next : Position
  deriving DecidableEq, Repr

/-- The loop `carveLoop` with a log: the same code, which in addition appends
a `CarveEvent` to `log` each time it carves. -/
def carveLoopLog
    (rec : Maze → Position → Nat → List CarveEvent →
      Except Fault (Maze × Nat × List CarveEvent))
    (current : Position) :
    List Position → Maze → Nat → List CarveEvent →
      Except Fault (Maze × Nat × List CarveEvent)
  | [], maze, n, log => .ok (maze, n, log)
  | next :: rest, maze, n, log =>
    let midX := (current.x + next.x).tdiv 2
    let midY := (current.y + next.y).tdiv 2
    match isValidMove next.x next.y maze with
    | .error e => .error e
    | .ok false => carveLoopLog rec current rest maze n log
    | .ok true =>
      match readCell maze next.x next.y with
      | .error e => .error e
      | .ok c =>
        if c = Cell.WALL then
          match writeCell maze midX midY Cell.PATH with
          | .error e => .error e
          | .ok maze1 =>
            match writeCell maze1 next.x next.y Cell.PATH with
            | .error e => .error e
            | .ok maze2 =>
              match rec maze2 next n (log ++ [⟨current, ⟨midX, midY⟩, next⟩]) with
              | .error e => .error e
              | .ok (maze3, n3, log3) => carveLoopLog rec current rest maze3 n3 log3
        else carveLoopLog rec current rest maze n log

/-- The function `recursiveBacktrack` with the log of `carveLoopLog`. -/
def recursiveBacktrackLog (sh : ShuffleOracle) :
    Nat → Maze → Position → Nat → List CarveEvent →
      Except Fault (Maze × Nat × List CarveEvent)
  | 0, _, _, _, _ => .error .outOfFuel
  | fuel + 1, maze, current, n, log =>
    carveLoopLog (recursiveBacktrackLog sh fuel) current
      (sh.run n (getNeighbors current)) maze (n + 1) log

/-- The first part of `generateMaze`, up to and including the call
`recursiveBacktrack(maze, start)`: the grid as it is before End's neighbours
are opened. -/
def carveMaze (fuel : Nat) (sh : ShuffleOracle) (level : Int) : Except Fault Maze :=
  let width := levelWidth level
  let height := levelHeight level
  let maze0 : Maze := List.replicate height.toNat (List.replicate width.toNat Cell.WALL)
  let start : Position := ⟨1, 1⟩
  let goal : Position := ⟨width - 2, height - 2⟩
  match writeCell maze0 start.x start.y Cell.START with
  | .error e => .error e
  | .ok maze1 =>
    match writeCell maze1 goal.x goal.y Cell.END with
    | .error e => .error e
    | .ok maze2 =>
      match recursiveBacktrack sh fuel maze2 start 0 with
      | .error e => .error e
      | .ok (maze3, _) => .ok maze3

/-- The function `carveMaze` run with the log: the grid before End's
neighbours are opened, and the carving steps that produced it, in order. -/
def carveMazeLog (fuel : Nat) (sh : ShuffleOracle) (level : Int) :
    Except Fault (Maze × List CarveEvent) :=
  let width := levelWidth level
  let height := levelHeight level
  let maze0 : Maze := List.replicate height.toNat (List.replicate width.toNat Cell.WALL)
  let start : Position := ⟨1, 1⟩
  let goal : Position := ⟨width - 2, height - 2⟩
  match writeCell maze0 start.x start.y Cell.START with
  | .error e => .error e
  | .ok maze1 =>
    match writeCell maze1 goal.x goal.y Cell.END with
    | .error e => .error e
    | .ok maze2 =>
      match recursiveBacktrackLog sh fuel maze2 start 0 [] with
      | .error e => .error e
      | .ok (maze3, _, log) => .ok (maze3, log)

/-! ## Counting cells -/

/-- The index pairs (column, row) of a `w × h` grid. -/
def gridBox (w h : Nat) : Finset (Nat × Nat) :=
  Finset.range w ×ˢ Finset.range h

/-- Number of cells of a `w × h` grid that are not `WALL`. -/
def nonWallCount (w h : Nat) (m : Maze) : Nat :=
  ((gridBox w h).filter (fun p => NonWall m ⟨(p.1 : Int), (p.2 : Int)⟩)).card

/-- Number of non-`WALL` cells both of whose coordinates are odd. -/
def openRoomCount (w h : Nat) (m : Maze) : Nat :=
  ((gridBox w h).filter
    (fun p => NonWall m ⟨(p.1 : Int), (p.2 : Int)⟩ ∧ p.1 % 2 = 1 ∧ p.2 % 2 = 1)).card

/-- Number of `WALL` cells strictly inside the border of a `w × h` grid. -/
def interiorWallCount (w h : Nat) (m : Maze) : Nat :=
  ((gridBox w h).filter
    (fun p => Interior w h (p.1 : Int) (p.2 : Int) ∧
      cellAt m (p.1 : Int) (p.2 : Int) = some Cell.WALL)).card

/-! ## Invariants of the carving -/

/-- What the backtracker maintains beyond `GenInv`, and what makes the carved
cells a tree: open cells other than End stay within the rooms' range; a room
that is still `WALL` has no open neighbour; the open cells carry a rank (the
order in which they were opened) that differs along every passage and gives
every cell at most one neighbour of smaller rank; and there are twice as many
open cells as open rooms. -/
structure TreeInv (w h : Nat) (m : Maze) : Prop where
  deep : ∀ p : Position, NonWall m p →
    (p.x = (w : Int) - 2 ∧ p.y = (h : Int) - 2) ∨ (p.x ≤ (w : Int) - 3 ∧ p.y ≤ (h : Int) - 3)
  closedRooms : ∀ r : Position, Room w h r → cellAt m r.x r.y = some Cell.WALL →
    ∀ q, Adjacent r q → ¬ NonWall m q
  rank : ∃ (t : Position → Nat) (bound : Nat), (∀ a, NonWall m a → t a < bound) ∧
    (∀ a b, (mazeGraph m).Adj a b → t a ≠ t b) ∧
    (∀ a b c, (mazeGraph m).Adj a b → (mazeGraph m).Adj a c → t b < t a → t c < t a → b = c)
  count : nonWallCount w h m = 2 * openRoomCount w h m

/-- What holds of every entry of the carving log: the loop ran at a room, the
candidate is a room two cells away, and the cell opened between them is their
midpoint, which has exactly one odd coordinate. -/
def LogOK (w h : Nat) (log : List CarveEvent) : Prop :=
  ∀ e ∈ log, Room w h e.current ∧ Room w h e.next ∧ e.next ∈ getNeighbors e.current ∧
    Adjacent e.current e.mid ∧ Adjacent e.mid e.next ∧
    ((e.mid.x % 2 = 1 ∧ e.mid.y % 2 = 0) ∨ (e.mid.x % 2 = 0 ∧ e.mid.y % 2 = 1))

/-- The positions of a carving step: the candidate `(nx, ny)` lies two cells
from the current room `(cx, cy)` along one axis, with `(mx, my)` between them. -/
def StepGeo (cx cy nx ny mx my : Int) : Prop :=
  (nx = cx + 2 ∧ ny = cy ∧ mx = cx + 1 ∧ my = cy) ∨
  (nx = cx - 2 ∧ ny = cy ∧ mx = cx - 1 ∧ my = cy) ∨
  (nx = cx ∧ ny = cy + 2 ∧ mx = cx ∧ my = cy + 1) ∨
  (nx = cx ∧ ny = cy - 2 ∧ mx = cx ∧ my = cy - 1)

/-- The cells the log says were opened are `PATH` in the grid. -/
def LogCarved (m : Maze) (log : List CarveEvent) : Prop :=
  ∀ e ∈ log, cellAt m e.mid.x e.mid.y = some Cell.PATH ∧
    cellAt m e.next.x e.next.y = some Cell.PATH

/-- What is known of the grid `m3` that `carveMaze` returns and of the log of
the run, for a `w × h` grid. -/
structure CarvePost (w h : Nat) (m3 : Maze) (log : List CarveEvent) : Prop where
  inv : GenInv w h m3
  tree : TreeInv w h m3
  logOK : LogOK w h log
  logLength : openRoomCount w h m3 = log.length + 1
  logCarved : LogCarved m3 log
  rooms : ∀ p, Room w h p → NonWall m3 p
  reach : ∀ p : Position, NonWall m3 p → ¬ (p.x = (w : Int) - 2 ∧ p.y = (h : Int) - 2) →
    Reach m3 ⟨1, 1⟩ p

/-- How the grid `m4` returned by `generateMaze` relates to the grid `m3` it
had before the loop over End's neighbours. -/
structure GoalPost (w h : Nat) (m3 m4 : Maze) : Prop where
  inv : GenInv w h m4
  carved : Carved m3 m4
  same : ∀ x y, ¬ (x = (w : Int) - 3 ∧ y = (h : Int) - 2) →
    ¬ (x = (w : Int) - 2 ∧ y = (h : Int) - 3) → cellAt m4 x y = cellAt m3 x y
  west : cellAt m4 ((w : Int) - 3) ((h : Int) - 2) = some Cell.PATH
  north : cellAt m4 ((w : Int) - 2) ((h : Int) - 3) = some Cell.PATH
  westBefore : cellAt m3 ((w : Int) - 3) ((h : Int) - 2) = some Cell.WALL
  northBefore : cellAt m3 ((w : Int) - 2) ((h : Int) - 3) = some Cell.WALL

/-- The list `l` is a cycle of the grid: at least three distinct non-`WALL`
cells, each adjacent to the next and the last adjacent to the first. -/
def IsGridCycle (m : Maze) (l : List Position) : Prop :=
  3 ≤ l.length ∧ l.Nodup ∧ (∀ p ∈ l, NonWall m p) ∧ l.Chain' Adjacent ∧
    ∃ a b, l.head? = some a ∧ l.getLast? = some b ∧ Adjacent b a

/-- The 2 by 2 block of cells whose upper left corner is `(x, y)` has no
`WALL` cell. -/
def OpenBlock (m : Maze) (x y : Int) : Prop :=
  NonWall m ⟨x, y⟩ ∧ NonWall m ⟨x + 1, y⟩ ∧ NonWall m ⟨x, y + 1⟩ ∧ NonWall m ⟨x + 1, y + 1⟩

/-- The key that moves the player from `a` to the adjacent cell `b`. -/
def keyFor (a b : Position) : Char :=
  if b.y = a.y - 1 then 'w'
  else if b.y = a.y + 1 then 's'
  else if b.x = a.x - 1 then 'a'
  else 'd'

/-- The keys that walk the player along the cells of `l`, one per move. -/
def keysAlong : List Position → List Char
  | a :: b :: rest => keyFor a b :: keysAlong (b :: rest)
  | _ => []

/-- Every `WALL` cell of `m'` is a `WALL` cell of `m`. -/
def NoNewWall (m m' : Maze) : Prop :=
  ∀ x y, cellAt m' x y = some Cell.WALL → cellAt m x y = some Cell.WALL

/-- Number of cells of the grid that are not `WALL`, counted row by row. -/
def nonWallCells (m : Maze) : Nat :=
  (m.map (fun row => row.countP (fun c => decide (c ≠ Cell.WALL)))).sum

/-! ## Lemmas -/

theorem cellAt_ne_none_iff {w h : Nat} {m : Maze} (hr : Rect w h m) (x y : Int) :
    cellAt m x y ≠ none ↔ 0 ≤ x ∧ x < w ∧ 0 ≤ y ∧ y < h := by
  obtain ⟨hlen, hrow⟩ := hr
  unfold cellAt
  by_cases hneg : x < 0 ∨ y < 0
  · simp only [hneg, if_true]
    constructor
    · intro hc; exact absurd rfl hc
    · intro hc; omega
  · simp only [hneg, if_false]
    by_cases hy : y.toNat < m.length
    · have hrl : (m[y.toNat]).length = w := hrow _ (List.getElem_mem _)
      rw [List.getElem?_eq_getElem hy]
      simp only []
      rw [ne_eq, List.getElem?_eq_none_iff, hrl]
      omega
    · rw [List.getElem?_eq_none (by omega)]
      simp only []
      constructor
      · intro hc; exact absurd rfl hc
      · intro hc; omega

theorem cellAt_exists {w h : Nat} {m : Maze} (hr : Rect w h m) {x y : Int}
    (hx : 0 ≤ x) (hxw : x < w) (hy : 0 ≤ y) (hyh : y < h) : ∃ c, cellAt m x y = some c := by
  have := (cellAt_ne_none_iff hr x y).2 ⟨hx, hxw, hy, hyh⟩
  exact Option.ne_none_iff_exists'.1 this

theorem writeCell_ok {w h : Nat} {m : Maze} (hr : Rect w h m) {x y : Int} (c : Cell)
    (hx : 0 ≤ x) (hxw : x < w) (hy : 0 ≤ y) (hyh : y < h) :
    ∃ m', writeCell m x y c = .ok m' ∧ Rect w h m' ∧
      ∀ x' y', cellAt m' x' y' = if x' = x ∧ y' = y then some c else cellAt m x' y' := by
  obtain ⟨hlen, hrow⟩ := hr
  have hyl : y.toNat < m.length := by omega
  have hrl : (m[y.toNat]).length = w := hrow _ (List.getElem_mem _)
  have hxl : x.toNat < (m[y.toNat]).length := by omega
  refine ⟨m.set y.toNat ((m[y.toNat]).set x.toNat c), ?_, ⟨?_, ?_⟩, ?_⟩
  · unfold writeCell
    rw [if_neg (by omega), List.getElem?_eq_getElem hyl]
    simp only [hxl, if_true]
  · rw [List.length_set]; exact hlen
  · intro row hmem
    rcases List.mem_or_eq_of_mem_set hmem with h1 | h1
    · exact hrow _ h1
    · rw [h1, List.length_set]; exact hrl
  · intro x' y'
    unfold cellAt
    by_cases hneg : x' < 0 ∨ y' < 0
    · have : ¬ (x' = x ∧ y' = y) := by omega
      simp only [hneg, if_true, this, if_false]
    · simp only [hneg, if_false]
      rw [List.getElem?_set]
      by_cases hyy : y.toNat = y'.toNat
      · have hyeq : y' = y := by omega
        subst hyeq
        simp only [if_true, hyl, List.getElem?_eq_getElem hyl, and_true]
        rw [List.getElem?_set]
        by_cases hxx : x.toNat = x'.toNat
        · have hxeq : x' = x := by omega
          subst hxeq
          simp only [if_true, hxl]
        · have hxne : ¬ x' = x := by omega
          simp only [hxx, hxne, if_false]
      · have hyne : ¬ y' = y := by omega
        simp only [hyy, hyne, if_false, and_false]

theorem sizeSub1_pos {n : Nat} (hn : 0 < n) : (sizeSub1 n : Int) = (n : Int) - 1 := by
  unfold sizeSub1
  rw [if_neg (by omega)]
  omega

theorem isValidMove_rect {w h : Nat} {m : Maze} (hr : Rect w h m) (hw : 0 < w) (hh : 0 < h)
    (x y : Int) :
    isValidMove x y m = .ok (decide (Interior w h x y ∧ cellAt m x y = some Cell.WALL)) := by
  obtain ⟨hlen, hrow⟩ := hr
  cases m with
  | nil => simp at hlen; omega
  | cons row0 rest =>
    have hw0 : row0.length = w := hrow _ (List.mem_cons_self _ _)
    unfold isValidMove Interior
    by_cases h1 : x ≤ 0
    · rw [if_pos h1]
      have : ¬ 0 < x := by omega
      simp [this]
    · rw [if_neg h1]
      simp only []
      rw [hw0, hlen, sizeSub1_pos hw, sizeSub1_pos hh]
      by_cases h2 : (w : Int) - 1 ≤ x
      · rw [if_pos h2]
        have : ¬ x < (w : Int) - 1 := by omega
        simp [this]
      · rw [if_neg h2]
        by_cases h3 : y ≤ 0
        · rw [if_pos h3]
          have : ¬ 0 < y := by omega
          simp [this]
        · rw [if_neg h3]
          by_cases h4 : (h : Int) - 1 ≤ y
          · rw [if_pos h4]
            have : ¬ y < (h : Int) - 1 := by omega
            simp [this]
          · rw [if_neg h4]
            have hin : (0 < x ∧ x < (w : Int) - 1 ∧ 0 < y ∧ y < (h : Int) - 1) := by omega
            obtain ⟨c, hc⟩ := cellAt_exists (m := row0 :: rest) ⟨hlen, hrow⟩
              (show 0 ≤ x by omega) (show x < w by omega) (show 0 ≤ y by omega)
              (show y < h by omega)
            unfold readCell
            rw [hc]
            simp [hin]

theorem Carved.refl (m : Maze) : Carved m m := by
  intro x y
  exact ⟨fun h => h, fun _ h _ => h, fun h => Or.inl h⟩

theorem Carved.trans {m1 m2 m3 : Maze} (h12 : Carved m1 m2) (h23 : Carved m2 m3) :
    Carved m1 m3 := by
  intro x y
  obtain ⟨a1, b1, c1⟩ := h12 x y
  obtain ⟨a2, b2, c2⟩ := h23 x y
  refine ⟨fun h => a2 (a1 h), fun c hc hne => b2 c (b1 c hc hne) hne, fun h => ?_⟩
  rcases c1 h with h' | h'
  · exact c2 h'
  · exact Or.inr (b2 _ h' (by decide))

theorem Carved.nonWall {m m' : Maze} (hc : Carved m m') {p : Position} (hp : NonWall m p) :
    NonWall m' p := by
  obtain ⟨h1, h2⟩ := hp
  obtain ⟨c, hcell⟩ := Option.ne_none_iff_exists'.1 h1
  have hne : c ≠ Cell.WALL := by
    intro heq; rw [hcell, heq] at h2; exact h2 rfl
  have := (hc p.x p.y).2.1 c hcell hne
  unfold NonWall
  rw [this]
  exact ⟨by simp, by simpa using hne⟩

theorem Carved.reach {m m' : Maze} (hc : Carved m m') {a b : Position} (hab : Reach m a b) :
    Reach m' a b := by
  refine SimpleGraph.Reachable.mono ?_ hab
  intro u v huv
  exact ⟨huv.1, hc.nonWall huv.2.1, hc.nonWall huv.2.2⟩

theorem Reach.step {m : Maze} {a b : Position} (hadj : Adjacent a b) (ha : NonWall m a)
    (hb : NonWall m b) : Reach m a b :=
  SimpleGraph.Adj.reachable (G := mazeGraph m) ⟨hadj, ha, hb⟩

theorem wallCount_le_area (w h : Nat) (m : Maze) : wallCount w h m ≤ w * h := by
  unfold wallCount
  refine (Finset.card_filter_le _ _).trans ?_
  rw [Finset.card_product, Finset.card_range, Finset.card_range]

theorem Carved.wallCount_le {m m' : Maze} (hc : Carved m m') (w h : Nat) :
    wallCount w h m' ≤ wallCount w h m := by
  unfold wallCount
  apply Finset.card_le_card
  intro p hp
  rw [Finset.mem_filter] at hp ⊢
  refine ⟨hp.1, ?_⟩
  by_contra hne
  cases hcell : cellAt m (p.1 : Int) (p.2 : Int) with
  | none =>
    have := (hc _ _).1 hcell
    rw [this] at hp
    exact absurd hp.2 (by simp)
  | some c =>
    have hcw : c ≠ Cell.WALL := by
      intro heq; rw [hcell, heq] at hne; exact hne rfl
    have := (hc _ _).2.1 c hcell hcw
    rw [this] at hp
    exact hcw (Option.some.inj hp.2)

theorem Carved.wallCount_lt {m m' : Maze} (hc : Carved m m') {w h : Nat} {x y : Int}
    (hx : 0 ≤ x) (hxw : x < w) (hy : 0 ≤ y) (hyh : y < h)
    (hwall : cellAt m x y = some Cell.WALL) (hopen : cellAt m' x y ≠ some Cell.WALL) :
    wallCount w h m' < wallCount w h m := by
  unfold wallCount
  apply Finset.card_lt_card
  rw [Finset.ssubset_iff_of_subset]
  · refine ⟨(x.toNat, y.toNat), ?_, ?_⟩
    · rw [Finset.mem_filter, Finset.mem_product, Finset.mem_range, Finset.mem_range]
      refine ⟨⟨by omega, by omega⟩, ?_⟩
      simp only [Int.toNat_of_nonneg hx, Int.toNat_of_nonneg hy]
      exact hwall
    · rw [Finset.mem_filter]
      simp only [Int.toNat_of_nonneg hx, Int.toNat_of_nonneg hy]
      exact fun hmem => hopen hmem.2
  · intro p hp
    rw [Finset.mem_filter] at hp ⊢
    refine ⟨hp.1, ?_⟩
    by_contra hne
    cases hcell : cellAt m (p.1 : Int) (p.2 : Int) with
    | none =>
      have := (hc _ _).1 hcell
      rw [this] at hp
      exact absurd hp.2 (by simp)
    | some c =>
      have hcw : c ≠ Cell.WALL := by
        intro heq; rw [hcell, heq] at hne; exact hne rfl
      have := (hc _ _).2.1 c hcell hcw
      rw [this] at hp
      exact hcw (Option.some.inj hp.2)

/-- Carving one interior cell that is neither Start nor on even coordinates. -/
theorem carve_one {w h : Nat} {m : Maze} (hinv : GenInv w h m) {x y : Int}
    (hin : Interior w h x y) (hodd : x % 2 = 1 ∨ y % 2 = 1) (hns : ¬ (x = 1 ∧ y = 1)) :
    ∃ m1, writeCell m x y Cell.PATH = .ok m1 ∧ GenInv w h m1 ∧ Carved m m1 ∧
      cellAt m1 x y = some Cell.PATH ∧
      ∀ x' y', ¬ (x' = x ∧ y' = y) → cellAt m1 x' y' = cellAt m x' y' := by
  obtain ⟨h1, h2, h3, h4⟩ := hin
  obtain ⟨d1, d2, d3, d4⟩ := hinv.dims
  obtain ⟨m1, hw1, hr1, hc1⟩ := writeCell_ok hinv.rect Cell.PATH
    (show 0 ≤ x by omega) (show x < w by omega) (show 0 ≤ y by omega) (show y < h by omega)
  have hsame : cellAt m1 x y = some Cell.PATH := by rw [hc1]; simp
  have hother : ∀ x' y', ¬ (x' = x ∧ y' = y) → cellAt m1 x' y' = cellAt m x' y' := by
    intro x' y' hne; rw [hc1, if_neg hne]
  obtain ⟨c0, hc0⟩ := cellAt_exists hinv.rect
    (show 0 ≤ x by omega) (show x < w by omega) (show 0 ≤ y by omega) (show y < h by omega)
  have hc0' : c0 = Cell.WALL ∨ c0 = Cell.PATH := by
    rcases hinv.others x y c0 hc0 with h | h | h | h
    · exact Or.inl h
    · exact Or.inr h
    · exact absurd ⟨h.2.1, h.2.2⟩ hns
    · omega
  refine ⟨m1, hw1, ?_, ?_, hsame, hother⟩
  · refine ⟨hinv.dims, hr1, ?_, ?_, ?_, ?_, ?_⟩
    · intro x' y' c hc hne
      by_cases hxy : x' = x ∧ y' = y
      · rw [hxy.1, hxy.2]; exact ⟨h1, h2, h3, h4⟩
      · rw [hother x' y' hxy] at hc; exact hinv.inside x' y' c hc hne
    · rw [hother 1 1 (by omega)]; exact hinv.start
    · rw [hother _ _ (by omega)]; exact hinv.goal
    · intro x' y' c hc
      by_cases hxy : x' = x ∧ y' = y
      · rw [hxy.1, hxy.2, hsame] at hc
        exact Or.inr (Or.inl (Option.some.inj hc).symm)
      · rw [hother x' y' hxy] at hc; exact hinv.others x' y' c hc
    · intro x' y' c hc hx' hy'
      by_cases hxy : x' = x ∧ y' = y
      · omega
      · rw [hother x' y' hxy] at hc; exact hinv.evens x' y' c hc hx' hy'
  · intro x' y'
    by_cases hxy : x' = x ∧ y' = y
    · rw [hxy.1, hxy.2, hsame, hc0]
      refine ⟨fun h => by simp at h, fun c hc hne => ?_, fun _ => Or.inr rfl⟩
      have hcc : c0 = c := Option.some.inj hc
      rcases hc0' with h | h
      · exact absurd (hcc ▸ h) hne
      · rw [← hcc, h]
    · rw [hother x' y' hxy]
      exact ⟨fun h => h, fun _ h _ => h, fun h => Or.inl h⟩

theorem Closed.carved {w h : Nat} {m m' : Maze} {p : Position} (hcl : Closed w h m p)
    (hc : Carved m m') : Closed w h m' p :=
  fun q hq hroom => hc.nonWall (hcl q hq hroom)

/-- The midpoint computed for a candidate that passed `isValidMove`. -/
theorem mid_facts {w h : Nat} {cur next : Position} (hcur : Room w h cur)
    (hmem : next ∈ getNeighbors cur) (hin : Interior w h next.x next.y) :
    Room w h next ∧
    Interior w h ((cur.x + next.x).tdiv 2) ((cur.y + next.y).tdiv 2) ∧
    (((cur.x + next.x).tdiv 2) % 2 = 1 ∨ ((cur.y + next.y).tdiv 2) % 2 = 1) ∧
    ¬ (((cur.x + next.x).tdiv 2) % 2 = 1 ∧ ((cur.y + next.y).tdiv 2) % 2 = 1) ∧
    Adjacent cur ⟨(cur.x + next.x).tdiv 2, (cur.y + next.y).tdiv 2⟩ ∧
    Adjacent ⟨(cur.x + next.x).tdiv 2, (cur.y + next.y).tdiv 2⟩ next := by
  obtain ⟨⟨c1, c2, c3, c4⟩, c5, c6⟩ := hcur
  obtain ⟨n1, n2, n3, n4⟩ := hin
  have hx : (cur.x + next.x).tdiv 2 = (cur.x + next.x) / 2 :=
    Int.tdiv_eq_ediv (by omega) (by omega)
  have hy : (cur.y + next.y).tdiv 2 = (cur.y + next.y) / 2 :=
    Int.tdiv_eq_ediv (by omega) (by omega)
  rw [hx, hy]
  unfold Room Interior Adjacent
  simp only [getNeighbors, List.mem_cons, List.mem_singleton, List.not_mem_nil, or_false] at hmem
  rcases hmem with h | h | h | h <;> subst h <;> simp only [] at * <;> omega

theorem nonWall_of_interior {w h : Nat} {m : Maze} (hr : Rect w h m) {p : Position}
    (hin : Interior w h p.x p.y) (hne : cellAt m p.x p.y ≠ some Cell.WALL) : NonWall m p := by
  obtain ⟨h1, h2, h3, h4⟩ := hin
  exact ⟨(cellAt_ne_none_iff hr p.x p.y).2 ⟨by omega, by omega, by omega, by omega⟩, hne⟩

theorem wall_of_not_nonWall {m m0 : Maze} (hc : Carved m0 m) {p : Position}
    (hw : cellAt m0 p.x p.y = some Cell.WALL) (hn : ¬ NonWall m p) :
    cellAt m p.x p.y = some Cell.WALL := by
  rcases (hc p.x p.y).2.2 hw with h' | h'
  · exact h'
  · exact absurd ⟨by rw [h']; simp, by rw [h']; simp⟩ hn

/-- The neighbour loop, given a recursive call that meets its specification on
every grid with fewer than `fuel` walls. -/
theorem carveLoop_spec {w h : Nat}
    (rec : Maze → Position → Nat → Except Fault (Maze × Nat)) (fuel : Nat)
    (hrec : ∀ m cur n, GenInv w h m → Room w h cur → NonWall m cur →
      wallCount w h m < fuel →
      ∃ m' n', rec m cur n = .ok (m', n') ∧ LoopPost w h m cur (getNeighbors cur) m')
    (cur : Position) (hcur : Room w h cur) :
    ∀ (l : List Position), (∀ q ∈ l, q ∈ getNeighbors cur) →
      ∀ m n, GenInv w h m → NonWall m cur → wallCount w h m ≤ fuel →
      ∃ m' n', carveLoop rec cur l m n = .ok (m', n') ∧ LoopPost w h m cur l m' := by
  intro l
  induction l with
  | nil =>
    intro _ m n hinv _ _
    refine ⟨m, n, rfl, hinv, Carved.refl m, ?_, ?_⟩
    · intro p hp hnw; exact absurd hp hnw.2
    · intro q hq; simp at hq
  | cons next rest ih =>
    intro hsub m n hinv hnw hfuel
    have hrest : ∀ q ∈ rest, q ∈ getNeighbors cur :=
      fun q hq => hsub q (List.mem_cons_of_mem _ hq)
    have hnext : next ∈ getNeighbors cur := hsub next (List.mem_cons_self _ _)
    obtain ⟨d1, d2, d3, d4⟩ := hinv.dims
    have hvalid := isValidMove_rect hinv.rect (show 0 < w by omega) (show 0 < h by omega)
      next.x next.y
    by_cases hgo : Interior w h next.x next.y ∧ cellAt m next.x next.y = some Cell.WALL
    · -- the candidate is carved and the recursion descends into it
      obtain ⟨hin, hwall⟩ := hgo
      obtain ⟨hroom, hmin, hmodd, hmnot, hadj1, hadj2⟩ := mid_facts hcur hnext hin
      obtain ⟨m1, hw1, hinv1, hcv1, hmid1, hoth1⟩ :=
        carve_one hinv hmin hmodd (by omega)
      have hns : ¬ (next.x = 1 ∧ next.y = 1) := by
        intro hxy
        have hst := hinv.start
        rw [hxy.1, hxy.2, hst] at hwall
        exact absurd hwall (by simp)
      obtain ⟨m2, hw2, hinv2, hcv2, hnext2, hoth2⟩ :=
        carve_one hinv1 hin (Or.inl hroom.2.1) hns
      have hcv02 : Carved m m2 := hcv1.trans hcv2
      have hnw2next : NonWall m2 next := ⟨by rw [hnext2]; simp, by rw [hnext2]; simp⟩
      have hlt : wallCount w h m2 < wallCount w h m := by
        obtain ⟨i1, i2, i3, i4⟩ := hin
        exact hcv02.wallCount_lt (by omega) (by omega) (by omega) (by omega) hwall
          (by rw [hnext2]; simp)
      obtain ⟨m3, n3, hrun3, hpost3⟩ := hrec m2 next n hinv2 hroom hnw2next (by omega)
      have hcv03 : Carved m m3 := hcv02.trans hpost3.carved
      obtain ⟨m', n', hrun, hpost⟩ := ih hrest m3 n3 hpost3.inv (hcv03.nonWall hnw)
        ((hcv03.wallCount_le w h).trans hfuel)
      refine ⟨m', n', ?_, hpost.inv, hcv03.trans hpost.carved, ?_, ?_⟩
      · rw [carveLoop, hvalid]
        simp only [hin, hwall, and_self, decide_True]
        rw [readCell, hwall]
        simp only [if_true, hw1, hw2, hrun3]
        exact hrun
      · intro p hp hnwp
        have hmidnw : NonWall m' ⟨(cur.x + next.x).tdiv 2, (cur.y + next.y).tdiv 2⟩ := by
          apply hpost.carved.nonWall
          apply hpost3.carved.nonWall
          apply hcv2.nonWall
          exact ⟨by rw [hmid1]; simp, by rw [hmid1]; simp⟩
        have hnextnw : NonWall m' next :=
          hpost.carved.nonWall (hpost3.carved.nonWall hnw2next)
        have hcurnw : NonWall m' cur := hpost.carved.nonWall (hcv03.nonWall hnw)
        have hreach_next : Reach m' cur next :=
          (Reach.step hadj1 hcurnw hmidnw).trans (Reach.step hadj2 hmidnw hnextnw)
        by_cases h3 : NonWall m3 p
        · by_cases h2 : cellAt m2 p.x p.y = some Cell.WALL
          · obtain ⟨hr, hcl⟩ := hpost3.fresh p h2 h3
            exact ⟨hreach_next.trans (hpost.carved.reach hr),
              fun hp' => (hcl hp').carved hpost.carved⟩
          · by_cases hpn : p.x = next.x ∧ p.y = next.y
            · have hpe : p = next := by
                cases p; cases next; simp only [Position.mk.injEq]; exact hpn
              subst hpe
              exact ⟨hreach_next, fun _ => Closed.carved hpost3.done hpost.carved⟩
            · by_cases hpm : p.x = (cur.x + next.x).tdiv 2 ∧ p.y = (cur.y + next.y).tdiv 2
              · have hpe : p = ⟨(cur.x + next.x).tdiv 2, (cur.y + next.y).tdiv 2⟩ := by
                  cases p; simp only [Position.mk.injEq]; exact hpm
                subst hpe
                refine ⟨Reach.step hadj1 hcurnw hmidnw, fun hp' => ?_⟩
                exact absurd ⟨hp'.2.1, hp'.2.2⟩ hmnot
              · rw [hoth2 _ _ hpn, hoth1 _ _ hpm] at h2
                exact absurd hp h2
        · exact hpost.fresh p (wall_of_not_nonWall hcv03 hp h3) hnwp
      · intro q hq hqroom
        rcases List.mem_cons.1 hq with h' | h'
        · subst h'
          exact hpost.carved.nonWall (hpost3.carved.nonWall hnw2next)
        · exact hpost.done q h' hqroom
    · -- the candidate is skipped
      obtain ⟨m', n', hrun, hpost⟩ := ih hrest m n hinv hnw hfuel
      refine ⟨m', n', ?_, hpost.inv, hpost.carved, hpost.fresh, ?_⟩
      · rw [carveLoop, hvalid]
        simp only [hgo, decide_False]
        exact hrun
      · intro q hq hqroom
        rcases List.mem_cons.1 hq with h' | h'
        · subst h'
          apply hpost.carved.nonWall
          apply nonWall_of_interior hinv.rect hqroom.1
          intro hwall
          exact hgo ⟨hqroom.1, hwall⟩
        · exact hpost.done q h' hqroom

/-- Specification of `recursiveBacktrack` on a grid that meets the generation
invariant, started in an open room: with more fuel than the grid has walls it
returns, and what it returns satisfies `LoopPost`. -/
theorem recursiveBacktrack_spec {w h : Nat} (sh : ShuffleOracle) :
    ∀ (fuel : Nat) (m : Maze) (cur : Position) (n : Nat),
      GenInv w h m → Room w h cur → NonWall m cur → wallCount w h m < fuel →
      ∃ m' n', recursiveBacktrack sh fuel m cur n = .ok (m', n') ∧
        LoopPost w h m cur (getNeighbors cur) m' := by
  intro fuel
  induction fuel with
  | zero => intro m cur n _ _ _ hlt; omega
  | succ fuel ih =>
    intro m cur n hinv hroom hnw hlt
    have hperm := sh.perm n (getNeighbors cur)
    obtain ⟨m', n', hrun, hpost⟩ :=
      carveLoop_spec (recursiveBacktrack sh fuel) fuel ih cur hroom
        (sh.run n (getNeighbors cur)) (fun q hq => hperm.mem_iff.1 hq) m (n + 1) hinv hnw
        (by omega)
    refine ⟨m', n', ?_, hpost.inv, hpost.carved, hpost.fresh, ?_⟩
    · rw [recursiveBacktrack]; exact hrun
    · intro q hq hqroom
      exact hpost.done q (hperm.mem_iff.2 hq) hqroom

theorem rect_replicate (w h : Nat) :
    Rect w h (List.replicate h (List.replicate w Cell.WALL)) := by
  refine ⟨List.length_replicate _ _, fun row hrow => ?_⟩
  rw [List.eq_of_mem_replicate hrow, List.length_replicate]

theorem cellAt_replicate (w h : Nat) {x y : Int} {c : Cell}
    (hc : cellAt (List.replicate h (List.replicate w Cell.WALL)) x y = some c) :
    c = Cell.WALL := by
  unfold cellAt at hc
  by_cases hneg : x < 0 ∨ y < 0
  · rw [if_pos hneg] at hc; exact absurd hc (by simp)
  · rw [if_neg hneg] at hc
    cases hrow : (List.replicate h (List.replicate w Cell.WALL))[y.toNat]? with
    | none => rw [hrow] at hc; exact absurd hc (by simp)
    | some row =>
      rw [hrow] at hc
      simp only [] at hc
      have hmem : row ∈ List.replicate h (List.replicate w Cell.WALL) :=
        List.getElem?_mem hrow
      rw [List.eq_of_mem_replicate hmem] at hc
      exact (List.eq_of_mem_replicate (List.getElem?_mem hc))

/-- The grid after Start and End have been marked: it meets the invariant and
only Start and End are open. -/
theorem marked_grid {w h : Nat} (hd : Dims w h) :
    ∃ m1 m2,
      writeCell (List.replicate h (List.replicate w Cell.WALL)) 1 1 Cell.START = .ok m1 ∧
      writeCell m1 ((w : Int) - 2) ((h : Int) - 2) Cell.END = .ok m2 ∧
      GenInv w h m2 ∧
      ∀ x y c, cellAt m2 x y = some c → c ≠ Cell.WALL →
        (x = 1 ∧ y = 1) ∨ (x = (w : Int) - 2 ∧ y = (h : Int) - 2) := by
  obtain ⟨d1, d2, d3, d4⟩ := hd
  obtain ⟨m1, hw1, hr1, hc1⟩ := writeCell_ok (rect_replicate w h) Cell.START
    (show (0 : Int) ≤ 1 by omega) (show (1 : Int) < w by omega) (show (0 : Int) ≤ 1 by omega)
    (show (1 : Int) < h by omega)
  obtain ⟨m2, hw2, hr2, hc2⟩ := writeCell_ok hr1 Cell.END
    (show (0 : Int) ≤ (w : Int) - 2 by omega) (show (w : Int) - 2 < w by omega)
    (show (0 : Int) ≤ (h : Int) - 2 by omega) (show (h : Int) - 2 < h by omega)
  have hcell : ∀ x y c, cellAt m2 x y = some c →
      (c = Cell.END ∧ x = (w : Int) - 2 ∧ y = (h : Int) - 2) ∨
      (c = Cell.START ∧ x = 1 ∧ y = 1) ∨ c = Cell.WALL := by
    intro x y c hc
    rw [hc2] at hc
    by_cases hg : x = (w : Int) - 2 ∧ y = (h : Int) - 2
    · rw [if_pos hg] at hc
      exact Or.inl ⟨(Option.some.inj hc).symm, hg.1, hg.2⟩
    · rw [if_neg hg, hc1] at hc
      by_cases hs : x = 1 ∧ y = 1
      · rw [if_pos hs] at hc
        exact Or.inr (Or.inl ⟨(Option.some.inj hc).symm, hs.1, hs.2⟩)
      · rw [if_neg hs] at hc
        exact Or.inr (Or.inr (cellAt_replicate w h hc))
  refine ⟨m1, m2, hw1, hw2, ⟨⟨d1, d2, d3, d4⟩, hr2, ?_, ?_, ?_, ?_, ?_⟩, ?_⟩
  · intro x y c hc hne
    unfold Interior
    rcases hcell x y c hc with h' | h' | h'
    · omega
    · omega
    · exact absurd h' hne
  · rw [hc2, if_neg (by omega), hc1]; simp
  · rw [hc2]; simp
  · intro x y c hc
    rcases hcell x y c hc with h' | h' | h'
    · exact Or.inr (Or.inr (Or.inr h'))
    · exact Or.inr (Or.inr (Or.inl h'))
    · exact Or.inl h'
  · intro x y c hc hx hy
    rcases hcell x y c hc with h' | h' | h'
    · exact Or.inr h'.2
    · omega
    · exact Or.inl h'
  · intro x y c hc hne
    rcases hcell x y c hc with h' | h' | h'
    · exact Or.inr h'.2
    · exact Or.inl h'.2
    · exact absurd h' hne

/-- After the backtracker has run from Start on the marked grid, every room
is open and every open cell other than End is joined to Start. -/
theorem backtracked_grid {w h : Nat} {m2 m3 : Maze} (hinv2 : GenInv w h m2)
    (honly : ∀ x y c, cellAt m2 x y = some c → c ≠ Cell.WALL →
      (x = 1 ∧ y = 1) ∨ (x = (w : Int) - 2 ∧ y = (h : Int) - 2))
    (hpost : LoopPost w h m2 ⟨1, 1⟩ (getNeighbors ⟨1, 1⟩) m3) :
    (∀ p, Room w h p → NonWall m3 p) ∧
    (∀ p : Position, NonWall m3 p → ¬ (p.x = (w : Int) - 2 ∧ p.y = (h : Int) - 2) →
      Reach m3 ⟨1, 1⟩ p) := by
  obtain ⟨d1, d2, d3, d4⟩ := hinv2.dims
  -- a cell open in `m3` is Start, End, or was opened by the backtracker
  have hsplit : ∀ p : Position, NonWall m3 p →
      (p.x = 1 ∧ p.y = 1) ∨ (p.x = (w : Int) - 2 ∧ p.y = (h : Int) - 2) ∨
        cellAt m2 p.x p.y = some Cell.WALL := by
    intro p hp
    cases hc : cellAt m2 p.x p.y with
    | none => exact absurd ((hpost.carved p.x p.y).1 hc) hp.1
    | some c =>
      by_cases hcw : c = Cell.WALL
      · rw [hcw]; exact Or.inr (Or.inr rfl)
      · rcases honly p.x p.y c hc hcw with h' | h'
        · exact Or.inl h'
        · exact Or.inr (Or.inl h')
  have hclosed : ∀ p, Room w h p → NonWall m3 p → Closed w h m3 p := by
    intro p hroom hp
    rcases hsplit p hp with h' | h' | h'
    · have hpe : p = ⟨1, 1⟩ := by
        cases p; simp only [Position.mk.injEq]; exact h'
      rw [hpe]; exact hpost.done
    · obtain ⟨_, r1, r2⟩ := hroom
      omega
    · exact (hpost.fresh p h' hp).2 hroom
  have hstart : NonWall m3 ⟨1, 1⟩ := by
    have := hpost.inv.start
    exact ⟨by rw [this]; simp, by rw [this]; simp⟩
  have hgrid : ∀ k i j : Nat, i + j = k →
      Room w h ⟨1 + 2 * (i : Int), 1 + 2 * (j : Int)⟩ →
      NonWall m3 ⟨1 + 2 * (i : Int), 1 + 2 * (j : Int)⟩ := by
    intro k
    induction k with
    | zero =>
      intro i j hij _
      have hi : i = 0 := by omega
      have hj : j = 0 := by omega
      subst hi; subst hj
      exact hstart
    | succ k ih =>
      intro i j hij hroom
      obtain ⟨⟨r1, r2, r3, r4⟩, r5, r6⟩ := hroom
      simp only [] at r1 r2 r3 r4 r5 r6
      by_cases hi : 0 < i
      · obtain ⟨i', rfl⟩ : ∃ i', i = i' + 1 := ⟨i - 1, by omega⟩
        have hprev : Room w h ⟨1 + 2 * (i' : Int), 1 + 2 * (j : Int)⟩ := by
          refine ⟨⟨?_, ?_, ?_, ?_⟩, ?_, ?_⟩ <;> (simp only []; omega)
        have hopen := ih i' j (by omega) hprev
        have hcl := hclosed _ hprev hopen
        have hnext : (⟨1 + 2 * ((i' + 1 : Nat) : Int), 1 + 2 * (j : Int)⟩ : Position) ∈
            getNeighbors ⟨1 + 2 * (i' : Int), 1 + 2 * (j : Int)⟩ := by
          simp only [getNeighbors, List.mem_cons, Position.mk.injEq]
          left
          exact ⟨by push_cast; omega, trivial⟩
        exact hcl _ hnext ⟨⟨r1, r2, r3, r4⟩, r5, r6⟩
      · have hi0 : i = 0 := by omega
        subst hi0
        obtain ⟨j', rfl⟩ : ∃ j', j = j' + 1 := ⟨j - 1, by omega⟩
        have hprev : Room w h ⟨1 + 2 * ((0 : Nat) : Int), 1 + 2 * (j' : Int)⟩ := by
          refine ⟨⟨?_, ?_, ?_, ?_⟩, ?_, ?_⟩ <;> (simp only []; omega)
        have hopen := ih 0 j' (by omega) hprev
        have hcl := hclosed _ hprev hopen
        have hnext : (⟨1 + 2 * ((0 : Nat) : Int), 1 + 2 * ((j' + 1 : Nat) : Int)⟩ : Position) ∈
            getNeighbors ⟨1 + 2 * ((0 : Nat) : Int), 1 + 2 * (j' : Int)⟩ := by
          simp only [getNeighbors, List.mem_cons, Position.mk.injEq]
          right; right; left
          exact ⟨trivial, by push_cast; omega⟩
        exact hcl _ hnext ⟨⟨r1, r2, r3, r4⟩, r5, r6⟩
  refine ⟨?_, ?_⟩
  · intro p hroom
    obtain ⟨⟨r1, r2, r3, r4⟩, r5, r6⟩ := hroom
    have hx : p.x = 1 + 2 * (((p.x - 1) / 2).toNat : Int) := by omega
    have hy : p.y = 1 + 2 * (((p.y - 1) / 2).toNat : Int) := by omega
    have hpe : p = ⟨1 + 2 * (((p.x - 1) / 2).toNat : Int),
        1 + 2 * (((p.y - 1) / 2).toNat : Int)⟩ := by
      cases p; simp only [Position.mk.injEq]; exact ⟨hx, hy⟩
    rw [hpe]
    refine hgrid _ _ _ rfl ⟨⟨?_, ?_, ?_, ?_⟩, ?_, ?_⟩ <;> simp only [] <;> omega
  · intro p hp hng
    rcases hsplit p hp with h' | h' | h'
    · have hpe : p = ⟨1, 1⟩ := by
        cases p; simp only [Position.mk.injEq]; exact h'
      rw [hpe]
      exact SimpleGraph.Reachable.refl _
    · exact absurd h' hng
    · exact (hpost.fresh p h' hp).1

/-- The loop over End's four neighbours opens the two that are interior. -/
theorem openGoalNeighbors_spec {w h : Nat} {m3 : Maze} (hinv : GenInv w h m3) :
    ∃ m4, openGoalNeighbors (w : Int) (h : Int)
        [⟨(w : Int) - 2 - 1, (h : Int) - 2⟩, ⟨(w : Int) - 2 + 1, (h : Int) - 2⟩,
          ⟨(w : Int) - 2, (h : Int) - 2 - 1⟩, ⟨(w : Int) - 2, (h : Int) - 2 + 1⟩] m3 = .ok m4 ∧
      GenInv w h m4 ∧ Carved m3 m4 ∧
      cellAt m4 ((w : Int) - 2 - 1) ((h : Int) - 2) = some Cell.PATH ∧
      cellAt m4 ((w : Int) - 2) ((h : Int) - 2 - 1) = some Cell.PATH ∧
      ∀ x y, ¬ (x = (w : Int) - 2 - 1 ∧ y = (h : Int) - 2) →
        ¬ (x = (w : Int) - 2 ∧ y = (h : Int) - 2 - 1) → cellAt m4 x y = cellAt m3 x y := by
  obtain ⟨d1, d2, d3, d4⟩ := hinv.dims
  obtain ⟨ma, hwa, hinva, hcva, hcella, hotha⟩ :=
    carve_one (x := (w : Int) - 2 - 1) (y := (h : Int) - 2) hinv
      (by unfold Interior; omega) (by omega) (by omega)
  obtain ⟨mb, hwb, hinvb, hcvb, hcellb, hothb⟩ :=
    carve_one (x := (w : Int) - 2) (y := (h : Int) - 2 - 1) hinva
      (by unfold Interior; omega) (by omega) (by omega)
  refine ⟨mb, ?_, hinvb, hcva.trans hcvb, ?_, hcellb, ?_⟩
  · have c1 : ((w : Int) - 2 - 1 > 0 ∧ (w : Int) - 2 - 1 < (w : Int) - 1 ∧
        (h : Int) - 2 > 0 ∧ (h : Int) - 2 < (h : Int) - 1) := by omega
    have c2 : ¬ ((w : Int) - 2 + 1 > 0 ∧ (w : Int) - 2 + 1 < (w : Int) - 1 ∧
        (h : Int) - 2 > 0 ∧ (h : Int) - 2 < (h : Int) - 1) := by omega
    have c3 : ((w : Int) - 2 > 0 ∧ (w : Int) - 2 < (w : Int) - 1 ∧
        (h : Int) - 2 - 1 > 0 ∧ (h : Int) - 2 - 1 < (h : Int) - 1) := by omega
    have c4 : ¬ ((w : Int) - 2 > 0 ∧ (w : Int) - 2 < (w : Int) - 1 ∧
        (h : Int) - 2 + 1 > 0 ∧ (h : Int) - 2 + 1 < (h : Int) - 1) := by omega
    rw [openGoalNeighbors, if_pos c1, hwa]
    simp only []
    rw [openGoalNeighbors, if_neg c2, openGoalNeighbors, if_pos c3, hwb]
    simp only []
    rw [openGoalNeighbors, if_neg c4, openGoalNeighbors]
  · rw [hothb _ _ (by omega)]; exact hcella
  · intro x y h1 h2
    rw [hothb _ _ h2, hotha _ _ h1]

theorem levelWidth_cases (level : Int) :
    (levelWidth level).toNat = 16 ∨ (levelWidth level).toNat = 26 ∨
      (levelWidth level).toNat = 36 := by
  unfold levelWidth BASE_WIDTH
  split
  · right; left; rfl
  · split
    · right; right; rfl
    · left; rfl

theorem levelHeight_eq (level : Int) : levelHeight level = levelWidth level := by
  unfold levelHeight levelWidth BASE_HEIGHT BASE_WIDTH
  rfl

theorem levelWidth_cast (level : Int) :
    levelWidth level = (((levelWidth level).toNat : Nat) : Int) := by
  unfold levelWidth BASE_WIDTH
  split
  · rfl
  · split <;> rfl

/-- Specification of `generateMaze`: with enough fuel it returns a grid, and
the grid satisfies `GenPost` for the dimensions of the level. -/
theorem generateMaze_spec (fuel : Nat) (sh : ShuffleOracle) (level passageWidth : Int)
    (hfuel : 1296 < fuel) :
    ∃ m, generateMaze fuel sh level passageWidth = .ok m ∧
      GenPost (levelWidth level).toNat (levelHeight level).toNat m := by
  rw [levelHeight_eq]
  have hcast := levelWidth_cast level
  have hcases := levelWidth_cases level
  generalize (levelWidth level).toNat = w at hcast hcases
  have hd : Dims w w := by unfold Dims; omega
  have harea : w * w ≤ 1296 := by
    rcases hcases with h' | h' | h' <;> subst h' <;> decide
  obtain ⟨m1, m2, hw1, hw2, hinv2, honly⟩ := marked_grid hd
  have hstart2 : NonWall m2 ⟨1, 1⟩ := by
    have := hinv2.start
    exact ⟨by rw [this]; simp, by rw [this]; simp⟩
  have hroom : Room w w ⟨1, 1⟩ := by
    unfold Room Interior; simp only []; omega
  obtain ⟨m3, n3, hrun3, hpost3⟩ := recursiveBacktrack_spec sh fuel m2 ⟨1, 1⟩ 0 hinv2 hroom
    hstart2 ((wallCount_le_area w w m2).trans_lt (by omega))
  obtain ⟨hrooms3, hreach3⟩ := backtracked_grid hinv2 honly hpost3
  obtain ⟨m4, hrun4, hinv4, hcv4, hwest, hnorth, hoth4⟩ := openGoalNeighbors_spec hpost3.inv
  have e3 : (w : Int) - 2 - 1 = (w : Int) - 3 := by omega
  rw [e3] at hwest hnorth hoth4
  refine ⟨m4, ?_, hinv4, fun p hp => hcv4.nonWall (hrooms3 p hp), ?_, hwest, hnorth⟩
  · unfold generateMaze
    simp only [levelHeight_eq]
    rw [hcast]
    simp only [Int.toNat_ofNat, hw1, hw2, hrun3]
    exact hrun4
  · -- every open cell of the final grid is joined to Start
    obtain ⟨d1, d2, d3, d4⟩ := hd
    have hcorner : Room w w ⟨(w : Int) - 3, (w : Int) - 3⟩ := by
      unfold Room Interior; simp only []; omega
    have hcorner3 := hrooms3 _ hcorner
    have hreach_corner : Reach m4 ⟨1, 1⟩ ⟨(w : Int) - 3, (w : Int) - 3⟩ :=
      hcv4.reach (hreach3 _ hcorner3 (by simp only []; omega))
    have hnw_corner : NonWall m4 ⟨(w : Int) - 3, (w : Int) - 3⟩ := hcv4.nonWall hcorner3
    have hnw_west : NonWall m4 ⟨(w : Int) - 3, (w : Int) - 2⟩ :=
      ⟨by rw [hwest]; simp, by rw [hwest]; simp⟩
    have hnw_north : NonWall m4 ⟨(w : Int) - 2, (w : Int) - 3⟩ :=
      ⟨by rw [hnorth]; simp, by rw [hnorth]; simp⟩
    have hnw_goal : NonWall m4 ⟨(w : Int) - 2, (w : Int) - 2⟩ := by
      have := hinv4.goal
      exact ⟨by rw [this]; simp, by rw [this]; simp⟩
    have hadj_west : Adjacent ⟨(w : Int) - 3, (w : Int) - 3⟩ ⟨(w : Int) - 3, (w : Int) - 2⟩ :=
      Or.inl ⟨rfl, Or.inr (by show (w : Int) - 2 = (w : Int) - 3 + 1; omega)⟩
    have hadj_north : Adjacent ⟨(w : Int) - 3, (w : Int) - 3⟩ ⟨(w : Int) - 2, (w : Int) - 3⟩ :=
      Or.inr ⟨rfl, Or.inr (by show (w : Int) - 2 = (w : Int) - 3 + 1; omega)⟩
    have hadj_goal : Adjacent ⟨(w : Int) - 3, (w : Int) - 2⟩ ⟨(w : Int) - 2, (w : Int) - 2⟩ :=
      Or.inr ⟨rfl, Or.inr (by show (w : Int) - 2 = (w : Int) - 3 + 1; omega)⟩
    have hreach_west : Reach m4 ⟨1, 1⟩ ⟨(w : Int) - 3, (w : Int) - 2⟩ :=
      hreach_corner.trans (Reach.step hadj_west hnw_corner hnw_west)
    have hreach_north : Reach m4 ⟨1, 1⟩ ⟨(w : Int) - 2, (w : Int) - 3⟩ :=
      hreach_corner.trans (Reach.step hadj_north hnw_corner hnw_north)
    have hreach_goal : Reach m4 ⟨1, 1⟩ ⟨(w : Int) - 2, (w : Int) - 2⟩ :=
      hreach_west.trans (Reach.step hadj_goal hnw_west hnw_goal)
    intro p hp
    by_cases h1 : p.x = (w : Int) - 3 ∧ p.y = (w : Int) - 2
    · have hpe : p = ⟨(w : Int) - 3, (w : Int) - 2⟩ := by
        cases p; simp only [Position.mk.injEq]; exact h1
      rw [hpe]; exact hreach_west
    · by_cases h2 : p.x = (w : Int) - 2 ∧ p.y = (w : Int) - 3
      · have hpe : p = ⟨(w : Int) - 2, (w : Int) - 3⟩ := by
          cases p; simp only [Position.mk.injEq]; exact h2
        rw [hpe]; exact hreach_north
      · by_cases h3 : p.x = (w : Int) - 2 ∧ p.y = (w : Int) - 2
        · have hpe : p = ⟨(w : Int) - 2, (w : Int) - 2⟩ := by
            cases p; simp only [Position.mk.injEq]; exact h3
          rw [hpe]; exact hreach_goal
        · have hp3 : NonWall m3 p := by
            unfold NonWall at hp ⊢
            rw [hoth4 _ _ h1 h2] at hp
            exact hp
          exact hcv4.reach (hreach3 p hp3 h3)

/-! ## Paths -/

theorem nonWall_of_cell {m : Maze} {p : Position} {c : Cell}
    (hc : cellAt m p.x p.y = some c) (hne : c ≠ Cell.WALL) : NonWall m p := by
  unfold NonWall
  rw [hc]
  exact ⟨by simp, by simpa using hne⟩

theorem walk_support_nonWall {m : Maze} {a b : Position} (walk : (mazeGraph m).Walk a b)
    (ha : NonWall m a) : ∀ p ∈ walk.support, NonWall m p := by
  induction walk with
  | nil =>
    intro p hp
    rw [SimpleGraph.Walk.support_nil, List.mem_singleton] at hp
    rw [hp]; exact ha
  | cons hadj rest ih =>
    intro p hp
    rw [SimpleGraph.Walk.support_cons, List.mem_cons] at hp
    rcases hp with h' | h'
    · rw [h']; exact ha
    · exact ih hadj.2.2 p h'

/-- Reachability in the graph of the grid yields a simple path as a list. -/
theorem Reach.simplePath {m : Maze} {a b : Position} (hr : Reach m a b) (ha : NonWall m a) :
    ∃ l, IsSimplePath m a b l := by
  obtain ⟨walk⟩ := hr
  refine ⟨walk.toPath.val.support, ⟨?_, ?_, ?_, ?_⟩, walk.toPath.property.support_nodup⟩
  · rw [SimpleGraph.Walk.support_eq_cons]; rfl
  · rw [List.getLast?_eq_getLast _ (SimpleGraph.Walk.support_ne_nil _),
      SimpleGraph.Walk.getLast_support]
  · exact (SimpleGraph.Walk.chain'_adj_support _).imp (fun _ _ hab => hab.1)
  · exact walk_support_nonWall _ ha

theorem Reach.reverse {m : Maze} {a b : Position} (hr : Reach m a b) : Reach m b a :=
  SimpleGraph.Reachable.symm hr

/-! ## The generated grid -/

theorem genPost_cast (fuel : Nat) (sh : ShuffleOracle) (level passageWidth : Int)
    (hfuel : 1296 < fuel) :
    ∃ (m : Maze) (w h : Nat), generateMaze fuel sh level passageWidth = .ok m ∧
      (w : Int) = levelWidth level ∧ (h : Int) = levelHeight level ∧ GenPost w h m :=
  let ⟨m, hm, hpost⟩ := generateMaze_spec fuel sh level passageWidth hfuel
  ⟨m, _, _, hm, (levelWidth_cast level).symm,
    by rw [levelHeight_eq]; exact (levelWidth_cast level).symm, hpost⟩

/-- C1: for every level, every `passageWidth` and every outcome of the
shuffles, `generateMaze` (given enough fuel) returns a grid, and the grid is
square: 16 rows of 16 cells at level 1, 26 of 26 at level 2, 36 of 36 at
level 3, and 16 of 16 at every other level. -/
theorem generateMaze_dimensions (fuel : Nat) (sh : ShuffleOracle) (level passageWidth : Int)
    (hfuel : 1296 < fuel) :
    ∃ m, generateMaze fuel sh level passageWidth = .ok m ∧
      (level = 1 → m.length = 16 ∧ ∀ row ∈ m, row.length = 16) ∧
      (level = 2 → m.length = 26 ∧ ∀ row ∈ m, row.length = 26) ∧
      (level = 3 → m.length = 36 ∧ ∀ row ∈ m, row.length = 36) ∧
      (level ≠ 1 → level ≠ 2 → level ≠ 3 → m.length = 16 ∧ ∀ row ∈ m, row.length = 16) := by
  obtain ⟨m, hm, hpost⟩ := generateMaze_spec fuel sh level passageWidth hfuel
  have hrect := hpost.inv.rect
  rw [levelHeight_eq] at hrect
  refine ⟨m, hm, ?_, ?_, ?_, ?_⟩
  · intro hl
    have hw : (levelWidth level).toNat = 16 := by subst hl; rfl
    rw [hw] at hrect; exact hrect
  · intro hl
    have hw : (levelWidth level).toNat = 26 := by subst hl; rfl
    rw [hw] at hrect; exact hrect
  · intro hl
    have hw : (levelWidth level).toNat = 36 := by subst hl; rfl
    rw [hw] at hrect; exact hrect
  · intro h1 h2 h3
    have hw : (levelWidth level).toNat = 16 := by
      unfold levelWidth BASE_WIDTH
      rw [if_neg h2, if_neg h3]; rfl
    rw [hw] at hrect; exact hrect

/-- Witness at level 7 with the identity shuffles: the fuel bound is
met and the grid is 16 by 16. -/
theorem generateMaze_dimensions_witness :
    1296 < 1297 ∧ ∃ m, generateMaze 1297 ShuffleOracle.identity 7 2 = .ok m ∧
      m.length = 16 ∧ ∀ row ∈ m, row.length = 16 :=
  ⟨by decide,
    let ⟨m, hm, _, _, _, h4⟩ :=
      generateMaze_dimensions 1297 ShuffleOracle.identity 7 2 (by decide)
    ⟨m, hm, h4 (by decide) (by decide) (by decide)⟩⟩

/-- C2: for every level and every outcome of the shuffles, every cell of row
0, of the last row, of column 0 and of the last column of the grid returned by
`generateMaze` is `WALL`. -/
theorem generateMaze_border_wall (fuel : Nat) (sh : ShuffleOracle) (level passageWidth : Int)
    (hfuel : 1296 < fuel) :
    ∃ m, generateMaze fuel sh level passageWidth = .ok m ∧
      (m.length : Int) = levelHeight level ∧
      (∀ row ∈ m, (row.length : Int) = levelWidth level) ∧
      ∀ x y : Int, 0 ≤ x → x < levelWidth level → 0 ≤ y → y < levelHeight level →
        (x = 0 ∨ x = levelWidth level - 1 ∨ y = 0 ∨ y = levelHeight level - 1) →
        cellAt m x y = some Cell.WALL := by
  obtain ⟨m, w, h, hm, hw, hh, hpost⟩ := genPost_cast fuel sh level passageWidth hfuel
  rw [← hw, ← hh]
  refine ⟨m, hm, by rw [hpost.inv.rect.1], ?_, ?_⟩
  · intro row hrow; rw [hpost.inv.rect.2 row hrow]
  · intro x y hx hxw hy hyh hborder
    obtain ⟨c, hc⟩ := cellAt_exists hpost.inv.rect hx hxw hy hyh
    by_cases hcw : c = Cell.WALL
    · rw [hc, hcw]
    · have hin := hpost.inv.inside x y c hc hcw
      unfold Interior at hin
      omega

/-- Witness at level 2 with the identity shuffles. -/
theorem generateMaze_border_wall_witness :
    1296 < 1300 ∧ ∃ m, generateMaze 1300 ShuffleOracle.identity 2 2 = .ok m ∧
      cellAt m 25 7 = some Cell.WALL ∧ cellAt m 0 0 = some Cell.WALL :=
  ⟨by decide,
    let ⟨m, hm, _, _, hb⟩ :=
      generateMaze_border_wall 1300 ShuffleOracle.identity 2 2 (by decide)
    ⟨m, hm, hb 25 7 (by decide) (by decide) (by decide) (by decide) (Or.inr (Or.inl (by decide))),
      hb 0 0 (by decide) (by decide) (by decide) (by decide) (Or.inl rfl)⟩⟩

/-- C3: for every level and every outcome of the shuffles, in the grid
returned by `generateMaze` the cell (1,1) is `START`, the cell
(width-2, height-2) is `END`, and no other cell is `START` or `END`. -/
theorem generateMaze_start_end_unique (fuel : Nat) (sh : ShuffleOracle)
    (level passageWidth : Int) (hfuel : 1296 < fuel) :
    ∃ m, generateMaze fuel sh level passageWidth = .ok m ∧
      cellAt m 1 1 = some Cell.START ∧
      cellAt m (levelWidth level - 2) (levelHeight level - 2) = some Cell.END ∧
      (∀ x y, cellAt m x y = some Cell.START → x = 1 ∧ y = 1) ∧
      (∀ x y, cellAt m x y = some Cell.END →
        x = levelWidth level - 2 ∧ y = levelHeight level - 2) := by
  obtain ⟨m, w, h, hm, hw, hh, hpost⟩ := genPost_cast fuel sh level passageWidth hfuel
  rw [← hw, ← hh]
  refine ⟨m, hm, hpost.inv.start, hpost.inv.goal, ?_, ?_⟩
  · intro x y hc
    rcases hpost.inv.others x y _ hc with h' | h' | h' | h'
    · exact absurd h' (by decide)
    · exact absurd h' (by decide)
    · exact h'.2
    · exact absurd h'.1 (by decide)
  · intro x y hc
    rcases hpost.inv.others x y _ hc with h' | h' | h' | h'
    · exact absurd h' (by decide)
    · exact absurd h' (by decide)
    · exact absurd h'.1 (by decide)
    · exact h'.2

/-- Witness at level 3 with the identity shuffles. -/
theorem generateMaze_start_end_unique_witness :
    1296 < 2000 ∧ ∃ m, generateMaze 2000 ShuffleOracle.identity 3 2 = .ok m ∧
      cellAt m 1 1 = some Cell.START ∧ cellAt m 34 34 = some Cell.END :=
  ⟨by decide,
    let ⟨m, hm, hs, he, _, _⟩ :=
      generateMaze_start_end_unique 2000 ShuffleOracle.identity 3 2 (by decide)
    ⟨m, hm, hs, he⟩⟩

/-- C4: for every level and every outcome of the shuffles, the grid returned
by `generateMaze` contains a sequence of pairwise adjacent non-`WALL` cells
from Start (1,1) to End (width-2, height-2), and one from End to Start. -/
theorem generateMaze_start_end_connected (fuel : Nat) (sh : ShuffleOracle)
    (level passageWidth : Int) (hfuel : 1296 < fuel) :
    ∃ m, generateMaze fuel sh level passageWidth = .ok m ∧
      (∃ l, IsMazePath m ⟨1, 1⟩ ⟨levelWidth level - 2, levelHeight level - 2⟩ l) ∧
      (∃ l, IsMazePath m ⟨levelWidth level - 2, levelHeight level - 2⟩ ⟨1, 1⟩ l) := by
  obtain ⟨m, w, h, hm, hw, hh, hpost⟩ := genPost_cast fuel sh level passageWidth hfuel
  rw [← hw, ← hh]
  have hstart : NonWall m ⟨1, 1⟩ := nonWall_of_cell hpost.inv.start (by decide)
  have hgoal : NonWall m ⟨(w : Int) - 2, (h : Int) - 2⟩ :=
    nonWall_of_cell hpost.inv.goal (by decide)
  have hreach := hpost.reach _ hgoal
  obtain ⟨l1, hl1, _⟩ := hreach.simplePath hstart
  obtain ⟨l2, hl2, _⟩ := hreach.reverse.simplePath hgoal
  exact ⟨m, hm, ⟨l1, hl1⟩, ⟨l2, hl2⟩⟩

/-- Witness at level 1 with the identity shuffles. -/
theorem generateMaze_start_end_connected_witness :
    1296 < 1500 ∧ ∃ m, generateMaze 1500 ShuffleOracle.identity 1 2 = .ok m ∧
      ∃ l, IsMazePath m ⟨1, 1⟩ ⟨14, 14⟩ l :=
  ⟨by decide,
    let ⟨m, hm, hl, _⟩ :=
      generateMaze_start_end_connected 1500 ShuffleOracle.identity 1 2 (by decide)
    ⟨m, hm, hl⟩⟩

/-- In a grid returned by `generateMaze` the four cells around the lower right
room form a loop, so the grid is not a perfect maze. -/
theorem GenPost.not_perfect {w h : Nat} {m : Maze} (hpost : GenPost w h m) :
    ¬ PerfectMaze m := by
  obtain ⟨d1, d2, d3, d4⟩ := hpost.inv.dims
  intro hperfect
  have hcorner : NonWall m ⟨(w : Int) - 3, (h : Int) - 3⟩ := by
    apply hpost.rooms
    unfold Room Interior
    simp only []
    omega
  have hwest : NonWall m ⟨(w : Int) - 3, (h : Int) - 2⟩ :=
    nonWall_of_cell hpost.west (by decide)
  have hnorth : NonWall m ⟨(w : Int) - 2, (h : Int) - 3⟩ :=
    nonWall_of_cell hpost.north (by decide)
  have hgoal : NonWall m ⟨(w : Int) - 2, (h : Int) - 2⟩ :=
    nonWall_of_cell hpost.inv.goal (by decide)
  have e1 : (w : Int) - 2 = (w : Int) - 3 + 1 := by omega
  have e2 : (h : Int) - 2 = (h : Int) - 3 + 1 := by omega
  have n1 : ¬ ((w : Int) - 3 = (w : Int) - 2) := by omega
  have n2 : ¬ ((h : Int) - 3 = (h : Int) - 2) := by omega
  have n3 : ¬ ((w : Int) - 2 = (w : Int) - 3) := by omega
  have n4 : ¬ ((h : Int) - 2 = (h : Int) - 3) := by omega
  have hp1 : IsSimplePath m ⟨(w : Int) - 3, (h : Int) - 3⟩ ⟨(w : Int) - 2, (h : Int) - 2⟩
      [⟨(w : Int) - 3, (h : Int) - 3⟩, ⟨(w : Int) - 3, (h : Int) - 2⟩,
        ⟨(w : Int) - 2, (h : Int) - 2⟩] := by
    refine ⟨⟨rfl, rfl, ?_, ?_⟩, ?_⟩
    · refine List.Chain'.cons (Or.inl ⟨rfl, Or.inr e2⟩)
        (List.Chain'.cons (Or.inr ⟨rfl, Or.inr e1⟩) (List.chain'_singleton _))
    · intro p hp
      simp only [List.mem_cons, List.mem_singleton, List.not_mem_nil, or_false] at hp
      rcases hp with h' | h' | h' <;> rw [h'] <;> assumption
    · simp [n1, n2, n3, n4]
  have hp2 : IsSimplePath m ⟨(w : Int) - 3, (h : Int) - 3⟩ ⟨(w : Int) - 2, (h : Int) - 2⟩
      [⟨(w : Int) - 3, (h : Int) - 3⟩, ⟨(w : Int) - 2, (h : Int) - 3⟩,
        ⟨(w : Int) - 2, (h : Int) - 2⟩] := by
    refine ⟨⟨rfl, rfl, ?_, ?_⟩, ?_⟩
    · refine List.Chain'.cons (Or.inr ⟨rfl, Or.inr e1⟩)
        (List.Chain'.cons (Or.inl ⟨rfl, Or.inr e2⟩) (List.chain'_singleton _))
    · intro p hp
      simp only [List.mem_cons, List.mem_singleton, List.not_mem_nil, or_false] at hp
      rcases hp with h' | h' | h' <;> rw [h'] <;> assumption
    · simp [n1, n2, n3, n4]
  have heq := (hperfect _ _ hcorner hgoal).unique hp1 hp2
  simp only [List.cons.injEq, Position.mk.injEq, and_true, true_and] at heq
  omega

/-- Counterexample to the perfect-maze property: at level 1 with the identity
shuffles the returned grid has the cells (13,13), (13,14), (14,13) open next
to End (14,14), which gives two simple paths from (13,13) to End, so it is not
a perfect maze. -/
theorem generateMaze_not_perfect_level1 :
    ∃ m, generateMaze 1297 ShuffleOracle.identity 1 2 = .ok m ∧
      cellAt m 13 13 = some Cell.PATH ∧ cellAt m 13 14 = some Cell.PATH ∧
      cellAt m 14 13 = some Cell.PATH ∧ cellAt m 14 14 = some Cell.END ∧
      ¬ PerfectMaze m := by
  obtain ⟨m, hm, hpost⟩ := generateMaze_spec 1297 ShuffleOracle.identity 1 2 (by decide)
  refine ⟨m, hm, ?_, hpost.west, hpost.north, hpost.inv.goal, hpost.not_perfect⟩
  have hrun : ∃ m', generateMaze 1297 ShuffleOracle.identity 1 2 = .ok m' ∧
      cellAt m' 13 13 = some Cell.PATH := ⟨_, rfl, rfl⟩
  obtain ⟨m', hm', hcell⟩ := hrun
  rw [hm] at hm'
  rw [Except.ok.inj hm']
  exact hcell

/-- C5, amended: for every level and every outcome of the shuffles, any two
non-`WALL` cells of the grid returned by `generateMaze` are joined by at least
one simple path of adjacent non-`WALL` cells; the path is not unique for
every pair, because End and its two opened neighbours close a loop with the
lower right room. -/
theorem generateMaze_connected_with_loop (fuel : Nat) (sh : ShuffleOracle)
    (level passageWidth : Int) (hfuel : 1296 < fuel) :
    ∃ m, generateMaze fuel sh level passageWidth = .ok m ∧
      (∀ a b, NonWall m a → NonWall m b → ∃ l, IsSimplePath m a b l) ∧
      ¬ PerfectMaze m := by
  obtain ⟨m, hm, hpost⟩ := generateMaze_spec fuel sh level passageWidth hfuel
  refine ⟨m, hm, ?_, hpost.not_perfect⟩
  intro a b ha hb
  have hab : Reach m a b := (hpost.reach a ha).reverse.trans (hpost.reach b hb)
  exact hab.simplePath ha

/-- Witness at level 2 with the identity shuffles. -/
theorem generateMaze_connected_with_loop_witness :
    1296 < 1298 ∧ ∃ m, generateMaze 1298 ShuffleOracle.identity 2 2 = .ok m ∧
      (∀ a b, NonWall m a → NonWall m b → ∃ l, IsSimplePath m a b l) ∧ ¬ PerfectMaze m :=
  ⟨by decide, generateMaze_connected_with_loop 1298 ShuffleOracle.identity 2 2 (by decide)⟩

/-! ## `isValidMove` -/

/-- C6: on every non-empty rectangular grid and for all integers `x`, `y`,
`isValidMove` returns a value, and that value is `true` exactly when
`1 ≤ x ≤ width-2`, `1 ≤ y ≤ height-2` and the cell is `WALL`; on the border
and outside the grid it returns `false` whatever the grid holds. -/
theorem isValidMove_true_iff (w h : Nat) (m : Maze) (hr : Rect w h m) (hw : 0 < w)
    (hh : 0 < h) (x y : Int) :
    ∃ b, isValidMove x y m = .ok b ∧
      (b = true ↔ (1 ≤ x ∧ x ≤ (w : Int) - 2 ∧ 1 ≤ y ∧ y ≤ (h : Int) - 2 ∧
        cellAt m x y = some Cell.WALL)) ∧
      (¬ (1 ≤ x ∧ x ≤ (w : Int) - 2 ∧ 1 ≤ y ∧ y ≤ (h : Int) - 2) →
        b = false ∧ ∀ m', Rect w h m' → isValidMove x y m' = .ok false) := by
  refine ⟨_, isValidMove_rect hr hw hh x y, ?_, ?_⟩
  · rw [decide_eq_true_iff]
    unfold Interior
    constructor
    · rintro ⟨⟨h1, h2, h3, h4⟩, h5⟩; exact ⟨by omega, by omega, by omega, by omega, h5⟩
    · rintro ⟨h1, h2, h3, h4, h5⟩; exact ⟨⟨by omega, by omega, by omega, by omega⟩, h5⟩
  · intro hout
    have hni : ¬ Interior w h x y := by unfold Interior; omega
    refine ⟨by simp [hni], fun m' hr' => ?_⟩
    rw [isValidMove_rect hr' hw hh x y]
    simp [hni]

/-- Witness on a 3 by 3 grid of walls: the centre is carvable. -/
theorem isValidMove_true_iff_witness :
    Rect 3 3 (List.replicate 3 (List.replicate 3 Cell.WALL)) ∧ 0 < 3 ∧
      isValidMove 1 1 (List.replicate 3 (List.replicate 3 Cell.WALL)) = .ok true ∧
      isValidMove 2 1 (List.replicate 3 (List.replicate 3 Cell.WALL)) = .ok false :=
  ⟨rect_replicate 3 3, by decide,
    let ⟨_, hb, hiff, _⟩ := isValidMove_true_iff 3 3 _ (rect_replicate 3 3) (by decide)
      (by decide) 1 1
    by rw [hb, hiff.2 ⟨by decide, by decide, by decide, by decide, rfl⟩],
    let ⟨_, hb, _, hout⟩ := isValidMove_true_iff 3 3 _ (rect_replicate 3 3) (by decide)
      (by decide) 2 1
    by rw [hb, (hout (by decide)).1]⟩

/-! ## The movement step -/

/-- On any grid, a movement step that returns either moves to the requested
cell, which is then a legal target, or stays, the target not being legal. -/
theorem movePlayer_cases {m : Maze} {p r : Position} {c : Char}
    (hrun : movePlayer m p c = .ok r) :
    (r = keyTarget p c ∧ LegalTarget m (keyTarget p c)) ∨
      (r = p ∧ ¬ LegalTarget m (keyTarget p c)) := by
  unfold movePlayer at hrun
  simp only [] at hrun
  unfold LegalTarget gridWidth
  by_cases h1 : (keyTarget p c).x > 0
  · rw [if_pos h1] at hrun
    cases m with
    | nil => exact absurd hrun (by simp)
    | cons row0 rest =>
      simp only [] at hrun
      simp only [List.headD_cons]
      by_cases h2 : (keyTarget p c).x < (row0.length : Int)
      · rw [if_pos h2] at hrun
        by_cases h3 : (keyTarget p c).y > 0
        · rw [if_pos h3] at hrun
          by_cases h4 : (keyTarget p c).y < ((row0 :: rest).length : Int)
          · rw [if_pos h4] at hrun
            unfold readCell at hrun
            cases hc : cellAt (row0 :: rest) (keyTarget p c).x (keyTarget p c).y with
            | none => rw [hc] at hrun; exact absurd hrun (by simp)
            | some cell =>
              rw [hc] at hrun
              simp only [] at hrun
              by_cases h5 : cell = Cell.WALL
              · rw [if_neg (by simpa using h5)] at hrun
                right
                refine ⟨(Except.ok.inj hrun).symm, ?_⟩
                rintro ⟨_, _, _, _, hnw⟩
                exact hnw.2 (by rw [hc, h5])
              · rw [if_pos h5] at hrun
                left
                exact ⟨(Except.ok.inj hrun).symm, h1, h2, h3, h4, nonWall_of_cell hc h5⟩
          · rw [if_neg h4] at hrun
            exact Or.inr ⟨(Except.ok.inj hrun).symm, fun hl => h4 hl.2.2.2.1⟩
        · rw [if_neg h3] at hrun
          exact Or.inr ⟨(Except.ok.inj hrun).symm, fun hl => h3 hl.2.2.1⟩
      · rw [if_neg h2] at hrun
        exact Or.inr ⟨(Except.ok.inj hrun).symm, fun hl => h2 hl.2.1⟩
  · rw [if_neg h1] at hrun
    exact Or.inr ⟨(Except.ok.inj hrun).symm, fun hl => h1 hl.1⟩

/-- On a rectangular grid with at least one row the movement step returns. -/
theorem movePlayer_rect {w h : Nat} {m : Maze} (hr : Rect w h m) (hh : 0 < h)
    (p : Position) (c : Char) : ∃ r, movePlayer m p c = .ok r := by
  obtain ⟨hlen, hrow⟩ := hr
  cases m with
  | nil => simp at hlen; omega
  | cons row0 rest =>
    have hw0 : row0.length = w := hrow _ (List.mem_cons_self _ _)
    unfold movePlayer
    simp only []
    by_cases h1 : (keyTarget p c).x > 0
    · rw [if_pos h1]
      by_cases h2 : (keyTarget p c).x < (row0.length : Int)
      · rw [if_pos h2]
        by_cases h3 : (keyTarget p c).y > 0
        · rw [if_pos h3]
          by_cases h4 : (keyTarget p c).y < ((row0 :: rest).length : Int)
          · rw [if_pos h4]
            obtain ⟨cell, hc⟩ := cellAt_exists (m := row0 :: rest) ⟨hlen, hrow⟩
              (show 0 ≤ (keyTarget p c).x by omega) (show (keyTarget p c).x < w by omega)
              (show 0 ≤ (keyTarget p c).y by omega) (show (keyTarget p c).y < h by omega)
            unfold readCell
            rw [hc]
            simp only []
            by_cases h5 : cell = Cell.WALL
            · rw [if_neg (by simpa using h5)]; exact ⟨_, rfl⟩
            · rw [if_pos h5]; exact ⟨_, rfl⟩
          · rw [if_neg h4]; exact ⟨_, rfl⟩
        · rw [if_neg h3]; exact ⟨_, rfl⟩
      · rw [if_neg h2]; exact ⟨_, rfl⟩
    · rw [if_neg h1]; exact ⟨_, rfl⟩

theorem keyTarget_eq_shifted (p : Position) (k : Char) : keyTarget p k = shifted p k := by
  unfold keyTarget shifted keyVector
  by_cases hw : k = 'w'
  · simp [hw]; rfl
  · by_cases hs : k = 's'
    · simp [hs]
    · by_cases ha : k = 'a'
      · simp [ha]; rfl
      · by_cases hd : k = 'd'
        · simp [hd]
        · simp [hw, hs, ha, hd]

theorem shifted_ne_self (p : Position) {k : Char}
    (hk : k = 'w' ∨ k = 'a' ∨ k = 's' ∨ k = 'd') : shifted p k ≠ p := by
  intro heq
  have hx : (shifted p k).x = p.x := by rw [heq]
  have hy : (shifted p k).y = p.y := by rw [heq]
  unfold shifted keyVector at hx hy
  rcases hk with h | h | h | h <;> subst h <;> simp at hx hy

/-- C7: for every grid, player position `p` and key `k` among `w`, `a`, `s`,
`d`, a movement step that returns yields `p` shifted by the direction vector
of `k` if and only if the shifted position `q` satisfies `0 < q.x < width`,
`0 < q.y < height` and its cell is not `WALL`, and otherwise leaves `p`
unchanged; on a rectangular grid with at least one row the step always
returns. -/
theorem movePlayer_moves_iff_legal (m : Maze) (p : Position) (k : Char)
    (hk : k = 'w' ∨ k = 'a' ∨ k = 's' ∨ k = 'd') :
    (∀ w h, Rect w h m → 0 < h → ∃ r, movePlayer m p k = .ok r) ∧
    ∀ r, movePlayer m p k = .ok r →
      (r = shifted p k ↔ LegalTarget m (shifted p k)) ∧
      (¬ LegalTarget m (shifted p k) → r = p) := by
  refine ⟨fun w h hr hh => movePlayer_rect hr hh p k, fun r hrun => ?_⟩
  have hcases := movePlayer_cases hrun
  rw [keyTarget_eq_shifted] at hcases
  rcases hcases with ⟨h1, h2⟩ | ⟨h1, h2⟩
  · exact ⟨⟨fun _ => h2, fun _ => h1⟩, fun hn => absurd h2 hn⟩
  · refine ⟨⟨fun heq => ?_, fun hl => absurd hl h2⟩, fun _ => h1⟩
    exact absurd (heq.symm.trans h1) (shifted_ne_self p hk)

/-- Witness on the grid `corridor`: from (1,1), key `s` moves the
player to the open cell (1,2) and key `a`, whose target (0,1) is on the
border, leaves the player at (1,1). -/
theorem movePlayer_moves_iff_legal_witness :
    ('s' = 'w' ∨ 's' = 'a' ∨ 's' = 's' ∨ 's' = 'd') ∧
      ('a' = 'w' ∨ 'a' = 'a' ∨ 'a' = 's' ∨ 'a' = 'd') ∧
      movePlayer corridor ⟨1, 1⟩ 's' = .ok ⟨1, 2⟩ ∧
      movePlayer corridor ⟨1, 1⟩ 'a' = .ok ⟨1, 1⟩ := by
  refine ⟨by decide, by decide, ?_, ?_⟩
  · obtain ⟨hret, hstep⟩ := movePlayer_moves_iff_legal corridor ⟨1, 1⟩ 's' (by decide)
    obtain ⟨r, hr⟩ := hret 3 4 (by decide) (by decide)
    rw [hr, ((hstep r hr).1).2 (by decide)]
    rfl
  · obtain ⟨hret, hstep⟩ := movePlayer_moves_iff_legal corridor ⟨1, 1⟩ 'a' (by decide)
    obtain ⟨r, hr⟩ := hret 3 4 (by decide) (by decide)
    rw [hr, (hstep r hr).2 (by decide)]

/-- C8: for every grid, player position and input character, a movement step
that returns changes the position by exactly (0,-1) for `w`, (0,+1) for `s`,
(-1,0) for `a`, (+1,0) for `d`, or leaves it unchanged; it never changes both
coordinates; and for every other character the position is unchanged.  On a
rectangular grid with at least one row the step always returns. -/
theorem movePlayer_frame (m : Maze) (p : Position) (c : Char) :
    (∀ w h, Rect w h m → 0 < h → ∃ r, movePlayer m p c = .ok r) ∧
    ∀ r, movePlayer m p c = .ok r →
      (r = p ∨ (c = 'w' ∧ r = ⟨p.x, p.y - 1⟩) ∨ (c = 's' ∧ r = ⟨p.x, p.y + 1⟩) ∨
        (c = 'a' ∧ r = ⟨p.x - 1, p.y⟩) ∨ (c = 'd' ∧ r = ⟨p.x + 1, p.y⟩)) ∧
      (r.x = p.x ∨ r.y = p.y) ∧
      (c ≠ 'w' → c ≠ 'a' → c ≠ 's' → c ≠ 'd' → r = p) := by
  refine ⟨fun w h hr hh => movePlayer_rect hr hh p c, fun r hrun => ?_⟩
  have hcases := movePlayer_cases hrun
  rcases hcases with ⟨h1, _⟩ | ⟨h1, _⟩
  · unfold keyTarget at h1
    by_cases hw : c = 'w'
    · rw [if_pos hw] at h1
      exact ⟨Or.inr (Or.inl ⟨hw, h1⟩), Or.inl (by rw [h1]), fun hn => absurd hw hn⟩
    · rw [if_neg hw] at h1
      by_cases hs : c = 's'
      · rw [if_pos hs] at h1
        exact ⟨Or.inr (Or.inr (Or.inl ⟨hs, h1⟩)), Or.inl (by rw [h1]),
          fun _ _ hn => absurd hs hn⟩
      · rw [if_neg hs] at h1
        by_cases ha : c = 'a'
        · rw [if_pos ha] at h1
          exact ⟨Or.inr (Or.inr (Or.inr (Or.inl ⟨ha, h1⟩))), Or.inr (by rw [h1]),
            fun _ hn => absurd ha hn⟩
        · rw [if_neg ha] at h1
          by_cases hd : c = 'd'
          · rw [if_pos hd] at h1
            exact ⟨Or.inr (Or.inr (Or.inr (Or.inr ⟨hd, h1⟩))), Or.inr (by rw [h1]),
              fun _ _ _ hn => absurd hd hn⟩
          · rw [if_neg hd] at h1
            exact ⟨Or.inl h1, Or.inl (by rw [h1]), fun _ _ _ _ => h1⟩
  · exact ⟨Or.inl h1, Or.inl (by rw [h1]), fun _ _ _ _ => h1⟩

/-- Witness on the grid `corridor`: the character `x` leaves the
player at (1,1). -/
theorem movePlayer_frame_witness :
    Rect 3 4 corridor ∧ 0 < 4 ∧ 'x' ≠ 'w' ∧ 'x' ≠ 'a' ∧ 'x' ≠ 's' ∧ 'x' ≠ 'd' ∧
      movePlayer corridor ⟨1, 1⟩ 'x' = .ok ⟨1, 1⟩ := by
  refine ⟨by decide, by decide, by decide, by decide, by decide, by decide, ?_⟩
  obtain ⟨hret, hstep⟩ := movePlayer_frame corridor ⟨1, 1⟩ 'x'
  obtain ⟨r, hr⟩ := hret 3 4 (by decide) (by decide)
  rw [hr, (hstep r hr).2.2 (by decide) (by decide) (by decide) (by decide)]

/-! ## The play loop -/

theorem playLoop_cons_won {m : Maze} {p p1 : Position} {c : Char} (cs : List Char)
    (hmove : movePlayer m p c = .ok p1) (hcell : cellAt m p1.x p1.y = some Cell.END) :
    playLoop m p (c :: cs) = .ok ⟨.Won, p1, 1⟩ := by
  rw [playLoop, hmove]
  simp only [readCell, hcell, if_true]

theorem playLoop_cons_go {m : Maze} {p p1 : Position} {c : Char} {cs : List Char}
    {c1 : Cell} {r : LoopResult} (hmove : movePlayer m p c = .ok p1)
    (hcell : cellAt m p1.x p1.y = some c1) (hne : c1 ≠ Cell.END)
    (hrest : playLoop m p1 cs = .ok r) :
    playLoop m p (c :: cs) = .ok ⟨r.state, r.player, r.consumed + 1⟩ := by
  rw [playLoop, hmove]
  simp only [readCell, hcell, if_neg hne, hrest]

theorem movePlayer_inBounds {m : Maze} {p r : Position} {c : Char}
    (hrun : movePlayer m p c = .ok r) (hp : cellAt m p.x p.y ≠ none) :
    cellAt m r.x r.y ≠ none := by
  rcases movePlayer_cases hrun with ⟨h1, h2⟩ | ⟨h1, _⟩
  · rw [h1]; exact h2.2.2.2.2.1
  · rw [h1]; exact hp

/-- The play loop on a rectangular grid, started on a cell of the grid that is
not `END`: it returns, and its result meets the contract. -/
theorem playLoop_spec {w h : Nat} {m : Maze} (hr : Rect w h m) (hh : 0 < h) :
    ∀ (inputs : List Char) (p : Position), cellAt m p.x p.y ≠ none →
      cellAt m p.x p.y ≠ some Cell.END →
      ∃ r, playLoop m p inputs = .ok r ∧ LoopContract m p inputs r := by
  intro inputs
  induction inputs with
  | nil =>
    intro p _ hne
    refine ⟨⟨.Playing, p, 0⟩, rfl, ?_⟩
    refine ⟨le_refl _, ?_, fun _ => rfl, ?_, ?_⟩
    · exact ⟨fun hc => by simp at hc, fun hc => absurd hc hne⟩
    · intro hc; simp at hc
    · intro k hk; simp only [] at hk; omega
  | cons c cs ih =>
    intro p hin hne
    obtain ⟨p1, hmove⟩ := movePlayer_rect hr hh p c
    have hin1 := movePlayer_inBounds hmove hin
    obtain ⟨c1, hc1⟩ := Option.ne_none_iff_exists'.1 hin1
    have hstart : playLoop m p (List.take 0 (c :: cs)) = .ok ⟨.Playing, p, 0⟩ := rfl
    by_cases hend : c1 = Cell.END
    · -- the step lands on END: the loop is left at once
      rw [hend] at hc1
      have hwon := fun rest => playLoop_cons_won (m := m) rest hmove hc1
      refine ⟨⟨.Won, p1, 1⟩, hwon cs, ?_⟩
      refine ⟨by simp, ?_, ?_, ?_, ?_⟩
      · exact ⟨fun _ => hc1, fun _ => rfl⟩
      · intro hc; simp at hc
      · intro _
        refine ⟨by simp, fun extra => ?_⟩
        simp only [List.take_succ_cons, List.take_zero, List.cons_append, List.nil_append]
        exact hwon extra
      · intro k hk
        simp only [] at hk
        have hk0 : k = 0 := by omega
        subst hk0
        refine ⟨⟨.Playing, p, 0⟩, ⟨.Won, p1, 1⟩, c, by simp, hstart, rfl, rfl, hne, ?_, rfl, hmove⟩
        simp only [List.take_succ_cons, List.take_zero]
        exact hwon []
    · -- the step does not land on END: the loop goes round again
      have hne1 : cellAt m p1.x p1.y ≠ some Cell.END := by
        rw [hc1]; simpa using hend
      obtain ⟨r', hrun', hcon'⟩ := ih p1 hin1 hne1
      have hgo := fun (rest : List Char) (r : LoopResult) (hrest : playLoop m p1 rest = .ok r) =>
        playLoop_cons_go hmove hc1 hend hrest
      refine ⟨⟨r'.state, r'.player, r'.consumed + 1⟩, hgo cs r' hrun', ?_⟩
      refine ⟨?_, ?_, ?_, ?_, ?_⟩
      · simp only [List.length_cons]
        exact Nat.succ_le_succ hcon'.consumed_le
      · exact hcon'.won_iff
      · intro hs
        simp only [List.length_cons]
        rw [hcon'.playing_reads_all hs]
      · intro hs
        refine ⟨Nat.succ_pos _, fun extra => ?_⟩
        simp only [List.take_succ_cons, List.cons_append]
        exact hgo _ r' ((hcon'.won_stops hs).2 extra)
      · intro k hk
        simp only [] at hk
        cases k with
        | zero =>
          refine ⟨⟨.Playing, p, 0⟩, ⟨.Playing, p1, 1⟩, c, by simp, hstart, rfl, rfl, hne, ?_, rfl,
            hmove⟩
          simp only [List.take_succ_cons, List.take_zero]
          exact hgo [] ⟨.Playing, p1, 0⟩ rfl
        | succ k' =>
          obtain ⟨rk, rk1, c', hget, hrk, hst, hcons, hcell, hrk1, hcons1, hstep⟩ :=
            hcon'.before k' (by omega)
          refine ⟨⟨rk.state, rk.player, rk.consumed + 1⟩,
            ⟨rk1.state, rk1.player, rk1.consumed + 1⟩, c', ?_, ?_, hst, ?_, hcell, ?_, ?_,
            hstep⟩
          · simpa using hget
          · simp only [List.take_succ_cons]
            exact hgo _ rk hrk
          · simp only []; omega
          · simp only [List.take_succ_cons]
            exact hgo _ rk1 hrk1
          · simp only []; omega

/-- C9: on every generated maze and every sequence of input characters, the
play loop started at (1,1) returns a result that meets `LoopContract`: it is
in `Won` exactly when the player stands on `END`; before every character it
reads it is in `Playing` with the player off `END`; while `Playing` it has
read all its input; and once `Won` it has stopped reading, its result being
fixed by the characters read up to and including the winning step. -/
theorem playLoop_wins_once (fuel : Nat) (sh : ShuffleOracle) (level passageWidth : Int)
    (hfuel : 1296 < fuel) :
    ∃ m, generateMaze fuel sh level passageWidth = .ok m ∧
      ∀ inputs : List Char, ∃ r, playLoop m ⟨1, 1⟩ inputs = .ok r ∧
        LoopContract m ⟨1, 1⟩ inputs r := by
  obtain ⟨m, hm, hpost⟩ := generateMaze_spec fuel sh level passageWidth hfuel
  obtain ⟨_, _, _, d4⟩ := hpost.inv.dims
  refine ⟨m, hm, fun inputs => ?_⟩
  have hstart := hpost.inv.start
  exact playLoop_spec hpost.inv.rect (by omega) inputs ⟨1, 1⟩
    (by simp only []; rw [hstart]; simp) (by simp only []; rw [hstart]; simp)

/-- Witness at level 1 with the identity shuffles and the input
`dds`. -/
theorem playLoop_wins_once_witness :
    1296 < 1400 ∧ ∃ m, generateMaze 1400 ShuffleOracle.identity 1 2 = .ok m ∧
      ∃ r, playLoop m ⟨1, 1⟩ ['d', 'd', 's'] = .ok r ∧
        LoopContract m ⟨1, 1⟩ ['d', 'd', 's'] r :=
  ⟨by decide,
    let ⟨m, hm, hloop⟩ := playLoop_wins_once 1400 ShuffleOracle.identity 1 2 (by decide)
    ⟨m, hm, hloop ['d', 'd', 's']⟩⟩

/-! ## Rendering -/

theorem cellChar_ne_P (c : Cell) : cellChar c ≠ 'P' := by
  cases c <;> decide

theorem printRow_eq (player : Position) (y : Nat) :
    ∀ (row : List Cell) (col : Nat),
      printRow player y col row =
        (row.enumFrom col).map (fun xc => renderCell player xc.1 y xc.2) ++ ['\n'] := by
  intro row
  induction row with
  | nil => intro col; rfl
  | cons c rest ih =>
    intro col
    rw [printRow, ih (col + 1), List.enumFrom_cons, List.map_cons, List.cons_append]
    congr 1
    unfold renderCell
    by_cases hp : player.x = (col : Int) ∧ player.y = (y : Int)
    · have hpe : player = ⟨(col : Int), (y : Int)⟩ := by
        cases player; simp only [Position.mk.injEq]; exact hp
      rw [if_pos hp, if_pos hpe]
    · have hpe : ¬ player = ⟨(col : Int), (y : Int)⟩ := by
        intro heq; rw [heq] at hp; exact hp ⟨rfl, rfl⟩
      rw [if_neg hp, if_neg hpe]
      cases c <;> rfl

theorem printRows_eq (player : Position) :
    ∀ (m : Maze) (y0 : Nat),
      printRows player y0 m =
        ((m.enumFrom y0).map (fun yr =>
          yr.2.enum.map (fun xc => renderCell player xc.1 yr.1 xc.2) ++ ['\n'])).flatten := by
  intro m
  induction m with
  | nil => intro y0; rfl
  | cons row rest ih =>
    intro y0
    rw [printRows, ih (y0 + 1), List.enumFrom_cons, List.map_cons, List.flatten_cons,
      printRow_eq]
    rfl

theorem count_printRow (player : Position) (y : Nat) :
    ∀ (row : List Cell) (col : Nat),
      (printRow player y col row).count 'P' =
        if player.y = (y : Int) ∧ (col : Int) ≤ player.x ∧
          player.x < (col : Int) + (row.length : Int) then 1 else 0 := by
  intro row
  induction row with
  | nil =>
    intro col
    have hno : ¬ (player.y = (y : Int) ∧ (col : Int) ≤ player.x ∧
        player.x < (col : Int) + (([] : List Cell).length : Int)) := by
      simp only [List.length_nil]; omega
    rw [if_neg hno]
    rfl
  | cons c rest ih =>
    intro col
    rw [printRow, List.count_cons, ih (col + 1)]
    simp only [List.length_cons]
    by_cases hp : player.x = (col : Int) ∧ player.y = (y : Int)
    · rw [if_pos hp]
      have h1 : ¬ (player.y = (y : Int) ∧ ((col + 1 : Nat) : Int) ≤ player.x ∧
          player.x < ((col + 1 : Nat) : Int) + (rest.length : Int)) := by omega
      have h2 : player.y = (y : Int) ∧ (col : Int) ≤ player.x ∧
          player.x < (col : Int) + ((rest.length + 1 : Nat) : Int) := by omega
      rw [if_neg h1, if_pos h2]
      simp
    · rw [if_neg hp]
      have hc : (cellChar c == 'P') = false := by
        simpa using cellChar_ne_P c
      rw [hc]
      by_cases h1 : player.y = (y : Int) ∧ ((col + 1 : Nat) : Int) ≤ player.x ∧
          player.x < ((col + 1 : Nat) : Int) + (rest.length : Int)
      · have h2 : player.y = (y : Int) ∧ (col : Int) ≤ player.x ∧
            player.x < (col : Int) + ((rest.length + 1 : Nat) : Int) := by omega
        rw [if_pos h1, if_pos h2]
        simp
      · have h2 : ¬ (player.y = (y : Int) ∧ (col : Int) ≤ player.x ∧
            player.x < (col : Int) + ((rest.length + 1 : Nat) : Int)) := by omega
        rw [if_neg h1, if_neg h2]
        simp

theorem count_printRows (player : Position) :
    ∀ (m : Maze) (y0 : Nat),
      (printRows player y0 m).count 'P' =
        if (y0 : Int) ≤ player.y ∧ 0 ≤ player.x ∧
          ∃ row, m[(player.y - (y0 : Int)).toNat]? = some row ∧
            player.x < (row.length : Int) then 1 else 0 := by
  intro m
  induction m with
  | nil =>
    intro y0
    have hno : ¬ ((y0 : Int) ≤ player.y ∧ 0 ≤ player.x ∧
        ∃ row, ([] : Maze)[(player.y - (y0 : Int)).toNat]? = some row ∧
          player.x < (row.length : Int)) := by
      simp
    rw [if_neg hno]
    rfl
  | cons row rest ih =>
    intro y0
    rw [printRows, List.count_append, count_printRow, ih (y0 + 1)]
    by_cases hy : player.y = (y0 : Int)
    · have hidx : (player.y - (y0 : Int)).toNat = 0 := by omega
      have h2 : ¬ (((y0 + 1 : Nat) : Int) ≤ player.y ∧ 0 ≤ player.x ∧
          ∃ r, rest[(player.y - ((y0 + 1 : Nat) : Int)).toNat]? = some r ∧
            player.x < (r.length : Int)) := by
        intro hc; omega
      rw [if_neg h2, hidx]
      simp only [List.getElem?_cons_zero, Option.some.injEq, exists_eq_left', add_zero]
      by_cases hx : 0 ≤ player.x ∧ player.x < (row.length : Int)
      · rw [if_pos (by omega), if_pos (by omega)]
      · rw [if_neg (by omega), if_neg (by omega)]
    · have h1 : ¬ (player.y = (y0 : Int) ∧ ((0 : Nat) : Int) ≤ player.x ∧
          player.x < ((0 : Nat) : Int) + (row.length : Int)) := fun hc => hy hc.1
      rw [if_neg h1, zero_add]
      by_cases hlt : (y0 : Int) ≤ player.y
      · have hidx : (player.y - (y0 : Int)).toNat =
            (player.y - ((y0 + 1 : Nat) : Int)).toNat + 1 := by omega
        rw [hidx]
        simp only [List.getElem?_cons_succ]
        have hiff : (((y0 + 1 : Nat) : Int) ≤ player.y) ↔ ((y0 : Int) ≤ player.y) := by omega
        simp only [hiff]
      · have h3 : ¬ (((y0 + 1 : Nat) : Int) ≤ player.y) := by omega
        simp only [h3, hlt, false_and, if_false]

theorem cellAt_ne_none_iff_row (m : Maze) (p : Position) :
    cellAt m p.x p.y ≠ none ↔
      ((0 : Nat) : Int) ≤ p.y ∧ 0 ≤ p.x ∧
        ∃ row, m[(p.y - ((0 : Nat) : Int)).toNat]? = some row ∧ p.x < (row.length : Int) := by
  unfold cellAt
  simp only [Nat.cast_zero, sub_zero]
  by_cases hneg : p.x < 0 ∨ p.y < 0
  · rw [if_pos hneg]
    constructor
    · intro hc; exact absurd rfl hc
    · intro hc; omega
  · rw [if_neg hneg]
    cases hrow : m[p.y.toNat]? with
    | none =>
      simp
    | some row =>
      simp only [Option.some.injEq, exists_eq_left']
      rw [ne_eq, List.getElem?_eq_none_iff]
      omega

/-- C10: for every grid and player position, the text `printMaze` emits after
clearing the screen is, row by row, one character per cell followed by a line
break, the character being `P` at the player position and otherwise `#`,
space, `S`, `E`, `*`, space for `WALL`, `PATH`, `START`, `END`, `SOLUTION`,
`PLAYER`; a player inside the grid is drawn as exactly one `P`, and a player
outside it as none. -/
theorem printMaze_renders (m : Maze) (p : Position) :
    printMaze m p = renderGrid m p ∧
      (cellAt m p.x p.y ≠ none → (printMaze m p).count 'P' = 1) ∧
      (cellAt m p.x p.y = none → (printMaze m p).count 'P' = 0) := by
  refine ⟨printRows_eq p m 0, ?_, ?_⟩
  · intro hin
    unfold printMaze
    rw [count_printRows, if_pos ((cellAt_ne_none_iff_row m p).1 hin)]
  · intro hout
    unfold printMaze
    rw [count_printRows, if_neg]
    intro hc
    exact (cellAt_ne_none_iff_row m p).2 hc hout

/-- Witness on the grid `corridor` with the player on Start at (1,1):
the `P` is drawn once, in place of the `S`. -/
theorem printMaze_renders_witness :
    cellAt corridor 1 1 ≠ none ∧ (printMaze corridor ⟨1, 1⟩).count 'P' = 1 ∧
      printMaze corridor ⟨1, 1⟩ =
        ['#', '#', '#', '\n', '#', 'P', '#', '\n', '#', ' ', '#', '\n', '#', '#', '#', '\n'] :=
  ⟨by decide, (printMaze_renders corridor ⟨1, 1⟩).2.1 (by decide), by decide⟩

/-! ## Acyclic graphs from a rank function -/

theorem walk_last_edge {V : Type} {G : SimpleGraph V} {x u : V} (p : G.Walk x u) (hne : x ≠ u) :
    ∃ y, s(y, u) ∈ p.edges := by
  induction p with
  | nil => exact absurd rfl hne
  | @cons a b c hadj q ih =>
    by_cases hbc : b = c
    · subst hbc
      exact ⟨a, by rw [SimpleGraph.Walk.edges_cons]; exact List.mem_cons_self _ _⟩
    · obtain ⟨y, hy⟩ := ih hbc
      exact ⟨y, by rw [SimpleGraph.Walk.edges_cons]; exact List.mem_cons_of_mem _ hy⟩

/-- A graph is acyclic when its vertices carry a rank that differs along every
edge and every vertex has at most one neighbour of smaller rank. -/
theorem isAcyclic_of_rank {V : Type} [DecidableEq V] (G : SimpleGraph V) (t : V → Nat)
    (hne : ∀ a b, G.Adj a b → t a ≠ t b)
    (huniq : ∀ a b c, G.Adj a b → G.Adj a c → t b < t a → t c < t a → b = c) :
    G.IsAcyclic := by
  intro v c hc
  have hnonempty : c.support.toFinset.Nonempty :=
    ⟨v, List.mem_toFinset.2 (SimpleGraph.Walk.start_mem_support c)⟩
  obtain ⟨u, hu, hmax⟩ := Finset.exists_max_image c.support.toFinset t hnonempty
  rw [List.mem_toFinset] at hu
  have hmax' : ∀ z ∈ c.support, t z ≤ t u := fun z hz => hmax z (List.mem_toFinset.2 hz)
  have hrot := hc.rotate hu
  have hsupp := SimpleGraph.Walk.support_rotate c hu
  generalize c.rotate hu = c' at hrot hsupp
  cases c' with
  | nil => exact hrot.ne_nil rfl
  | @cons _ x _ hadj p =>
    rw [SimpleGraph.Walk.cons_isCycle_iff] at hrot
    obtain ⟨_, hedge⟩ := hrot
    rw [SimpleGraph.Walk.support_cons, List.tail_cons] at hsupp
    have hin : ∀ z ∈ p.support, z ∈ c.support := fun z hz =>
      List.mem_of_mem_tail (hsupp.mem_iff.1 hz)
    obtain ⟨y, hy⟩ := walk_last_edge p (G.ne_of_adj hadj).symm
    have hadjy : G.Adj u y := (p.adj_of_mem_edges hy).symm
    have hyx : y ≠ x := by
      intro hyx
      rw [hyx, Sym2.eq_swap] at hy
      exact hedge hy
    have hx_le := hmax' x (hin x (SimpleGraph.Walk.start_mem_support p))
    have hy_le := hmax' y (hin y (p.fst_mem_support_of_mem_edges hy))
    have hx_lt : t x < t u := lt_of_le_of_ne hx_le (hne u x hadj).symm
    have hy_lt : t y < t u := lt_of_le_of_ne hy_le (hne u y hadjy).symm
    exact hyx (huniq u y x hadjy hadj hy_lt hx_lt)

theorem walk_of_mazePath {m : Maze} :
    ∀ (l : List Position) (a b : Position), IsMazePath m a b l →
      ∃ p : (mazeGraph m).Walk a b, p.support = l := by
  intro l
  induction l with
  | nil =>
    intro a b hl
    exact absurd hl.1 (by simp)
  | cons x rest ih =>
    intro a b hl
    obtain ⟨hhead, hlast, hchain, hopen⟩ := hl
    have hax : x = a := by simpa using hhead
    subst hax
    cases rest with
    | nil =>
      have hb : x = b := by simpa using hlast
      subst hb
      exact ⟨SimpleGraph.Walk.nil, rfl⟩
    | cons y rest' =>
      rw [List.chain'_cons] at hchain
      have hlast' : (y :: rest').getLast? = some b := by
        rw [List.getLast?_cons_cons] at hlast; exact hlast
      obtain ⟨q, hq⟩ := ih y b ⟨rfl, hlast', hchain.2,
        fun p hp => hopen p (List.mem_cons_of_mem _ hp)⟩
      have hadj : (mazeGraph m).Adj x y :=
        ⟨hchain.1, hopen x (List.mem_cons_self _ _),
          hopen y (List.mem_cons_of_mem _ (List.mem_cons_self _ _))⟩
      exact ⟨SimpleGraph.Walk.cons hadj q, by rw [SimpleGraph.Walk.support_cons, hq]⟩

/-- In a grid whose graph is acyclic, two simple paths with the same ends are
the same list of cells. -/
theorem simplePath_unique {m : Maze} (hac : (mazeGraph m).IsAcyclic) {a b : Position}
    {l1 l2 : List Position} (h1 : IsSimplePath m a b l1) (h2 : IsSimplePath m a b l2) :
    l1 = l2 := by
  obtain ⟨p1, hp1⟩ := walk_of_mazePath l1 a b h1.1
  obtain ⟨p2, hp2⟩ := walk_of_mazePath l2 a b h2.1
  have hpath1 : p1.IsPath := SimpleGraph.Walk.IsPath.mk' (by rw [hp1]; exact h1.2)
  have hpath2 : p2.IsPath := SimpleGraph.Walk.IsPath.mk' (by rw [hp2]; exact h2.2)
  have heq := hac.path_unique ⟨p1, hpath1⟩ ⟨p2, hpath2⟩
  have hwalk : p1 = p2 := congrArg Subtype.val heq
  rw [← hp1, ← hp2, hwalk]

/-! ## The instrumented run agrees with the plain one -/

theorem carveLoopLog_erase
    (recL : Maze → Position → Nat → List CarveEvent →
      Except Fault (Maze × Nat × List CarveEvent))
    (rec : Maze → Position → Nat → Except Fault (Maze × Nat))
    (hrec : ∀ m cur n log, (recL m cur n log).map (fun r => (r.1, r.2.1)) = rec m cur n)
    (cur : Position) :
    ∀ (l : List Position) (m : Maze) (n : Nat) (log : List CarveEvent),
      (carveLoopLog recL cur l m n log).map (fun r => (r.1, r.2.1)) =
        carveLoop rec cur l m n := by
  intro l
  induction l with
  | nil => intro m n log; rfl
  | cons next rest ih =>
    intro m n log
    rw [carveLoopLog, carveLoop]
    try simp only []
    cases isValidMove next.x next.y m with
    | error e => rfl
    | ok b =>
      cases b with
      | false => exact ih m n log
      | true =>
        try simp only []
        cases readCell m next.x next.y with
        | error e => rfl
        | ok c =>
          try simp only []
          by_cases hc : c = Cell.WALL
          · rw [if_pos hc, if_pos hc]
            cases writeCell m ((cur.x + next.x).tdiv 2) ((cur.y + next.y).tdiv 2) Cell.PATH with
            | error e => rfl
            | ok m1 =>
              try simp only []
              cases writeCell m1 next.x next.y Cell.PATH with
              | error e => rfl
              | ok m2 =>
                try simp only []
                have hcall := hrec m2 next n
                  (log ++ [⟨cur, ⟨(cur.x + next.x).tdiv 2, (cur.y + next.y).tdiv 2⟩, next⟩])
                cases hL : recL m2 next n
                    (log ++ [⟨cur, ⟨(cur.x + next.x).tdiv 2, (cur.y + next.y).tdiv 2⟩, next⟩])
                  with
                | error e =>
                  rw [hL] at hcall
                  rw [← hcall]
                  rfl
                | ok r =>
                  obtain ⟨m3, n3, log3⟩ := r
                  rw [hL] at hcall
                  rw [← hcall]
                  exact ih m3 n3 log3
          · rw [if_neg hc, if_neg hc]
            exact ih m n log

/-- Dropping the log from a run of `recursiveBacktrackLog` gives the run of
`recursiveBacktrack`. -/
theorem recursiveBacktrackLog_erase (sh : ShuffleOracle) :
    ∀ (fuel : Nat) (m : Maze) (cur : Position) (n : Nat) (log : List CarveEvent),
      (recursiveBacktrackLog sh fuel m cur n log).map (fun r => (r.1, r.2.1)) =
        recursiveBacktrack sh fuel m cur n := by
  intro fuel
  induction fuel with
  | zero => intro m cur n log; rfl
  | succ fuel ih =>
    intro m cur n log
    rw [recursiveBacktrackLog, recursiveBacktrack]
    exact carveLoopLog_erase _ _ ih cur _ m (n + 1) log

theorem carveMazeLog_erase (fuel : Nat) (sh : ShuffleOracle) (level : Int) :
    (carveMazeLog fuel sh level).map Prod.fst = carveMaze fuel sh level := by
  unfold carveMazeLog carveMaze
  try simp only []
  cases writeCell (List.replicate (levelHeight level).toNat
      (List.replicate (levelWidth level).toNat Cell.WALL)) 1 1 Cell.START with
  | error e => rfl
  | ok m1 =>
    try simp only []
    cases writeCell m1 (levelWidth level - 2) (levelHeight level - 2) Cell.END with
    | error e => rfl
    | ok m2 =>
      try simp only []
      have hcall := recursiveBacktrackLog_erase sh fuel m2 ⟨1, 1⟩ 0 []
      cases hL : recursiveBacktrackLog sh fuel m2 ⟨1, 1⟩ 0 [] with
      | error e =>
        rw [hL] at hcall
        rw [← hcall]
        rfl
      | ok r =>
        obtain ⟨m3, n3, log3⟩ := r
        rw [hL] at hcall
        rw [← hcall]
        rfl

/-- The function `generateMaze` is `carveMaze` followed by the loop over End's
neighbours. -/
theorem generateMaze_eq_carve (fuel : Nat) (sh : ShuffleOracle) (level passageWidth : Int) :
    generateMaze fuel sh level passageWidth =
      match carveMaze fuel sh level with
      | .error e => .error e
      | .ok m3 =>
        openGoalNeighbors (levelWidth level) (levelHeight level)
          [⟨levelWidth level - 2 - 1, levelHeight level - 2⟩,
            ⟨levelWidth level - 2 + 1, levelHeight level - 2⟩,
            ⟨levelWidth level - 2, levelHeight level - 2 - 1⟩,
            ⟨levelWidth level - 2, levelHeight level - 2 + 1⟩] m3 := by
  unfold generateMaze carveMaze
  try simp only []
  cases writeCell (List.replicate (levelHeight level).toNat
      (List.replicate (levelWidth level).toNat Cell.WALL)) 1 1 Cell.START with
  | error e => rfl
  | ok m1 =>
    try simp only []
    cases writeCell m1 (levelWidth level - 2) (levelHeight level - 2) Cell.END with
    | error e => rfl
    | ok m2 =>
      try simp only []
      cases recursiveBacktrack sh fuel m2 ⟨1, 1⟩ 0 with
      | error e => rfl
      | ok r => rfl

/-! ## Carrying an invariant through the backtracker -/

/-- The loop of the backtracker preserves any property `P` of the grid and the
log that every single carving step preserves. -/
theorem carveLoopLog_spec {w h : Nat} (P : Maze → List CarveEvent → Prop)
    (hstep : ∀ (m : Maze) (log : List CarveEvent) (cur next : Position) (m2 : Maze),
      GenInv w h m → P m log → Room w h cur → NonWall m cur → next ∈ getNeighbors cur →
      Room w h next → cellAt m next.x next.y = some Cell.WALL → GenInv w h m2 →
      (∀ x y, cellAt m2 x y =
        if (x = next.x ∧ y = next.y) ∨
            (x = (cur.x + next.x).tdiv 2 ∧ y = (cur.y + next.y).tdiv 2)
        then some Cell.PATH else cellAt m x y) →
      P m2 (log ++ [⟨cur, ⟨(cur.x + next.x).tdiv 2, (cur.y + next.y).tdiv 2⟩, next⟩]))
    (rec : Maze → Position → Nat → List CarveEvent →
      Except Fault (Maze × Nat × List CarveEvent))
    (fuel : Nat)
    (hrec : ∀ m cur n log, GenInv w h m → Room w h cur → NonWall m cur →
      wallCount w h m < fuel → P m log →
      ∃ m' n' log', rec m cur n log = .ok (m', n', log') ∧ GenInv w h m' ∧ Carved m m' ∧
        P m' log')
    (cur : Position) (hcur : Room w h cur) :
    ∀ (l : List Position), (∀ q ∈ l, q ∈ getNeighbors cur) →
      ∀ m n log, GenInv w h m → NonWall m cur → wallCount w h m ≤ fuel → P m log →
      ∃ m' n' log', carveLoopLog rec cur l m n log = .ok (m', n', log') ∧ GenInv w h m' ∧
        Carved m m' ∧ P m' log' := by
  intro l
  induction l with
  | nil =>
    intro _ m n log hinv _ _ hP
    exact ⟨m, n, log, rfl, hinv, Carved.refl m, hP⟩
  | cons next rest ih =>
    intro hsub m n log hinv hnw hfuel hP
    have hrest : ∀ q ∈ rest, q ∈ getNeighbors cur :=
      fun q hq => hsub q (List.mem_cons_of_mem _ hq)
    have hnext : next ∈ getNeighbors cur := hsub next (List.mem_cons_self _ _)
    obtain ⟨d1, d2, d3, d4⟩ := hinv.dims
    have hvalid := isValidMove_rect hinv.rect (show 0 < w by omega) (show 0 < h by omega)
      next.x next.y
    by_cases hgo : Interior w h next.x next.y ∧ cellAt m next.x next.y = some Cell.WALL
    · obtain ⟨hin, hwall⟩ := hgo
      obtain ⟨hroom, hmin, hmodd, hmnot, hadj1, hadj2⟩ := mid_facts hcur hnext hin
      obtain ⟨m1, hw1, hinv1, hcv1, hmid1, hoth1⟩ :=
        carve_one hinv hmin hmodd (by omega)
      have hns : ¬ (next.x = 1 ∧ next.y = 1) := by
        intro hxy
        have hst := hinv.start
        rw [hxy.1, hxy.2, hst] at hwall
        exact absurd hwall (by simp)
      obtain ⟨m2, hw2, hinv2, hcv2, hnext2, hoth2⟩ :=
        carve_one hinv1 hin (Or.inl hroom.2.1) hns
      have hcv02 : Carved m m2 := hcv1.trans hcv2
      have hnw2next : NonWall m2 next := ⟨by rw [hnext2]; simp, by rw [hnext2]; simp⟩
      have hlt : wallCount w h m2 < wallCount w h m := by
        obtain ⟨i1, i2, i3, i4⟩ := hin
        exact hcv02.wallCount_lt (by omega) (by omega) (by omega) (by omega) hwall
          (by rw [hnext2]; simp)
      have hcells : ∀ x y, cellAt m2 x y =
          if (x = next.x ∧ y = next.y) ∨
              (x = (cur.x + next.x).tdiv 2 ∧ y = (cur.y + next.y).tdiv 2)
          then some Cell.PATH else cellAt m x y := by
        intro x y
        by_cases hxn : x = next.x ∧ y = next.y
        · rw [if_pos (Or.inl hxn), hxn.1, hxn.2]; exact hnext2
        · rw [hoth2 x y hxn]
          by_cases hxm : x = (cur.x + next.x).tdiv 2 ∧ y = (cur.y + next.y).tdiv 2
          · rw [if_pos (Or.inr hxm), hxm.1, hxm.2]; exact hmid1
          · rw [hoth1 x y hxm, if_neg (by rintro (h' | h'); exact hxn h'; exact hxm h')]
      have hP2 := hstep m log cur next m2 hinv hP hcur hnw hnext hroom hwall hinv2 hcells
      obtain ⟨m3, n3, log3, hrun3, hinv3, hcv3, hP3⟩ :=
        hrec m2 next n _ hinv2 hroom hnw2next (by omega) hP2
      have hcv03 : Carved m m3 := hcv02.trans hcv3
      obtain ⟨m', n', log', hrun, hinv', hcv', hP'⟩ := ih hrest m3 n3 log3 hinv3
        (hcv03.nonWall hnw) ((hcv03.wallCount_le w h).trans hfuel) hP3
      refine ⟨m', n', log', ?_, hinv', hcv03.trans hcv', hP'⟩
      rw [carveLoopLog, hvalid]
      simp only [hin, hwall, and_self, decide_True]
      rw [readCell, hwall]
      simp only [if_true, hw1, hw2, hrun3]
      exact hrun
    · obtain ⟨m', n', log', hrun, hpost⟩ := ih hrest m n log hinv hnw hfuel hP
      refine ⟨m', n', log', ?_, hpost⟩
      rw [carveLoopLog, hvalid]
      simp only [hgo, decide_False]
      exact hrun

/-- The instrumented backtracker, run with enough fuel from an open room on a
grid meeting `GenInv`, returns and preserves any property that every carving
step preserves. -/
theorem recursiveBacktrackLog_spec {w h : Nat} (sh : ShuffleOracle)
    (P : Maze → List CarveEvent → Prop)
    (hstep : ∀ (m : Maze) (log : List CarveEvent) (cur next : Position) (m2 : Maze),
      GenInv w h m → P m log → Room w h cur → NonWall m cur → next ∈ getNeighbors cur →
      Room w h next → cellAt m next.x next.y = some Cell.WALL → GenInv w h m2 →
      (∀ x y, cellAt m2 x y =
        if (x = next.x ∧ y = next.y) ∨
            (x = (cur.x + next.x).tdiv 2 ∧ y = (cur.y + next.y).tdiv 2)
        then some Cell.PATH else cellAt m x y) →
      P m2 (log ++ [⟨cur, ⟨(cur.x + next.x).tdiv 2, (cur.y + next.y).tdiv 2⟩, next⟩])) :
    ∀ (fuel : Nat) (m : Maze) (cur : Position) (n : Nat) (log : List CarveEvent),
      GenInv w h m → Room w h cur → NonWall m cur → wallCount w h m < fuel → P m log →
      ∃ m' n' log', recursiveBacktrackLog sh fuel m cur n log = .ok (m', n', log') ∧
        GenInv w h m' ∧ Carved m m' ∧ P m' log' := by
  intro fuel
  induction fuel with
  | zero => intro m cur n log _ _ _ hlt; omega
  | succ fuel ih =>
    intro m cur n log hinv hroom hnw hlt hP
    have hperm := sh.perm n (getNeighbors cur)
    rw [recursiveBacktrackLog]
    exact carveLoopLog_spec P hstep (recursiveBacktrackLog sh fuel) fuel ih cur hroom
      (sh.run n (getNeighbors cur)) (fun q hq => hperm.mem_iff.1 hq) m (n + 1) log hinv hnw
      (by omega) hP

/-! ## One carving step keeps the carved cells a tree -/

theorem position_eq_iff (p q : Position) : p = q ↔ p.x = q.x ∧ p.y = q.y := by
  constructor
  · intro hpq; rw [hpq]; exact ⟨rfl, rfl⟩
  · intro hpq
    cases p; cases q
    simp only [Position.mk.injEq]
    exact hpq

/-- Hanging the two new cells `mid` and `next` on the open cell `cur` extends
the rank: `mid` and `next` take the next two ranks. -/
theorem rank_extend {m m2 : Maze} {cur mid next : Position}
    (hopen : ∀ p, NonWall m2 p ↔ p = next ∨ p = mid ∨ NonWall m p)
    (hmidNb : ∀ q, Adjacent mid q → NonWall m2 q → q = cur ∨ q = next)
    (hnextNb : ∀ q, Adjacent next q → NonWall m2 q → q = mid)
    (hcm : cur ≠ mid) (hcn : cur ≠ next) (hmn : mid ≠ next)
    (hcur : NonWall m cur) (hmid : ¬ NonWall m mid) (hnext : ¬ NonWall m next)
    (hrank : ∃ (t : Position → Nat) (bound : Nat), (∀ a, NonWall m a → t a < bound) ∧
      (∀ a b, (mazeGraph m).Adj a b → t a ≠ t b) ∧
      (∀ a b c, (mazeGraph m).Adj a b → (mazeGraph m).Adj a c → t b < t a → t c < t a →
        b = c)) :
    ∃ (t : Position → Nat) (bound : Nat), (∀ a, NonWall m2 a → t a < bound) ∧
      (∀ a b, (mazeGraph m2).Adj a b → t a ≠ t b) ∧
      (∀ a b c, (mazeGraph m2).Adj a b → (mazeGraph m2).Adj a c → t b < t a → t c < t a →
        b = c) := by
  obtain ⟨t, N, hbound, hne, huniq⟩ := hrank
  have hsym : ∀ {a b : Position}, Adjacent a b → Adjacent b a := by
    intro a b hab
    unfold Adjacent at hab ⊢
    omega
  -- the new rank, and its values
  let t' : Position → Nat := fun p => if p = mid then N else if p = next then N + 1 else t p
  have tmid : t' mid = N := by simp [t']
  have tnext : t' next = N + 1 := by simp [t', hmn.symm]
  have told : ∀ p, p ≠ mid → p ≠ next → t' p = t p := by
    intro p h1 h2; simp [t', h1, h2]
  have tcur : t' cur = t cur := told cur hcm hcn
  have hcurlt : t cur < N := hbound cur hcur
  -- an old open cell is neither of the new ones
  have hold : ∀ p, NonWall m p → p ≠ mid ∧ p ≠ next := by
    intro p hp
    exact ⟨fun h' => hmid (h' ▸ hp), fun h' => hnext (h' ▸ hp)⟩
  -- every open cell of the new grid is `mid`, `next`, or old
  have hsplit : ∀ p, NonWall m2 p → p = mid ∨ p = next ∨ (NonWall m p ∧ p ≠ mid ∧ p ≠ next) := by
    intro p hp
    rcases (hopen p).1 hp with h' | h' | h'
    · exact Or.inr (Or.inl h')
    · exact Or.inl h'
    · exact Or.inr (Or.inr ⟨h', hold p h'⟩)
  refine ⟨t', N + 2, ?_, ?_, ?_⟩
  · intro a ha
    rcases hsplit a ha with h' | h' | ⟨h', h1, h2⟩
    · rw [h', tmid]; omega
    · rw [h', tnext]; omega
    · rw [told a h1 h2]; have := hbound a h'; omega
  · rintro a b ⟨hadj, ha, hb⟩
    rcases hsplit a ha with h' | h' | ⟨h', h1, h2⟩
    · subst h'
      rcases hmidNb b hadj hb with hb' | hb'
      · rw [hb', tmid, tcur]; omega
      · rw [hb', tmid, tnext]; omega
    · subst h'
      rw [hnextNb b hadj hb, tnext, tmid]; omega
    · rcases hsplit b hb with hb' | hb' | ⟨hb', hb1, hb2⟩
      · subst hb'
        rcases hmidNb a (hsym hadj) ha with ha' | ha'
        · rw [ha', tcur, tmid]; omega
        · exact absurd ha' h2
      · subst hb'
        exact absurd (hnextNb a (hsym hadj) ha) h1
      · rw [told a h1 h2, told b hb1 hb2]
        exact hne a b ⟨hadj, h', hb'⟩
  · rintro a b c ⟨hadjb, ha, hb⟩ ⟨hadjc, _, hc⟩ hlb hlc
    rcases hsplit a ha with h' | h' | ⟨h', h1, h2⟩
    · subst h'
      rw [tmid] at hlb hlc
      have hbcur : b = cur := by
        rcases hmidNb b hadjb hb with hb' | hb'
        · exact hb'
        · rw [hb', tnext] at hlb; omega
      have hccur : c = cur := by
        rcases hmidNb c hadjc hc with hc' | hc'
        · exact hc'
        · rw [hc', tnext] at hlc; omega
      rw [hbcur, hccur]
    · subst h'
      rw [hnextNb b hadjb hb, hnextNb c hadjc hc]
    · rw [told a h1 h2] at hlb hlc
      have haN := hbound a h'
      have hbold : NonWall m b ∧ b ≠ mid ∧ b ≠ next := by
        rcases hsplit b hb with hb' | hb' | hb'
        · rw [hb', tmid] at hlb; omega
        · rw [hb', tnext] at hlb; omega
        · exact hb'
      have hcold : NonWall m c ∧ c ≠ mid ∧ c ≠ next := by
        rcases hsplit c hc with hc' | hc' | hc'
        · rw [hc', tmid] at hlc; omega
        · rw [hc', tnext] at hlc; omega
        · exact hc'
      rw [told b hbold.2.1 hbold.2.2] at hlb
      rw [told c hcold.2.1 hcold.2.2] at hlc
      exact huniq a b c ⟨hadjb, h', hbold.1⟩ ⟨hadjc, h', hcold.1⟩ hlb hlc

theorem card_filter_add_one {α : Type} [DecidableEq α] (s : Finset α) (Q Q' : α → Prop)
    [DecidablePred Q] [DecidablePred Q'] (z : α) (hz : z ∈ s) (hnz : ¬ Q z)
    (hiff : ∀ p ∈ s, Q' p ↔ p = z ∨ Q p) :
    (s.filter Q').card = (s.filter Q).card + 1 := by
  have hset : s.filter Q' = insert z (s.filter Q) := by
    ext p
    rw [Finset.mem_filter, Finset.mem_insert, Finset.mem_filter]
    constructor
    · rintro ⟨hp, hq⟩
      rcases (hiff p hp).1 hq with h' | h'
      · exact Or.inl h'
      · exact Or.inr ⟨hp, h'⟩
    · rintro (h' | ⟨hp, hq⟩)
      · rw [h']; exact ⟨hz, (hiff z hz).2 (Or.inl rfl)⟩
      · exact ⟨hp, (hiff p hp).2 (Or.inr hq)⟩
  rw [hset, Finset.card_insert_of_not_mem]
  rw [Finset.mem_filter]
  exact fun hmem => hnz hmem.2

theorem NonWall.cell {m : Maze} {p : Position} (hp : NonWall m p) :
    ∃ c, cellAt m p.x p.y = some c ∧ c ≠ Cell.WALL := by
  obtain ⟨h1, h2⟩ := hp
  obtain ⟨c, hc⟩ := Option.ne_none_iff_exists'.1 h1
  refine ⟨c, hc, ?_⟩
  intro heq
  rw [hc, heq] at h2
  exact h2 rfl

theorem nonWall_iff_of_cells {m m2 : Maze} (next mid : Position)
    (hcells : ∀ x y, cellAt m2 x y =
      if (x = next.x ∧ y = next.y) ∨ (x = mid.x ∧ y = mid.y)
      then some Cell.PATH else cellAt m x y) :
    ∀ p, NonWall m2 p ↔ p = next ∨ p = mid ∨ NonWall m p := by
  intro p
  unfold NonWall
  rw [hcells p.x p.y, position_eq_iff p next, position_eq_iff p mid]
  by_cases hc : (p.x = next.x ∧ p.y = next.y) ∨ (p.x = mid.x ∧ p.y = mid.y)
  · rw [if_pos hc]
    constructor
    · intro _
      rcases hc with h' | h'
      · exact Or.inl h'
      · exact Or.inr (Or.inl h')
    · intro _
      exact ⟨by simp, by simp⟩
  · rw [if_neg hc]
    constructor
    · intro h'; exact Or.inr (Or.inr h')
    · rintro (h' | h' | h')
      · exact absurd (Or.inl h') hc
      · exact absurd (Or.inr h') hc
      · exact h'

/-- The geometry of a carving step: where the candidate and the midpoint lie
relative to the current room. -/
theorem step_geometry {cx cy nx ny : Int} (hmem : (⟨nx, ny⟩ : Position) ∈ getNeighbors ⟨cx, cy⟩)
    (hcx : 0 < cx) (hcy : 0 < cy) (hnx : 0 < nx) (hny : 0 < ny) :
    StepGeo cx cy nx ny ((cx + nx).tdiv 2) ((cy + ny).tdiv 2) := by
  have hx : (cx + nx).tdiv 2 = (cx + nx) / 2 := Int.tdiv_eq_ediv (by omega) (by omega)
  have hy : (cy + ny).tdiv 2 = (cy + ny) / 2 := Int.tdiv_eq_ediv (by omega) (by omega)
  rw [hx, hy]
  unfold StepGeo
  simp only [getNeighbors, List.mem_cons, List.mem_singleton, List.not_mem_nil, or_false,
    Position.mk.injEq] at hmem
  rcases hmem with ⟨h1, h2⟩ | ⟨h1, h2⟩ | ⟨h1, h2⟩ | ⟨h1, h2⟩
  · left; subst h1; subst h2; refine ⟨rfl, rfl, ?_, ?_⟩ <;> omega
  · right; left; subst h1; subst h2; refine ⟨rfl, rfl, ?_, ?_⟩ <;> omega
  · right; right; left; subst h1; subst h2; refine ⟨rfl, rfl, ?_, ?_⟩ <;> omega
  · right; right; right; subst h1; subst h2; refine ⟨rfl, rfl, ?_, ?_⟩ <;> omega

theorem geo_adjacent {cx cy nx ny mx my : Int} (hgeo : StepGeo cx cy nx ny mx my) :
    Adjacent ⟨cx, cy⟩ ⟨mx, my⟩ ∧ Adjacent ⟨mx, my⟩ ⟨nx, ny⟩ ∧ Adjacent ⟨nx, ny⟩ ⟨mx, my⟩ := by
  unfold Adjacent
  simp only []
  unfold StepGeo at hgeo
  refine ⟨?_, ?_, ?_⟩ <;> rcases hgeo with g | g | g | g <;> omega

theorem geo_distinct {cx cy nx ny mx my : Int} (hgeo : StepGeo cx cy nx ny mx my) :
    (⟨cx, cy⟩ : Position) ≠ ⟨mx, my⟩ ∧ (⟨cx, cy⟩ : Position) ≠ ⟨nx, ny⟩ ∧
      (⟨mx, my⟩ : Position) ≠ ⟨nx, ny⟩ := by
  simp only [ne_eq, Position.mk.injEq]
  unfold StepGeo at hgeo
  refine ⟨?_, ?_, ?_⟩ <;> rcases hgeo with g | g | g | g <;> omega

theorem geo_mid_parity {cx cy nx ny mx my : Int} (hgeo : StepGeo cx cy nx ny mx my)
    (c5 : cx % 2 = 1) (c6 : cy % 2 = 1) :
    (mx % 2 = 1 ∧ my % 2 = 0) ∨ (mx % 2 = 0 ∧ my % 2 = 1) := by
  unfold StepGeo at hgeo
  rcases hgeo with g | g | g | g <;> omega

theorem geo_mid_range {cx cy nx ny mx my : Int} {w h : Nat}
    (hgeo : StepGeo cx cy nx ny mx my) (c1 : 0 < cx) (c3 : 0 < cy) (n1 : 0 < nx)
    (n3 : 0 < ny) (c2 : cx < (w : Int) - 1) (c4 : cy < (h : Int) - 1)
    (n2 : nx < (w : Int) - 1) (n4 : ny < (h : Int) - 1) (c5 : cx % 2 = 1) (c6 : cy % 2 = 1)
    (d1 : w % 2 = 0) (d2 : h % 2 = 0) :
    0 < mx ∧ mx < (w : Int) - 2 ∧ 0 < my ∧ my < (h : Int) - 2 := by
  unfold StepGeo at hgeo
  rcases hgeo with g | g | g | g <;> omega

/-- A neighbour of the midpoint that is not on even coordinates is the current
room or the candidate. -/
theorem geo_mid_nb {cx cy nx ny mx my : Int} (hgeo : StepGeo cx cy nx ny mx my)
    (c5 : cx % 2 = 1) (c6 : cy % 2 = 1) {q : Position} (hadj : Adjacent ⟨mx, my⟩ q)
    (hpar : ¬ (q.x % 2 = 0 ∧ q.y % 2 = 0)) : q = ⟨cx, cy⟩ ∨ q = ⟨nx, ny⟩ := by
  obtain ⟨qx, qy⟩ := q
  unfold Adjacent at hadj
  simp only [Position.mk.injEq] at hadj hpar ⊢
  unfold StepGeo at hgeo
  rcases hgeo with g | g | g | g <;> rcases hadj with ⟨a1, a2 | a2⟩ | ⟨a1, a2 | a2⟩ <;> omega

theorem rooms_not_adjacent {a b : Position} (hadj : Adjacent a b) (a5 : a.x % 2 = 1)
    (a6 : a.y % 2 = 1) (b5 : b.x % 2 = 1) (b6 : b.y % 2 = 1) : False := by
  unfold Adjacent at hadj
  rcases hadj with ⟨a1, a2 | a2⟩ | ⟨a1, a2 | a2⟩ <;> omega

theorem not_adjacent_self (a : Position) : ¬ Adjacent a a := by
  unfold Adjacent
  omega

theorem adjacent_comm {a b : Position} (hab : Adjacent a b) : Adjacent b a := by
  unfold Adjacent at hab ⊢
  omega

theorem room_range {w h : Nat} {p : Position} (hp : Room w h p) (d1 : w % 2 = 0)
    (d2 : h % 2 = 0) :
    0 < p.x ∧ 0 < p.y ∧ p.x ≤ (w : Int) - 3 ∧ p.y ≤ (h : Int) - 3 := by
  obtain ⟨⟨p1, p2, p3, p4⟩, p5, p6⟩ := hp
  omega

theorem adjacent_goal_range {mx my qx qy gx gy : Int} (hadj : Adjacent ⟨mx, my⟩ ⟨qx, qy⟩)
    (hx : mx < gx) (hy : my < gy) : ¬ (qx = gx ∧ qy = gy) := by
  unfold Adjacent at hadj
  simp only [] at hadj
  omega

theorem pair_eq_iff (p : Nat × Nat) (x y : Int) (hx : 0 ≤ x) (hy : 0 ≤ y) :
    (⟨(p.1 : Int), (p.2 : Int)⟩ : Position) = ⟨x, y⟩ ↔ p = (x.toNat, y.toNat) := by
  rw [position_eq_iff, Prod.ext_iff]
  simp only []
  omega

theorem mem_gridBox {w h : Nat} {x y : Int} (hx : 0 ≤ x) (hxw : x < (w : Int)) (hy : 0 ≤ y)
    (hyh : y < (h : Int)) : (x.toNat, y.toNat) ∈ gridBox w h := by
  unfold gridBox
  rw [Finset.mem_product, Finset.mem_range, Finset.mem_range]
  simp only []
  omega

/-- A carving step preserves `TreeInv` and extends the log by a well-formed
entry. -/
theorem tree_step {w h : Nat} {m m2 : Maze} {log : List CarveEvent} {cur next : Position}
    (hinv : GenInv w h m)
    (hP : TreeInv w h m ∧ LogOK w h log ∧ openRoomCount w h m = log.length + 1 ∧
      LogCarved m log)
    (hcur : Room w h cur)
    (hnw : NonWall m cur) (hmem : next ∈ getNeighbors cur) (hroom : Room w h next)
    (hwall : cellAt m next.x next.y = some Cell.WALL)
    (hcells : ∀ x y, cellAt m2 x y =
      if (x = next.x ∧ y = next.y) ∨
          (x = (cur.x + next.x).tdiv 2 ∧ y = (cur.y + next.y).tdiv 2)
      then some Cell.PATH else cellAt m x y) :
    TreeInv w h m2 ∧
      LogOK w h (log ++ [⟨cur, ⟨(cur.x + next.x).tdiv 2, (cur.y + next.y).tdiv 2⟩, next⟩]) ∧
      openRoomCount w h m2 =
        (log ++ [(⟨cur, ⟨(cur.x + next.x).tdiv 2, (cur.y + next.y).tdiv 2⟩, next⟩ :
          CarveEvent)]).length + 1 ∧
      LogCarved m2
        (log ++ [⟨cur, ⟨(cur.x + next.x).tdiv 2, (cur.y + next.y).tdiv 2⟩, next⟩]) := by
  obtain ⟨htree, hlog, hlen, hlc⟩ := hP
  obtain ⟨cx, cy⟩ := cur
  obtain ⟨nx, ny⟩ := next
  obtain ⟨d1, d2, _, _⟩ := hinv.dims
  have hcr := room_range hcur d1 d2
  have hnr := room_range hroom d1 d2
  have c5 : cx % 2 = 1 := hcur.2.1
  have c6 : cy % 2 = 1 := hcur.2.2
  simp only [] at hwall hcells hcr hnr ⊢
  have hgeo := step_geometry hmem hcr.1 hcr.2.1 hnr.1 hnr.2.1
  generalize (cx + nx).tdiv 2 = mx at hgeo hcells ⊢
  generalize (cy + ny).tdiv 2 = my at hgeo hcells ⊢
  have hopen := nonWall_iff_of_cells ⟨nx, ny⟩ ⟨mx, my⟩ hcells
  have hnext_closed : ¬ NonWall m ⟨nx, ny⟩ := fun hc => hc.2 hwall
  obtain ⟨hadj_cm, hadj_mn, hadj_nm⟩ := geo_adjacent hgeo
  obtain ⟨hcm, hcn, hmn⟩ := geo_distinct hgeo
  have hmr := geo_mid_range hgeo hcr.1 hcr.2.1 hnr.1 hnr.2.1 hcur.1.2.1 hcur.1.2.2.2
    hroom.1.2.1 hroom.1.2.2.2 c5 c6 d1 d2
  have hmid_closed : ¬ NonWall m ⟨mx, my⟩ :=
    htree.closedRooms ⟨nx, ny⟩ hroom hwall _ hadj_nm
  have hmidNb : ∀ q, Adjacent ⟨mx, my⟩ q → NonWall m2 q → q = ⟨cx, cy⟩ ∨ q = ⟨nx, ny⟩ := by
    intro q hadj hq
    rcases (hopen _).1 hq with h' | h' | h'
    · exact Or.inr h'
    · rw [h'] at hadj
      exact absurd hadj (not_adjacent_self _)
    · by_cases hpar : q.x % 2 = 0 ∧ q.y % 2 = 0
      · obtain ⟨c, hc, hcne⟩ := h'.cell
        rcases hinv.evens q.x q.y c hc hpar.1 hpar.2 with hcw | hg
        · exact absurd hcw hcne
        · obtain ⟨qx, qy⟩ := q
          exact absurd hg (adjacent_goal_range hadj hmr.2.1 hmr.2.2.2)
      · exact geo_mid_nb hgeo c5 c6 hadj hpar
  have hnextNb : ∀ q, Adjacent ⟨nx, ny⟩ q → NonWall m2 q → q = ⟨mx, my⟩ := by
    intro q hadj hq
    rcases (hopen q).1 hq with h' | h' | h'
    · rw [h'] at hadj
      exact absurd hadj (not_adjacent_self _)
    · exact h'
    · exact absurd h' (htree.closedRooms _ hroom hwall q hadj)
  have hmx0 : 0 ≤ mx ∧ mx < (w : Int) ∧ 0 ≤ my ∧ my < (h : Int) := by omega
  have hnx0 : 0 ≤ nx ∧ nx < (w : Int) ∧ 0 ≤ ny ∧ ny < (h : Int) := by omega
  have hmidBox := mem_gridBox hmx0.1 hmx0.2.1 hmx0.2.2.1 hmx0.2.2.2
  have hnextBox := mem_gridBox hnx0.1 hnx0.2.1 hnx0.2.2.1 hnx0.2.2.2
  have hmidCast := (pair_eq_iff (mx.toNat, my.toNat) mx my hmx0.1 hmx0.2.2.1).2 rfl
  have hnextCast := (pair_eq_iff (nx.toNat, ny.toNat) nx ny hnx0.1 hnx0.2.2.1).2 rfl
  simp only [] at hmidCast hnextCast
  have hpairs : (nx.toNat, ny.toNat) ≠ (mx.toNat, my.toNat) := by
    intro heq
    have := (pair_eq_iff (nx.toNat, ny.toNat) mx my hmx0.1 hmx0.2.2.1).2 heq
    simp only [] at this
    rw [hnextCast] at this
    exact hmn this.symm
  have hstep1 := card_filter_add_one (gridBox w h)
    (fun p => NonWall m ⟨(p.1 : Int), (p.2 : Int)⟩)
    (fun p => p = (mx.toNat, my.toNat) ∨ NonWall m ⟨(p.1 : Int), (p.2 : Int)⟩)
    (mx.toNat, my.toNat) hmidBox (by simp only []; rw [hmidCast]; exact hmid_closed)
    (fun p _ => Iff.rfl)
  have hstep2 := card_filter_add_one (gridBox w h)
    (fun p => p = (mx.toNat, my.toNat) ∨ NonWall m ⟨(p.1 : Int), (p.2 : Int)⟩)
    (fun p => NonWall m2 ⟨(p.1 : Int), (p.2 : Int)⟩)
    (nx.toNat, ny.toNat) hnextBox
    (by
      simp only []
      rw [hnextCast]
      rintro (h' | h')
      · exact hpairs h'
      · exact hnext_closed h')
    (by
      intro p _
      simp only []
      rw [hopen, pair_eq_iff p nx ny hnx0.1 hnx0.2.2.1, pair_eq_iff p mx my hmx0.1 hmx0.2.2.1])
  have hstep3 := card_filter_add_one (gridBox w h)
    (fun p => NonWall m ⟨(p.1 : Int), (p.2 : Int)⟩ ∧ p.1 % 2 = 1 ∧ p.2 % 2 = 1)
    (fun p => NonWall m2 ⟨(p.1 : Int), (p.2 : Int)⟩ ∧ p.1 % 2 = 1 ∧ p.2 % 2 = 1)
    (nx.toNat, ny.toNat) hnextBox
    (by
      simp only []
      rw [hnextCast]
      exact fun h' => hnext_closed h'.1)
    (by
      intro p _
      simp only []
      rw [hopen, pair_eq_iff p nx ny hnx0.1 hnx0.2.2.1, pair_eq_iff p mx my hmx0.1 hmx0.2.2.1]
      have hmpar := geo_mid_parity hgeo c5 c6
      have n5 : nx % 2 = 1 := hroom.2.1
      have n6 : ny % 2 = 1 := hroom.2.2
      constructor
      · rintro ⟨h' | h' | h', h1, h2⟩
        · exact Or.inl h'
        · exfalso
          rw [h'] at h1 h2
          simp only [] at h1 h2
          omega
        · exact Or.inr ⟨h', h1, h2⟩
      · rintro (h' | ⟨h', h1, h2⟩)
        · refine ⟨Or.inl h', ?_, ?_⟩ <;> (rw [h']; simp only []; omega)
        · exact ⟨Or.inr (Or.inr h'), h1, h2⟩)
  refine ⟨⟨?_, ?_, ?_, ?_⟩, ?_, ?_, ?_⟩
  · -- open cells stay within the rooms' range
    intro p hp
    rcases (hopen p).1 hp with h' | h' | h'
    · right; rw [h']; exact ⟨hnr.2.2.1, hnr.2.2.2⟩
    · right; rw [h']; simp only []; omega
    · exact htree.deep p h'
  · -- a room that is still WALL has no open neighbour
    intro r hr hrw q hadj hq
    have hrw' := hrw
    rw [hcells] at hrw'
    by_cases hcond : (r.x = nx ∧ r.y = ny) ∨ (r.x = mx ∧ r.y = my)
    · rw [if_pos hcond] at hrw'
      exact absurd hrw' (by simp)
    · rw [if_neg hcond] at hrw'
      rcases (hopen _).1 hq with h' | h' | h'
      · rw [h'] at hadj
        exact rooms_not_adjacent hadj hr.2.1 hr.2.2 hroom.2.1 hroom.2.2
      · rw [h'] at hadj
        have hrpar : ¬ (r.x % 2 = 0 ∧ r.y % 2 = 0) := by
          have := hr.2.1
          omega
        rcases geo_mid_nb hgeo c5 c6 (adjacent_comm hadj) hrpar with e | e
        · rw [e] at hrw'
          exact hnw.2 hrw'
        · rw [e] at hcond
          exact hcond (Or.inl ⟨rfl, rfl⟩)
      · exact htree.closedRooms r hr hrw' q hadj h'
  · exact rank_extend hopen hmidNb hnextNb hcm hcn hmn hnw hmid_closed hnext_closed htree.rank
  · -- two more open cells, one more open room
    have hcount := htree.count
    unfold nonWallCount openRoomCount at hcount ⊢
    rw [hstep2, hstep1, hstep3, hcount]
    omega
  · -- the new log entry is well formed
    intro e he
    rw [List.mem_append, List.mem_singleton] at he
    rcases he with h' | h'
    · exact hlog e h'
    · rw [h']
      exact ⟨hcur, hroom, hmem, hadj_cm, hadj_mn, geo_mid_parity hgeo c5 c6⟩
  · -- one more open room, one more log entry
    unfold openRoomCount at hlen ⊢
    rw [hstep3, hlen, List.length_append, List.length_singleton]
  · -- the logged cells are PATH
    intro e he
    rw [List.mem_append, List.mem_singleton] at he
    have hkeep : ∀ x y, cellAt m x y = some Cell.PATH → cellAt m2 x y = some Cell.PATH := by
      intro x y hxy
      rw [hcells]
      split
      · rfl
      · exact hxy
    rcases he with h' | h'
    · exact ⟨hkeep _ _ (hlc e h').1, hkeep _ _ (hlc e h').2⟩
    · rw [h']
      simp only []
      constructor
      · rw [hcells, if_pos (Or.inr ⟨rfl, rfl⟩)]
      · rw [hcells, if_pos (Or.inl ⟨rfl, rfl⟩)]

/-! ## The grid before End's neighbours are opened -/

/-- The marked grid meets `TreeInv`: its two open cells, Start and End, touch
no other open cell. -/
theorem marked_tree {w h : Nat} {m2 : Maze} (hinv : GenInv w h m2)
    (honly : ∀ x y c, cellAt m2 x y = some c → c ≠ Cell.WALL →
      (x = 1 ∧ y = 1) ∨ (x = (w : Int) - 2 ∧ y = (h : Int) - 2)) :
    TreeInv w h m2 ∧ openRoomCount w h m2 = 1 := by
  obtain ⟨d1, d2, d3, d4⟩ := hinv.dims
  have hopen : ∀ p : Position, NonWall m2 p ↔
      p = ⟨(w : Int) - 2, (h : Int) - 2⟩ ∨ p = ⟨1, 1⟩ := by
    intro p
    rw [position_eq_iff, position_eq_iff]
    constructor
    · intro hp
      obtain ⟨c, hc, hcne⟩ := hp.cell
      rcases honly p.x p.y c hc hcne with h' | h'
      · exact Or.inr h'
      · exact Or.inl h'
    · rintro (h' | h')
      · exact nonWall_of_cell (c := Cell.END) (by rw [h'.1, h'.2]; exact hinv.goal) (by decide)
      · exact nonWall_of_cell (c := Cell.START) (by rw [h'.1, h'.2]; exact hinv.start)
          (by decide)
  have hnoedge : ∀ a b, Adjacent a b → NonWall m2 a → NonWall m2 b → False := by
    intro a b hadj ha hb
    rw [hopen, position_eq_iff, position_eq_iff] at ha hb
    unfold Adjacent at hadj
    simp only [] at ha hb
    omega
  have hgoalBox : (((w : Int) - 2).toNat, ((h : Int) - 2).toNat) ∈ gridBox w h :=
    mem_gridBox (by omega) (by omega) (by omega) (by omega)
  have hstartBox : (((1 : Int)).toNat, ((1 : Int)).toNat) ∈ gridBox w h :=
    mem_gridBox (by omega) (by omega) (by omega) (by omega)
  have hne : (((1 : Int)).toNat, ((1 : Int)).toNat) ≠
      (((w : Int) - 2).toNat, ((h : Int) - 2).toNat) := by
    rw [ne_eq, Prod.ext_iff]
    simp only []
    omega
  have h0 := card_filter_add_one (gridBox w h) (fun _ => False)
    (fun p => p = (((1 : Int)).toNat, ((1 : Int)).toNat))
    (((1 : Int)).toNat, ((1 : Int)).toNat) hstartBox (fun hf => hf)
    (fun p _ => by simp)
  have h1 := card_filter_add_one (gridBox w h)
    (fun p => p = (((1 : Int)).toNat, ((1 : Int)).toNat))
    (fun p => NonWall m2 ⟨(p.1 : Int), (p.2 : Int)⟩)
    (((w : Int) - 2).toNat, ((h : Int) - 2).toNat) hgoalBox (fun hf => hne hf.symm)
    (by
      intro p _
      simp only []
      rw [hopen, pair_eq_iff p _ _ (by omega) (by omega),
        pair_eq_iff p 1 1 (by omega) (by omega)])
  have h2 := card_filter_add_one (gridBox w h) (fun _ => False)
    (fun p => NonWall m2 ⟨(p.1 : Int), (p.2 : Int)⟩ ∧ p.1 % 2 = 1 ∧ p.2 % 2 = 1)
    (((1 : Int)).toNat, ((1 : Int)).toNat) hstartBox (fun hf => hf)
    (by
      intro p _
      simp only [or_false]
      rw [hopen, pair_eq_iff p _ _ (by omega) (by omega),
        pair_eq_iff p 1 1 (by omega) (by omega)]
      constructor
      · rintro ⟨h' | h', h1, h2⟩
        · exfalso
          rw [h'] at h1 h2
          simp only [] at h1 h2
          omega
        · exact h'
      · intro h'
        refine ⟨Or.inr h', ?_, ?_⟩ <;> (rw [h']; decide))
  refine ⟨⟨?_, ?_, ?_, ?_⟩, ?_⟩
  · intro p hp
    rw [hopen, position_eq_iff, position_eq_iff] at hp
    simp only [] at hp
    omega
  · intro r hr hrw q hadj hq
    rw [hopen] at hq
    have hrr := room_range hr d1 d2
    rcases hq with h' | h'
    · rw [h'] at hadj
      unfold Adjacent at hadj
      simp only [] at hadj
      omega
    · rw [h'] at hadj
      exact rooms_not_adjacent hadj hr.2.1 hr.2.2 (by decide) (by decide)
  · refine ⟨fun _ => 0, 1, fun _ _ => Nat.zero_lt_one, ?_, ?_⟩
    · intro a b hab; exact absurd (hnoedge a b hab.1 hab.2.1 hab.2.2) id
    · intro a b c hab; exact absurd (hnoedge a b hab.1 hab.2.1 hab.2.2) id
  · unfold nonWallCount openRoomCount
    rw [h1, h0, h2, Finset.filter_False, Finset.card_empty]
  · unfold openRoomCount
    rw [h2, Finset.filter_False, Finset.card_empty]

/-- Specification of `carveMaze` and of its log: with enough fuel both runs
return, they return the same grid, and grid and log satisfy `CarvePost`. -/
theorem carveMaze_spec (fuel : Nat) (sh : ShuffleOracle) (level : Int) (hfuel : 1296 < fuel) :
    ∃ (m3 : Maze) (log : List CarveEvent) (w h : Nat),
      carveMazeLog fuel sh level = .ok (m3, log) ∧ carveMaze fuel sh level = .ok m3 ∧
      (w : Int) = levelWidth level ∧ (h : Int) = levelHeight level ∧ CarvePost w h m3 log := by
  have hcast := levelWidth_cast level
  have hcases := levelWidth_cases level
  have hheight := levelHeight_eq level
  generalize hw : (levelWidth level).toNat = w at hcast hcases
  have hd : Dims w w := by unfold Dims; omega
  have harea : w * w ≤ 1296 := by
    rcases hcases with h' | h' | h' <;> subst h' <;> decide
  obtain ⟨m1, m2, hw1, hw2, hinv2, honly⟩ := marked_grid hd
  have hstart2 : NonWall m2 ⟨1, 1⟩ := nonWall_of_cell hinv2.start (by decide)
  have hroom : Room w w ⟨1, 1⟩ := by
    unfold Room Interior; simp only []; omega
  have hlt : wallCount w w m2 < fuel := (wallCount_le_area w w m2).trans_lt (by omega)
  obtain ⟨m3, n3, log, hrunL, hinv3, _, htree3, hlog3, hlen3, hlc3⟩ :=
    recursiveBacktrackLog_spec sh
      (fun m log => TreeInv w w m ∧ LogOK w w log ∧ openRoomCount w w m = log.length + 1 ∧
        LogCarved m log)
      (fun m log cur next m2 hinv hP hcur hnw hmem hroom hwall _ hcells =>
        tree_step hinv hP hcur hnw hmem hroom hwall hcells)
      fuel m2 ⟨1, 1⟩ 0 [] hinv2 hroom hstart2 hlt
      ⟨(marked_tree hinv2 honly).1, fun e he => absurd he (List.not_mem_nil e),
        (marked_tree hinv2 honly).2, fun e he => absurd he (List.not_mem_nil e)⟩
  obtain ⟨m3', n3', hrun3, hpost3⟩ := recursiveBacktrack_spec sh fuel m2 ⟨1, 1⟩ 0 hinv2 hroom
    hstart2 hlt
  have herase := recursiveBacktrackLog_erase sh fuel m2 ⟨1, 1⟩ 0 []
  rw [hrunL, hrun3] at herase
  have hm3 : m3 = m3' := congrArg Prod.fst (Except.ok.inj herase)
  subst hm3
  obtain ⟨hrooms3, hreach3⟩ := backtracked_grid hinv2 honly hpost3
  refine ⟨m3, log, w, w, ?_, ?_, hcast.symm, by rw [hheight]; exact hcast.symm,
    ⟨hinv3, htree3, hlog3, hlen3, hlc3, hrooms3, hreach3⟩⟩
  · unfold carveMazeLog
    simp only [hheight]
    rw [hcast]
    simp only [Int.toNat_ofNat, hw1, hw2, hrunL]
  · unfold carveMaze
    simp only [hheight]
    rw [hcast]
    simp only [Int.toNat_ofNat, hw1, hw2, hrun3]

theorem wall_of_closed {w h : Nat} {m : Maze} (hr : Rect w h m) {p : Position}
    (hx : 0 ≤ p.x) (hxw : p.x < (w : Int)) (hy : 0 ≤ p.y) (hyh : p.y < (h : Int))
    (hp : ¬ NonWall m p) : cellAt m p.x p.y = some Cell.WALL := by
  obtain ⟨c, hc⟩ := cellAt_exists hr hx hxw hy hyh
  by_cases hcw : c = Cell.WALL
  · rw [hc, hcw]
  · exact absurd (nonWall_of_cell hc hcw) hp

/-- The two stages of `generateMaze` for a level: the carved grid `m3` with its
log, and the returned grid `m4`. -/
theorem generateMaze_stages (fuel : Nat) (sh : ShuffleOracle) (level passageWidth : Int)
    (hfuel : 1296 < fuel) :
    ∃ (m3 : Maze) (log : List CarveEvent) (m4 : Maze) (w h : Nat),
      carveMazeLog fuel sh level = .ok (m3, log) ∧ carveMaze fuel sh level = .ok m3 ∧
      generateMaze fuel sh level passageWidth = .ok m4 ∧
      (w : Int) = levelWidth level ∧ (h : Int) = levelHeight level ∧
      CarvePost w h m3 log ∧ GoalPost w h m3 m4 := by
  obtain ⟨m3, log, w, h, hrunL, hrun3, hw, hh, hpost⟩ := carveMaze_spec fuel sh level hfuel
  obtain ⟨m4, hrun4, hinv4, hcv4, hwest, hnorth, hoth4⟩ := openGoalNeighbors_spec hpost.inv
  obtain ⟨d1, d2, d3, d4⟩ := hpost.inv.dims
  have e3 : (w : Int) - 2 - 1 = (w : Int) - 3 := by omega
  have e4 : (h : Int) - 2 - 1 = (h : Int) - 3 := by omega
  rw [e3] at hwest hoth4
  rw [e4] at hnorth hoth4
  have hwb : ¬ NonWall m3 ⟨(w : Int) - 3, (h : Int) - 2⟩ := by
    intro hc
    have := hpost.tree.deep _ hc
    simp only [] at this
    omega
  have hnb : ¬ NonWall m3 ⟨(w : Int) - 2, (h : Int) - 3⟩ := by
    intro hc
    have := hpost.tree.deep _ hc
    simp only [] at this
    omega
  refine ⟨m3, log, m4, w, h, hrunL, hrun3, ?_, hw, hh, hpost,
    ⟨hinv4, hcv4, hoth4, hwest, hnorth, ?_, ?_⟩⟩
  · rw [generateMaze_eq_carve, hrun3, ← hw, ← hh]
    exact hrun4
  · exact wall_of_closed (p := ⟨(w : Int) - 3, (h : Int) - 2⟩) hpost.inv.rect
      (by simp only []; omega) (by simp only []; omega) (by simp only []; omega)
      (by simp only []; omega) hwb
  · exact wall_of_closed (p := ⟨(w : Int) - 2, (h : Int) - 3⟩) hpost.inv.rect
      (by simp only []; omega) (by simp only []; omega) (by simp only []; omega)
      (by simp only []; omega) hnb

/-! ## The carved grid is a spanning tree -/

/-- C11: for every level and every outcome of the shuffles, the grid that
`generateMaze` has after `recursiveBacktrack` returns and before End's
neighbours are opened is a spanning tree over the rooms: every cell with odd
coordinates `1 ≤ x ≤ width-3`, `1 ≤ y ≤ height-3` is non-`WALL`, the graph of
adjacent non-`WALL` cells has no cycle, and any two non-`WALL` cells other
than End are joined by exactly one simple path. -/
theorem carveMaze_spanning_tree (fuel : Nat) (sh : ShuffleOracle) (level : Int)
    (hfuel : 1296 < fuel) :
    ∃ m3, carveMaze fuel sh level = .ok m3 ∧
      (∀ x y : Int, x % 2 = 1 → y % 2 = 1 → 1 ≤ x → x ≤ levelWidth level - 3 → 1 ≤ y →
        y ≤ levelHeight level - 3 → NonWall m3 ⟨x, y⟩) ∧
      (mazeGraph m3).IsAcyclic ∧
      ∀ a b : Position, NonWall m3 a → NonWall m3 b →
        a ≠ ⟨levelWidth level - 2, levelHeight level - 2⟩ →
        b ≠ ⟨levelWidth level - 2, levelHeight level - 2⟩ →
        ∃! l, IsSimplePath m3 a b l := by
  obtain ⟨m3, log, w, h, _, hrun3, hw, hh, hpost⟩ := carveMaze_spec fuel sh level hfuel
  rw [← hw, ← hh]
  obtain ⟨t, _, _, hne, huniq⟩ := hpost.tree.rank
  have hacyclic : (mazeGraph m3).IsAcyclic := isAcyclic_of_rank (mazeGraph m3) t hne huniq
  refine ⟨m3, hrun3, ?_, hacyclic, ?_⟩
  · intro x y hx hy hx1 hxw hy1 hyh
    apply hpost.rooms
    unfold Room Interior
    simp only []
    omega
  · intro a b ha hb hag hbg
    have hra : Reach m3 ⟨1, 1⟩ a :=
      hpost.reach a ha (fun hc => hag ((position_eq_iff _ _).2 hc))
    have hrb : Reach m3 ⟨1, 1⟩ b :=
      hpost.reach b hb (fun hc => hbg ((position_eq_iff _ _).2 hc))
    have hab : Reach m3 a b := hra.reverse.trans hrb
    obtain ⟨l, hl⟩ := hab.simplePath ha
    exact ⟨l, hl, fun l' hl' => simplePath_unique hacyclic hl' hl⟩

/-- Witness at level 1 with the identity shuffles: the room (13,13) is open
before End's neighbours are. -/
theorem carveMaze_spanning_tree_witness :
    1296 < 1301 ∧ ∃ m3, carveMaze 1301 ShuffleOracle.identity 1 = .ok m3 ∧
      NonWall m3 ⟨13, 13⟩ ∧ (mazeGraph m3).IsAcyclic :=
  ⟨by decide,
    let ⟨m3, hm, hrooms, hac, _⟩ :=
      carveMaze_spanning_tree 1301 ShuffleOracle.identity 1 (by decide)
    ⟨m3, hm, hrooms 13 13 (by decide) (by decide) (by decide) (by decide) (by decide)
      (by decide), hac⟩⟩

/-- C12: for every level and every outcome of the shuffles, in the grid
`generateMaze` returns End's neighbours (width-3, height-2) and
(width-2, height-3) are `PATH`, its neighbours (width-1, height-2) and
(width-2, height-1) on the border are `WALL`, and every other cell is as it
was before the loop over End's neighbours. -/
theorem generateMaze_goal_neighbours (fuel : Nat) (sh : ShuffleOracle)
    (level passageWidth : Int) (hfuel : 1296 < fuel) :
    ∃ m3 m4, carveMaze fuel sh level = .ok m3 ∧
      generateMaze fuel sh level passageWidth = .ok m4 ∧
      cellAt m4 (levelWidth level - 3) (levelHeight level - 2) = some Cell.PATH ∧
      cellAt m4 (levelWidth level - 2) (levelHeight level - 3) = some Cell.PATH ∧
      cellAt m4 (levelWidth level - 1) (levelHeight level - 2) = some Cell.WALL ∧
      cellAt m4 (levelWidth level - 2) (levelHeight level - 1) = some Cell.WALL ∧
      ∀ x y, ¬ (x = levelWidth level - 3 ∧ y = levelHeight level - 2) →
        ¬ (x = levelWidth level - 2 ∧ y = levelHeight level - 3) →
        cellAt m4 x y = cellAt m3 x y := by
  obtain ⟨m3, log, m4, w, h, _, hrun3, hrun4, hw, hh, hpost, hgoal⟩ :=
    generateMaze_stages fuel sh level passageWidth hfuel
  rw [← hw, ← hh]
  obtain ⟨d1, d2, d3, d4⟩ := hgoal.inv.dims
  have hborder : ∀ x y : Int, 0 ≤ x → x < w → 0 ≤ y → y < h → ¬ Interior w h x y →
      cellAt m4 x y = some Cell.WALL := by
    intro x y hx hxw hy hyh hni
    obtain ⟨c, hc⟩ := cellAt_exists hgoal.inv.rect hx hxw hy hyh
    by_cases hcw : c = Cell.WALL
    · rw [hc, hcw]
    · exact absurd (hgoal.inv.inside x y c hc hcw) hni
  refine ⟨m3, m4, hrun3, hrun4, hgoal.west, hgoal.north, ?_, ?_, hgoal.same⟩
  · exact hborder _ _ (by omega) (by omega) (by omega) (by omega)
      (by unfold Interior; omega)
  · exact hborder _ _ (by omega) (by omega) (by omega) (by omega)
      (by unfold Interior; omega)

/-- Witness at level 3 with the identity shuffles. -/
theorem generateMaze_goal_neighbours_witness :
    1296 < 1302 ∧ ∃ m4, generateMaze 1302 ShuffleOracle.identity 3 2 = .ok m4 ∧
      cellAt m4 33 34 = some Cell.PATH ∧ cellAt m4 34 33 = some Cell.PATH ∧
      cellAt m4 35 34 = some Cell.WALL ∧ cellAt m4 34 35 = some Cell.WALL :=
  ⟨by decide,
    let ⟨_, m4, _, hm, h1, h2, h3, h4, _⟩ :=
      generateMaze_goal_neighbours 1302 ShuffleOracle.identity 3 2 (by decide)
    ⟨m4, hm, h1, h2, h3, h4⟩⟩

/-! ## The loop at End -/

/-- The four cells around the lower right room are open in the returned grid
and form a cycle through End. -/
theorem goal_cycle {w h : Nat} {m3 m4 : Maze} {log : List CarveEvent}
    (hpost : CarvePost w h m3 log) (hgoal : GoalPost w h m3 m4) :
    IsGridCycle m4 [⟨(w : Int) - 3, (h : Int) - 3⟩, ⟨(w : Int) - 3, (h : Int) - 2⟩,
      ⟨(w : Int) - 2, (h : Int) - 2⟩, ⟨(w : Int) - 2, (h : Int) - 3⟩] := by
  obtain ⟨d1, d2, d3, d4⟩ := hgoal.inv.dims
  have hcorner : NonWall m4 ⟨(w : Int) - 3, (h : Int) - 3⟩ := by
    apply hgoal.carved.nonWall
    apply hpost.rooms
    unfold Room Interior
    simp only []
    omega
  have hwest : NonWall m4 ⟨(w : Int) - 3, (h : Int) - 2⟩ :=
    nonWall_of_cell hgoal.west (by decide)
  have hnorth : NonWall m4 ⟨(w : Int) - 2, (h : Int) - 3⟩ :=
    nonWall_of_cell hgoal.north (by decide)
  have hend : NonWall m4 ⟨(w : Int) - 2, (h : Int) - 2⟩ :=
    nonWall_of_cell hgoal.inv.goal (by decide)
  have e1 : (w : Int) - 2 = (w : Int) - 3 + 1 := by omega
  have e2 : (h : Int) - 2 = (h : Int) - 3 + 1 := by omega
  have n1 : ¬ ((w : Int) - 3 = (w : Int) - 2) := by omega
  have n2 : ¬ ((h : Int) - 3 = (h : Int) - 2) := by omega
  have n3 : ¬ ((w : Int) - 2 = (w : Int) - 3) := by omega
  have n4 : ¬ ((h : Int) - 2 = (h : Int) - 3) := by omega
  refine ⟨by simp, by simp [n1, n2, n3, n4], ?_, ?_, ?_⟩
  · intro p hp
    simp only [List.mem_cons, List.mem_singleton, List.not_mem_nil, or_false] at hp
    rcases hp with h' | h' | h' | h' <;> rw [h'] <;> assumption
  · exact List.Chain'.cons (Or.inl ⟨rfl, Or.inr e2⟩)
      (List.Chain'.cons (Or.inr ⟨rfl, Or.inr e1⟩)
        (List.Chain'.cons (Or.inl ⟨rfl, Or.inl e2⟩) (List.chain'_singleton _)))
  · exact ⟨_, _, rfl, rfl, Or.inr ⟨rfl, Or.inl e1⟩⟩

/-- C13: the loop over End's neighbours can create a small cycle: at level 1
with the identity shuffles the returned grid contains the cycle (13,13),
(13,14), (14,14), (14,13) of adjacent non-`WALL` cells through End, which is
not a cycle of the grid before that loop, where (13,14) is still `WALL`. -/
theorem generateMaze_cycle_at_end :
    ∃ (level : Int) (sh : ShuffleOracle) (m3 m4 : Maze),
      carveMaze 1297 sh level = .ok m3 ∧ generateMaze 1297 sh level 2 = .ok m4 ∧
      IsGridCycle m4 [⟨levelWidth level - 3, levelHeight level - 3⟩,
        ⟨levelWidth level - 3, levelHeight level - 2⟩,
        ⟨levelWidth level - 2, levelHeight level - 2⟩,
        ⟨levelWidth level - 2, levelHeight level - 3⟩] ∧
      cellAt m4 (levelWidth level - 2) (levelHeight level - 2) = some Cell.END ∧
      cellAt m3 (levelWidth level - 3) (levelHeight level - 2) = some Cell.WALL := by
  obtain ⟨m3, log, m4, w, h, _, hrun3, hrun4, hw, hh, hpost, hgoal⟩ :=
    generateMaze_stages 1297 ShuffleOracle.identity 1 2 (by decide)
  refine ⟨1, ShuffleOracle.identity, m3, m4, hrun3, hrun4, ?_, ?_, ?_⟩
  · rw [← hw, ← hh]; exact goal_cycle hpost hgoal
  · rw [← hw, ← hh]; exact hgoal.inv.goal
  · rw [← hw, ← hh]; exact hgoal.westBefore

/-! ## Parity of the carved cells -/

/-- C14: for every level and every outcome of the shuffles, every position
`recursiveBacktrack` carves from or recurses into has both coordinates odd,
every midpoint it carves has exactly one odd coordinate, the carved cells are
`PATH` in the grid `generateMaze` returns, and in that grid every cell with
both coordinates even is `WALL`, End at (width-2, height-2) excepted. -/
theorem generateMaze_odd_rooms (fuel : Nat) (sh : ShuffleOracle) (level passageWidth : Int)
    (hfuel : 1296 < fuel) :
    ∃ (m3 : Maze) (log : List CarveEvent) (m4 : Maze),
      carveMazeLog fuel sh level = .ok (m3, log) ∧
      generateMaze fuel sh level passageWidth = .ok m4 ∧
      (∀ e ∈ log, e.current.x % 2 = 1 ∧ e.current.y % 2 = 1 ∧
        e.next.x % 2 = 1 ∧ e.next.y % 2 = 1) ∧
      (∀ e ∈ log, (e.mid.x % 2 = 1 ∧ e.mid.y % 2 = 0) ∨ (e.mid.x % 2 = 0 ∧ e.mid.y % 2 = 1)) ∧
      (∀ e ∈ log, cellAt m4 e.mid.x e.mid.y = some Cell.PATH ∧
        cellAt m4 e.next.x e.next.y = some Cell.PATH) ∧
      ∀ x y c, cellAt m4 x y = some c → x % 2 = 0 → y % 2 = 0 →
        c = Cell.WALL ∨ (x = levelWidth level - 2 ∧ y = levelHeight level - 2) := by
  obtain ⟨m3, log, m4, w, h, hrunL, _, hrun4, hw, hh, hpost, hgoal⟩ :=
    generateMaze_stages fuel sh level passageWidth hfuel
  rw [← hw, ← hh]
  refine ⟨m3, log, m4, hrunL, hrun4, ?_, ?_, ?_, hgoal.inv.evens⟩
  · intro e he
    exact ⟨(hpost.logOK e he).1.2.1, (hpost.logOK e he).1.2.2, (hpost.logOK e he).2.1.2.1,
      (hpost.logOK e he).2.1.2.2⟩
  · intro e he
    exact (hpost.logOK e he).2.2.2.2.2
  · intro e he
    have hkeep : ∀ x y, cellAt m3 x y = some Cell.PATH → cellAt m4 x y = some Cell.PATH :=
      fun x y hxy => (hgoal.carved x y).2.1 Cell.PATH hxy (by decide)
    exact ⟨hkeep _ _ (hpost.logCarved e he).1, hkeep _ _ (hpost.logCarved e he).2⟩

/-- Witness at level 2 with the identity shuffles. -/
theorem generateMaze_odd_rooms_witness :
    1296 < 1303 ∧ ∃ (m3 : Maze) (log : List CarveEvent) (m4 : Maze),
      carveMazeLog 1303 ShuffleOracle.identity 2 = .ok (m3, log) ∧
      generateMaze 1303 ShuffleOracle.identity 2 2 = .ok m4 ∧
      ∀ e ∈ log, e.current.x % 2 = 1 ∧ e.current.y % 2 = 1 ∧
        e.next.x % 2 = 1 ∧ e.next.y % 2 = 1 :=
  ⟨by decide,
    let ⟨m3, log, m4, hl, hm, hodd, _⟩ :=
      generateMaze_odd_rooms 1303 ShuffleOracle.identity 2 2 (by decide)
    ⟨m3, log, m4, hl, hm, hodd⟩⟩

/-! ## Passage width -/

theorem GenInv.open_interior {w h : Nat} {m : Maze} (hinv : GenInv w h m) {p : Position}
    (hp : NonWall m p) : Interior w h p.x p.y := by
  obtain ⟨c, hc, hcne⟩ := hp.cell
  exact hinv.inside p.x p.y c hc hcne

theorem GenInv.open_even {w h : Nat} {m : Maze} (hinv : GenInv w h m) {p : Position}
    (hp : NonWall m p) (hx : p.x % 2 = 0) (hy : p.y % 2 = 0) :
    p.x = (w : Int) - 2 ∧ p.y = (h : Int) - 2 := by
  obtain ⟨c, hc, hcne⟩ := hp.cell
  rcases hinv.evens p.x p.y c hc hx hy with h' | h'
  · exact absurd h' hcne
  · exact h'

/-- The only 2 by 2 block without a `WALL` cell in a returned grid is the one
whose lower right corner is End. -/
theorem openBlock_iff {w h : Nat} {m3 m4 : Maze} {log : List CarveEvent}
    (hpost : CarvePost w h m3 log) (hgoal : GoalPost w h m3 m4) (x y : Int) :
    OpenBlock m4 x y ↔ (x = (w : Int) - 3 ∧ y = (h : Int) - 3) := by
  obtain ⟨d1, d2, d3, d4⟩ := hgoal.inv.dims
  constructor
  · rintro ⟨h00, h10, h01, h11⟩
    have i00 := hgoal.inv.open_interior h00
    have i11 := hgoal.inv.open_interior h11
    unfold Interior at i00 i11
    simp only [] at i00 i11
    by_cases hx : x % 2 = 0
    · by_cases hy : y % 2 = 0
      · have := hgoal.inv.open_even h00 hx hy
        simp only [] at this
        omega
      · have := hgoal.inv.open_even h01 hx (by simp only []; omega)
        simp only [] at this
        omega
    · by_cases hy : y % 2 = 0
      · have := hgoal.inv.open_even h10 (by simp only []; omega) hy
        simp only [] at this
        omega
      · have := hgoal.inv.open_even h11 (by simp only []; omega) (by simp only []; omega)
        simp only [] at this
        omega
  · rintro ⟨hx, hy⟩
    obtain ⟨_, _, hall, _, _⟩ := goal_cycle hpost hgoal
    have e1 : (w : Int) - 3 + 1 = (w : Int) - 2 := by omega
    have e2 : (h : Int) - 3 + 1 = (h : Int) - 2 := by omega
    unfold OpenBlock
    rw [hx, hy, e1, e2]
    exact ⟨hall _ (by simp), hall _ (by simp), hall _ (by simp), hall _ (by simp)⟩

/-- Counterexample to the absence of 2 by 2 open blocks: at level 1 with the
identity shuffles the cells (13,13), (14,13), (13,14), (14,14) of the returned
grid are all non-`WALL`. -/
theorem generateMaze_open_block_level1 :
    ∃ m, generateMaze 1297 ShuffleOracle.identity 1 2 = .ok m ∧ OpenBlock m 13 13 := by
  obtain ⟨m3, log, m4, w, h, _, _, hrun4, hw, hh, hpost, hgoal⟩ :=
    generateMaze_stages 1297 ShuffleOracle.identity 1 2 (by decide)
  have hw' : (w : Int) = 16 := hw
  have hh' : (h : Int) = 16 := hh
  exact ⟨m4, hrun4, (openBlock_iff hpost hgoal 13 13).2 ⟨by omega, by omega⟩⟩

/-- C15, amended: for every level, every value of `passageWidth` and every
outcome of the shuffles, `generateMaze` returns the same grid as for any other
`passageWidth`, and that grid has exactly one 2 by 2 block of cells that are
all non-`WALL`: the block of End, its two opened neighbours and the room
(width-3, height-3). -/
theorem generateMaze_passage_width (fuel : Nat) (sh : ShuffleOracle)
    (level passageWidth passageWidth' : Int) (hfuel : 1296 < fuel) :
    generateMaze fuel sh level passageWidth = generateMaze fuel sh level passageWidth' ∧
    ∃ m, generateMaze fuel sh level passageWidth = .ok m ∧
      ∀ x y, OpenBlock m x y ↔ (x = levelWidth level - 3 ∧ y = levelHeight level - 3) := by
  obtain ⟨m3, log, m4, w, h, _, _, hrun4, hw, hh, hpost, hgoal⟩ :=
    generateMaze_stages fuel sh level passageWidth hfuel
  rw [← hw, ← hh]
  exact ⟨rfl, m4, hrun4, openBlock_iff hpost hgoal⟩

/-- Witness at level 3 with the identity shuffles and the passage widths 2
and 5. -/
theorem generateMaze_passage_width_witness :
    1296 < 1304 ∧
      generateMaze 1304 ShuffleOracle.identity 3 2 =
        generateMaze 1304 ShuffleOracle.identity 3 5 ∧
      ∃ m, generateMaze 1304 ShuffleOracle.identity 3 2 = .ok m ∧ OpenBlock m 33 33 ∧
        ¬ OpenBlock m 1 1 :=
  ⟨by decide, (generateMaze_passage_width 1304 ShuffleOracle.identity 3 2 5 (by decide)).1,
    let ⟨m, hm, hblock⟩ :=
      (generateMaze_passage_width 1304 ShuffleOracle.identity 3 2 5 (by decide)).2
    ⟨m, hm, (hblock 33 33).2 ⟨by decide, by decide⟩,
      fun hb => absurd ((hblock 1 1).1 hb).1 (by decide)⟩⟩

/-! ## Counting over the rows -/

theorem nonWall_cons_succ (row : List Cell) (rest : Maze) (x y : Nat) :
    NonWall (row :: rest) ⟨(x : Int), ((y + 1 : Nat) : Int)⟩ ↔
      NonWall rest ⟨(x : Int), (y : Int)⟩ := by
  unfold NonWall cellAt
  simp only []
  rw [if_neg (by omega), if_neg (by omega)]
  have e1 : ((y + 1 : Nat) : Int).toNat = y + 1 := by omega
  have e2 : ((y : Nat) : Int).toNat = y := by omega
  rw [e1, e2, List.getElem?_cons_succ]

theorem nonWall_cons_zero (row : List Cell) (rest : Maze) (x : Nat) :
    NonWall (row :: rest) ⟨(x : Int), ((0 : Nat) : Int)⟩ ↔
      ∃ c, row[x]? = some c ∧ c ≠ Cell.WALL := by
  unfold NonWall cellAt
  simp only []
  rw [if_neg (by omega)]
  have e1 : ((0 : Nat) : Int).toNat = 0 := by omega
  have e2 : ((x : Nat) : Int).toNat = x := by omega
  rw [e1, e2, List.getElem?_cons_zero]
  simp only []
  cases row[x]? with
  | none => simp
  | some c => simp

theorem row_sum_eq_countP :
    ∀ (row : List Cell),
      (∑ x in Finset.range row.length,
        if (∃ c, row[x]? = some c ∧ c ≠ Cell.WALL) then 1 else 0) =
        row.countP (fun c => decide (c ≠ Cell.WALL)) := by
  intro row
  induction row with
  | nil => rfl
  | cons c rest ih =>
    rw [List.length_cons, Finset.sum_range_succ', List.countP_cons]
    simp only [List.getElem?_cons_succ, List.getElem?_cons_zero, Option.some.injEq,
      exists_eq_left']
    rw [ih]
    by_cases hc : c = Cell.WALL
    · simp [hc]
    · simp [hc]

/-- On a rectangular grid the two ways of counting the non-`WALL` cells
agree. -/
theorem nonWallCount_eq_cells {w : Nat} :
    ∀ (m : Maze), (∀ row ∈ m, row.length = w) → nonWallCount w m.length m = nonWallCells m := by
  intro m
  have hsum : ∀ (m : Maze), nonWallCount w m.length m =
      ∑ y in Finset.range m.length, ∑ x in Finset.range w,
        if NonWall m ⟨(x : Int), (y : Int)⟩ then 1 else 0 := by
    intro m
    unfold nonWallCount gridBox
    rw [Finset.card_filter, Finset.sum_product_right]
  induction m with
  | nil =>
    intro _
    rw [hsum]
    simp [nonWallCells]
  | cons row rest ih =>
    intro hrows
    have hrest : ∀ r ∈ rest, r.length = w := fun r hr => hrows r (List.mem_cons_of_mem _ hr)
    have hrow : row.length = w := hrows row (List.mem_cons_self _ _)
    rw [hsum, List.length_cons, Finset.sum_range_succ']
    simp only [nonWall_cons_succ, nonWall_cons_zero]
    rw [← hsum rest, ih hrest, ← hrow, row_sum_eq_countP]
    unfold nonWallCells
    rw [List.map_cons, List.sum_cons, Nat.add_comm]

/-! ## Counting the open cells -/

/-- Once every room is open there are `((w-2)/2) * ((h-2)/2)` open rooms. -/
theorem openRoomCount_all {w h : Nat} {m3 : Maze} {log : List CarveEvent}
    (hpost : CarvePost w h m3 log) :
    openRoomCount w h m3 = ((w - 2) / 2) * ((h - 2) / 2) := by
  obtain ⟨d1, d2, d3, d4⟩ := hpost.inv.dims
  have hset : (gridBox w h).filter
      (fun p => NonWall m3 ⟨(p.1 : Int), (p.2 : Int)⟩ ∧ p.1 % 2 = 1 ∧ p.2 % 2 = 1) =
      (Finset.range ((w - 2) / 2) ×ˢ Finset.range ((h - 2) / 2)).image
        (fun q => (2 * q.1 + 1, 2 * q.2 + 1)) := by
    ext p
    rw [Finset.mem_filter, Finset.mem_image]
    constructor
    · rintro ⟨_, hopen, h1, h2⟩
      have hin := hpost.inv.open_interior hopen
      unfold Interior at hin
      simp only [] at hin
      refine ⟨((p.1 - 1) / 2, (p.2 - 1) / 2), ?_, ?_⟩
      · rw [Finset.mem_product, Finset.mem_range, Finset.mem_range]
        simp only []
        omega
      · rw [Prod.ext_iff]
        simp only []
        omega
    · rintro ⟨q, hq, hqp⟩
      rw [Finset.mem_product, Finset.mem_range, Finset.mem_range] at hq
      rw [Prod.ext_iff] at hqp
      simp only [] at hqp
      refine ⟨?_, ?_, by omega, by omega⟩
      · unfold gridBox
        rw [Finset.mem_product, Finset.mem_range, Finset.mem_range]
        omega
      · apply hpost.rooms
        unfold Room Interior
        simp only []
        omega
  unfold openRoomCount
  rw [hset, Finset.card_image_of_injective, Finset.card_product, Finset.card_range,
    Finset.card_range]
  intro q1 q2 hq
  rw [Prod.ext_iff] at hq ⊢
  simp only [] at hq
  omega

theorem goal_nonWall_iff {w h : Nat} {m3 m4 : Maze} (hgoal : GoalPost w h m3 m4) :
    ∀ p, NonWall m4 p ↔ p = ⟨(w : Int) - 3, (h : Int) - 2⟩ ∨
      p = ⟨(w : Int) - 2, (h : Int) - 3⟩ ∨ NonWall m3 p := by
  have hcells : ∀ x y, cellAt m4 x y =
      if (x = (w : Int) - 3 ∧ y = (h : Int) - 2) ∨ (x = (w : Int) - 2 ∧ y = (h : Int) - 3)
      then some Cell.PATH else cellAt m3 x y := by
    intro x y
    by_cases h1 : x = (w : Int) - 3 ∧ y = (h : Int) - 2
    · rw [if_pos (Or.inl h1), h1.1, h1.2]; exact hgoal.west
    · by_cases h2 : x = (w : Int) - 2 ∧ y = (h : Int) - 3
      · rw [if_pos (Or.inr h2), h2.1, h2.2]; exact hgoal.north
      · rw [if_neg (by rintro (h' | h'); exact h1 h'; exact h2 h')]
        exact hgoal.same x y h1 h2
  exact nonWall_iff_of_cells ⟨(w : Int) - 3, (h : Int) - 2⟩ ⟨(w : Int) - 2, (h : Int) - 3⟩
    hcells

/-- Opening End's two neighbours adds two open cells and no open room. -/
theorem nonWallCount_goal {w h : Nat} {m3 m4 : Maze} (hgoal : GoalPost w h m3 m4) :
    nonWallCount w h m4 = nonWallCount w h m3 + 2 ∧
      openRoomCount w h m4 = openRoomCount w h m3 := by
  obtain ⟨d1, d2, d3, d4⟩ := hgoal.inv.dims
  have hopen := goal_nonWall_iff hgoal
  have hwestClosed : ¬ NonWall m3 ⟨(w : Int) - 3, (h : Int) - 2⟩ :=
    fun hc => hc.2 hgoal.westBefore
  have hnorthClosed : ¬ NonWall m3 ⟨(w : Int) - 2, (h : Int) - 3⟩ :=
    fun hc => hc.2 hgoal.northBefore
  have hwestBox : (((w : Int) - 3).toNat, ((h : Int) - 2).toNat) ∈ gridBox w h :=
    mem_gridBox (by omega) (by omega) (by omega) (by omega)
  have hnorthBox : (((w : Int) - 2).toNat, ((h : Int) - 3).toNat) ∈ gridBox w h :=
    mem_gridBox (by omega) (by omega) (by omega) (by omega)
  have hwestCast := (pair_eq_iff (((w : Int) - 3).toNat, ((h : Int) - 2).toNat)
    ((w : Int) - 3) ((h : Int) - 2) (by omega) (by omega)).2 rfl
  have hnorthCast := (pair_eq_iff (((w : Int) - 2).toNat, ((h : Int) - 3).toNat)
    ((w : Int) - 2) ((h : Int) - 3) (by omega) (by omega)).2 rfl
  simp only [] at hwestCast hnorthCast
  have hpairs : (((w : Int) - 3).toNat, ((h : Int) - 2).toNat) ≠
      (((w : Int) - 2).toNat, ((h : Int) - 3).toNat) := by
    rw [ne_eq, Prod.ext_iff]
    simp only []
    omega
  have hstep1 := card_filter_add_one (gridBox w h)
    (fun p => NonWall m3 ⟨(p.1 : Int), (p.2 : Int)⟩)
    (fun p => p = (((w : Int) - 2).toNat, ((h : Int) - 3).toNat) ∨
      NonWall m3 ⟨(p.1 : Int), (p.2 : Int)⟩)
    (((w : Int) - 2).toNat, ((h : Int) - 3).toNat) hnorthBox
    (by simp only []; rw [hnorthCast]; exact hnorthClosed) (fun p _ => Iff.rfl)
  have hstep2 := card_filter_add_one (gridBox w h)
    (fun p => p = (((w : Int) - 2).toNat, ((h : Int) - 3).toNat) ∨
      NonWall m3 ⟨(p.1 : Int), (p.2 : Int)⟩)
    (fun p => NonWall m4 ⟨(p.1 : Int), (p.2 : Int)⟩)
    (((w : Int) - 3).toNat, ((h : Int) - 2).toNat) hwestBox
    (by
      simp only []
      rw [hwestCast]
      rintro (h' | h')
      · exact hpairs h'
      · exact hwestClosed h')
    (by
      intro p _
      simp only []
      rw [hopen, pair_eq_iff p _ _ (by omega) (by omega),
        pair_eq_iff p _ _ (by omega) (by omega)])
  constructor
  · unfold nonWallCount
    rw [hstep2, hstep1]
  · unfold openRoomCount
    apply congrArg
    apply Finset.filter_congr
    intro p _
    rw [hopen]
    constructor
    · rintro ⟨h' | h' | h', h1, h2⟩
      · rw [position_eq_iff] at h'
        simp only [] at h'
        omega
      · rw [position_eq_iff] at h'
        simp only [] at h'
        omega
      · exact ⟨h', h1, h2⟩
    · rintro ⟨h', h1, h2⟩
      exact ⟨Or.inr (Or.inr h'), h1, h2⟩

/-- C20: the number of non-`WALL` cells of the grid `generateMaze` returns
does not depend on the shuffles: with `n = (width-2)/2` it is `2*n*n + 2`,
made of `n*n` open rooms, `n*n - 1` carved midpoints (one per carving step),
End, and End's two opened neighbours; that is 100 at level 1 and at every
level other than 2 and 3, 290 at level 2 and 580 at level 3. -/
theorem generateMaze_nonWall_count (fuel : Nat) (sh : ShuffleOracle)
    (level passageWidth : Int) (hfuel : 1296 < fuel) :
    ∃ (m3 : Maze) (log : List CarveEvent) (m4 : Maze),
      carveMazeLog fuel sh level = .ok (m3, log) ∧
      generateMaze fuel sh level passageWidth = .ok m4 ∧
      nonWallCells m4 =
        2 * (((levelWidth level).toNat - 2) / 2) * (((levelWidth level).toNat - 2) / 2) + 2 ∧
      nonWallCount (levelWidth level).toNat (levelHeight level).toNat m4 = nonWallCells m4 ∧
      openRoomCount (levelWidth level).toNat (levelHeight level).toNat m4 =
        (((levelWidth level).toNat - 2) / 2) * (((levelWidth level).toNat - 2) / 2) ∧
      log.length + 1 =
        (((levelWidth level).toNat - 2) / 2) * (((levelWidth level).toNat - 2) / 2) ∧
      (level = 2 → nonWallCells m4 = 290) ∧
      (level = 3 → nonWallCells m4 = 580) ∧
      (level ≠ 2 → level ≠ 3 → nonWallCells m4 = 100) := by
  obtain ⟨m3, log, m4, w, h, hrunL, _, hrun4, hw, hh, hpost, hgoal⟩ :=
    generateMaze_stages fuel sh level passageWidth hfuel
  have hwn : (levelWidth level).toNat = w := by omega
  have hhn : (levelHeight level).toNat = h := by omega
  have hwh : h = w := by
    have := levelHeight_eq level
    omega
  subst hwh
  have hrooms := openRoomCount_all hpost
  have hcount3 := hpost.tree.count
  obtain ⟨hcount4, hrooms4⟩ := nonWallCount_goal hgoal
  have hcells : nonWallCount h h m4 = nonWallCells m4 := by
    have := nonWallCount_eq_cells m4 hgoal.inv.rect.2
    rw [hgoal.inv.rect.1] at this
    exact this
  have htotal : nonWallCells m4 = 2 * ((h - 2) / 2) * ((h - 2) / 2) + 2 := by
    rw [← hcells, hcount4, hcount3, hrooms, Nat.mul_assoc]
  rw [hwn, hhn]
  refine ⟨m3, log, m4, hrunL, hrun4, htotal, hcells, by rw [hrooms4, hrooms], ?_, ?_, ?_, ?_⟩
  · rw [← hpost.logLength, hrooms]
  · intro hl
    have h26 : h = 26 := by rw [← hwn, hl]; rfl
    subst h26
    exact htotal
  · intro hl
    have h36 : h = 36 := by rw [← hwn, hl]; rfl
    subst h36
    exact htotal
  · intro h2 h3
    have h16 : h = 16 := by
      rw [← hwn]
      unfold levelWidth BASE_WIDTH
      rw [if_neg h2, if_neg h3]; rfl
    subst h16
    exact htotal

/-- Witness at level 1 with the identity shuffles: 100 open cells. -/
theorem generateMaze_nonWall_count_witness :
    1296 < 1305 ∧ ∃ m4, generateMaze 1305 ShuffleOracle.identity 1 2 = .ok m4 ∧
      nonWallCells m4 = 100 :=
  ⟨by decide,
    let ⟨_, _, m4, _, hm, _, _, _, _, _, _, h100⟩ :=
      generateMaze_nonWall_count 1305 ShuffleOracle.identity 1 2 (by decide)
    ⟨m4, hm, h100 (by decide) (by decide)⟩⟩

/-! ## Playing a generated maze -/

theorem gridWidth_rect {w h : Nat} {m : Maze} (hr : Rect w h m) (hh : 0 < h) :
    gridWidth m = w := by
  obtain ⟨hlen, hrow⟩ := hr
  cases m with
  | nil => simp at hlen; omega
  | cons row0 rest => exact hrow _ (List.mem_cons_self _ _)

theorem keyTarget_keyFor {a b : Position} (hadj : Adjacent a b) :
    keyTarget a (keyFor a b) = b := by
  obtain ⟨ax, ay⟩ := a
  obtain ⟨bx, by'⟩ := b
  unfold Adjacent at hadj
  simp only [] at hadj
  unfold keyFor
  simp only []
  by_cases h1 : by' = ay - 1
  · rw [if_pos h1]
    unfold keyTarget
    rw [if_pos rfl, position_eq_iff]
    simp only []
    omega
  · rw [if_neg h1]
    by_cases h2 : by' = ay + 1
    · rw [if_pos h2]
      unfold keyTarget
      rw [if_neg (by decide), if_pos rfl, position_eq_iff]
      simp only []
      omega
    · rw [if_neg h2]
      by_cases h3 : bx = ax - 1
      · rw [if_pos h3]
        unfold keyTarget
        rw [if_neg (by decide), if_neg (by decide), if_pos rfl, position_eq_iff]
        simp only []
        omega
      · rw [if_neg h3]
        unfold keyTarget
        rw [if_neg (by decide), if_neg (by decide), if_neg (by decide), if_pos rfl,
          position_eq_iff]
        simp only []
        omega

theorem keyFor_wasd (a b : Position) :
    keyFor a b = 'w' ∨ keyFor a b = 'a' ∨ keyFor a b = 's' ∨ keyFor a b = 'd' := by
  unfold keyFor
  split
  · exact Or.inl rfl
  · split
    · exact Or.inr (Or.inr (Or.inl rfl))
    · split
      · exact Or.inr (Or.inl rfl)
      · exact Or.inr (Or.inr (Or.inr rfl))

theorem keysAlong_wasd : ∀ (l : List Position), ∀ k ∈ keysAlong l,
    k = 'w' ∨ k = 'a' ∨ k = 's' ∨ k = 'd' := by
  intro l
  induction l with
  | nil => intro k hk; simp [keysAlong] at hk
  | cons a rest ih =>
    cases rest with
    | nil => intro k hk; simp [keysAlong] at hk
    | cons b rest' =>
      intro k hk
      rw [keysAlong, List.mem_cons] at hk
      rcases hk with h' | h'
      · rw [h']; exact keyFor_wasd a b
      · exact ih k h'

/-- In a grid meeting `GenInv`, the key for an adjacent open cell moves the
player onto it. -/
theorem movePlayer_keyFor {w h : Nat} {m : Maze} (hinv : GenInv w h m) {a b : Position}
    (hadj : Adjacent a b) (hb : NonWall m b) : movePlayer m a (keyFor a b) = .ok b := by
  obtain ⟨d1, d2, d3, d4⟩ := hinv.dims
  obtain ⟨r, hr⟩ := movePlayer_rect hinv.rect (show 0 < h by omega) a (keyFor a b)
  have hin := hinv.open_interior hb
  unfold Interior at hin
  have hlegal : LegalTarget m b := by
    unfold LegalTarget
    rw [gridWidth_rect hinv.rect (show 0 < h by omega), hinv.rect.1]
    exact ⟨by omega, by omega, by omega, by omega, hb⟩
  rcases movePlayer_cases hr with ⟨h1, _⟩ | ⟨_, h2⟩
  · rw [hr, h1, keyTarget_keyFor hadj]
  · rw [keyTarget_keyFor hadj] at h2
    exact absurd hlegal h2

/-- Walking the keys of a path of open cells that passes through End wins. -/
theorem playLoop_keysAlong {w h : Nat} {m : Maze} (hinv : GenInv w h m) :
    ∀ (l : List Position) (a : Position), l.head? = some a → l.Chain' Adjacent →
      (∀ p ∈ l, NonWall m p) → cellAt m a.x a.y ≠ some Cell.END →
      (∃ g ∈ l, cellAt m g.x g.y = some Cell.END) →
      ∃ r, playLoop m a (keysAlong l) = .ok r ∧ r.state = LoopState.Won := by
  intro l
  induction l with
  | nil => intro a hhead; simp at hhead
  | cons x rest ih =>
    intro a hhead hchain hopen hstart hgoal
    have hax : x = a := by simpa using hhead
    subst hax
    cases rest with
    | nil =>
      obtain ⟨g, hg, hcell⟩ := hgoal
      rw [List.mem_singleton] at hg
      rw [hg] at hcell
      exact absurd hcell hstart
    | cons b rest' =>
      rw [List.chain'_cons] at hchain
      have hb : NonWall m b := hopen b (List.mem_cons_of_mem _ (List.mem_cons_self _ _))
      have hmove := movePlayer_keyFor hinv hchain.1 hb
      obtain ⟨c, hc, _⟩ := hb.cell
      rw [keysAlong]
      by_cases hend : c = Cell.END
      · rw [hend] at hc
        exact ⟨_, playLoop_cons_won _ hmove hc, rfl⟩
      · have hne : cellAt m b.x b.y ≠ some Cell.END := by
          rw [hc]; simpa using hend
        have hgoal' : ∃ g ∈ b :: rest', cellAt m g.x g.y = some Cell.END := by
          obtain ⟨g, hg, hcell⟩ := hgoal
          rcases List.mem_cons.1 hg with h' | h'
          · rw [h'] at hcell; exact absurd hcell hstart
          · exact ⟨g, h', hcell⟩
        obtain ⟨r, hr, hwon⟩ := ih b rfl hchain.2
          (fun p hp => hopen p (List.mem_cons_of_mem _ hp)) hne hgoal'
        exact ⟨_, playLoop_cons_go hmove hc hend hr, hwon⟩

/-- C16: for every level and every outcome of the shuffles there is a finite
sequence of keys among `w`, `a`, `s`, `d` that, fed to the play loop started
at (1,1) on the generated maze, drives it to `Won`. -/
theorem generateMaze_solvable (fuel : Nat) (sh : ShuffleOracle) (level passageWidth : Int)
    (hfuel : 1296 < fuel) :
    ∃ m, generateMaze fuel sh level passageWidth = .ok m ∧
      ∃ keys : List Char, (∀ k ∈ keys, k = 'w' ∨ k = 'a' ∨ k = 's' ∨ k = 'd') ∧
        ∃ r, playLoop m ⟨1, 1⟩ keys = .ok r ∧ r.state = LoopState.Won := by
  obtain ⟨m, hm, hpost⟩ := generateMaze_spec fuel sh level passageWidth hfuel
  have hstart : NonWall m ⟨1, 1⟩ := nonWall_of_cell hpost.inv.start (by decide)
  have hgoal := nonWall_of_cell (p := ⟨_, _⟩) hpost.inv.goal (by decide)
  obtain ⟨l, ⟨hhead, hlast, hchain, hopen⟩, _⟩ := (hpost.reach _ hgoal).simplePath hstart
  refine ⟨m, hm, keysAlong l, keysAlong_wasd l, ?_⟩
  refine playLoop_keysAlong hpost.inv l ⟨1, 1⟩ hhead hchain hopen ?_ ?_
  · simp only []; rw [hpost.inv.start]; simp
  · exact ⟨_, List.mem_of_mem_getLast? (Option.mem_def.2 hlast), hpost.inv.goal⟩

/-- Witness at level 1 with the identity shuffles. -/
theorem generateMaze_solvable_witness :
    1296 < 1306 ∧ ∃ m, generateMaze 1306 ShuffleOracle.identity 1 2 = .ok m ∧
      ∃ keys : List Char, ∃ r, playLoop m ⟨1, 1⟩ keys = .ok r ∧ r.state = LoopState.Won :=
  ⟨by decide,
    let ⟨m, hm, keys, _, hr⟩ :=
      generateMaze_solvable 1306 ShuffleOracle.identity 1 2 (by decide)
    ⟨m, hm, keys, hr⟩⟩

/-- The play loop never leaves the open cells: started on one, it ends on one. -/
theorem playLoop_open {m : Maze} :
    ∀ (inputs : List Char) (p : Position) (r : LoopResult), NonWall m p →
      playLoop m p inputs = .ok r → NonWall m r.player := by
  intro inputs
  induction inputs with
  | nil =>
    intro p r hp hrun
    rw [playLoop] at hrun
    rw [← Except.ok.inj hrun]
    exact hp
  | cons c cs ih =>
    intro p r hp hrun
    rw [playLoop] at hrun
    cases hmove : movePlayer m p c with
    | error e => rw [hmove] at hrun; exact absurd hrun (by simp)
    | ok p1 =>
      rw [hmove] at hrun
      simp only [] at hrun
      have hp1 : NonWall m p1 := by
        rcases movePlayer_cases hmove with ⟨h1, h2⟩ | ⟨h1, _⟩
        · rw [h1]; exact h2.2.2.2.2
        · rw [h1]; exact hp
      cases hread : readCell m p1.x p1.y with
      | error e => rw [hread] at hrun; exact absurd hrun (by simp)
      | ok cell =>
        rw [hread] at hrun
        simp only [] at hrun
        by_cases hend : cell = Cell.END
        · rw [if_pos hend] at hrun
          rw [← Except.ok.inj hrun]
          exact hp1
        · rw [if_neg hend] at hrun
          cases hrest : playLoop m p1 cs with
          | error e => rw [hrest] at hrun; exact absurd hrun (by simp)
          | ok r' =>
            rw [hrest] at hrun
            simp only [] at hrun
            rw [← Except.ok.inj hrun]
            exact ih p1 r' hp1 hrest

/-- C17: on every generated maze and for every finite sequence of input
characters, the play loop started at (1,1) returns with the player at a
position `(x, y)` such that `1 ≤ x ≤ width-2`, `1 ≤ y ≤ height-2` and the
cell there is not `WALL`.  The loop of the embedding takes the grid as a
read-only argument, as the source loop never assigns to `maze`. -/
theorem playLoop_player_inside (fuel : Nat) (sh : ShuffleOracle) (level passageWidth : Int)
    (hfuel : 1296 < fuel) :
    ∃ m, generateMaze fuel sh level passageWidth = .ok m ∧
      ∀ inputs : List Char, ∃ r, playLoop m ⟨1, 1⟩ inputs = .ok r ∧
        1 ≤ r.player.x ∧ r.player.x ≤ levelWidth level - 2 ∧
        1 ≤ r.player.y ∧ r.player.y ≤ levelHeight level - 2 ∧
        ∃ c, cellAt m r.player.x r.player.y = some c ∧ c ≠ Cell.WALL := by
  obtain ⟨m, w, h, hm, hw, hh, hpost⟩ := genPost_cast fuel sh level passageWidth hfuel
  rw [← hw, ← hh]
  obtain ⟨_, _, _, d4⟩ := hpost.inv.dims
  have hstart := hpost.inv.start
  refine ⟨m, hm, fun inputs => ?_⟩
  obtain ⟨r, hr, _⟩ := playLoop_spec hpost.inv.rect (show 0 < h by omega) inputs ⟨1, 1⟩
    (by simp only []; rw [hstart]; simp) (by simp only []; rw [hstart]; simp)
  have hopen := playLoop_open inputs ⟨1, 1⟩ r (nonWall_of_cell hstart (by decide)) hr
  have hin := hpost.inv.open_interior hopen
  unfold Interior at hin
  exact ⟨r, hr, by omega, by omega, by omega, by omega, hopen.cell⟩

/-- Witness at level 1 with the identity shuffles and the input `sdx`. -/
theorem playLoop_player_inside_witness :
    1296 < 1307 ∧ ∃ m, generateMaze 1307 ShuffleOracle.identity 1 2 = .ok m ∧
      ∃ r, playLoop m ⟨1, 1⟩ ['s', 'd', 'x'] = .ok r ∧
        1 ≤ r.player.x ∧ r.player.x ≤ 14 ∧ 1 ≤ r.player.y ∧ r.player.y ≤ 14 ∧
        ∃ c, cellAt m r.player.x r.player.y = some c ∧ c ≠ Cell.WALL :=
  ⟨by decide,
    let ⟨m, hm, hloop⟩ :=
      playLoop_player_inside 1307 ShuffleOracle.identity 1 2 (by decide)
    ⟨m, hm, hloop ['s', 'd', 'x']⟩⟩

/-! ## No access out of bounds -/

theorem carveLoop_fuel_mono (rec rec' : Maze → Position → Nat → Except Fault (Maze × Nat))
    (hrec : ∀ m cur n res, rec m cur n = res → res ≠ .error .outOfFuel →
      rec' m cur n = res)
    (cur : Position) :
    ∀ (l : List Position) (m : Maze) (n : Nat) (res : Except Fault (Maze × Nat)),
      carveLoop rec cur l m n = res → res ≠ .error .outOfFuel →
      carveLoop rec' cur l m n = res := by
  intro l
  induction l with
  | nil => intro m n res hrun _; rw [← hrun]; rfl
  | cons next rest ih =>
    intro m n res hrun hne
    rw [carveLoop] at hrun ⊢
    try simp only [] at hrun ⊢
    cases hv : isValidMove next.x next.y m with
    | error e => rw [hv] at hrun; exact hrun
    | ok b =>
      rw [hv] at hrun
      cases b with
      | false => exact ih m n res hrun hne
      | true =>
        try simp only [] at hrun ⊢
        cases hread : readCell m next.x next.y with
        | error e => rw [hread] at hrun; exact hrun
        | ok c =>
          rw [hread] at hrun
          try simp only [] at hrun ⊢
          by_cases hc : c = Cell.WALL
          · rw [if_pos hc] at hrun ⊢
            cases hw1 : writeCell m ((cur.x + next.x).tdiv 2) ((cur.y + next.y).tdiv 2)
                Cell.PATH with
            | error e => rw [hw1] at hrun; exact hrun
            | ok m1 =>
              rw [hw1] at hrun
              try simp only [] at hrun ⊢
              cases hw2 : writeCell m1 next.x next.y Cell.PATH with
              | error e => rw [hw2] at hrun; exact hrun
              | ok m2 =>
                rw [hw2] at hrun
                try simp only [] at hrun ⊢
                cases hcall : rec m2 next n with
                | error e =>
                  rw [hcall] at hrun
                  try simp only [] at hrun
                  have hne' : (Except.error e : Except Fault (Maze × Nat)) ≠
                      .error .outOfFuel := by
                    rw [hrun]; exact hne
                  rw [hrec m2 next n _ hcall hne']
                  exact hrun
                | ok r =>
                  obtain ⟨m3, n3⟩ := r
                  rw [hcall] at hrun
                  try simp only [] at hrun
                  rw [hrec m2 next n _ hcall (by simp)]
                  exact ih m3 n3 res hrun hne
          · rw [if_neg hc] at hrun ⊢
            exact ih m n res hrun hne

/-- A run of `recursiveBacktrack` that does not run out of fuel is unchanged
by more fuel. -/
theorem recursiveBacktrack_fuel_mono (sh : ShuffleOracle) :
    ∀ (fuel : Nat) (m : Maze) (cur : Position) (n : Nat) (res : Except Fault (Maze × Nat)),
      recursiveBacktrack sh fuel m cur n = res → res ≠ .error .outOfFuel →
      recursiveBacktrack sh (fuel + 1) m cur n = res := by
  intro fuel
  induction fuel with
  | zero =>
    intro m cur n res hrun hne
    rw [recursiveBacktrack] at hrun
    exact absurd hrun.symm hne
  | succ fuel ih =>
    intro m cur n res hrun hne
    rw [recursiveBacktrack] at hrun ⊢
    exact carveLoop_fuel_mono _ _ ih cur _ m (n + 1) res hrun hne

theorem generateMaze_fuel_mono (sh : ShuffleOracle) (level passageWidth : Int) :
    ∀ (k fuel : Nat) (res : Except Fault Maze),
      generateMaze fuel sh level passageWidth = res → res ≠ .error .outOfFuel →
      generateMaze (fuel + k) sh level passageWidth = res := by
  intro k
  induction k with
  | zero => intro fuel res hrun _; exact hrun
  | succ k ih =>
    intro fuel res hrun hne
    have hstep : generateMaze (fuel + 1) sh level passageWidth = res := by
      unfold generateMaze at hrun ⊢
      try simp only [] at hrun ⊢
      cases hw1 : writeCell (List.replicate (levelHeight level).toNat
          (List.replicate (levelWidth level).toNat Cell.WALL)) 1 1 Cell.START with
      | error e => rw [hw1] at hrun; exact hrun
      | ok m1 =>
        rw [hw1] at hrun
        try simp only [] at hrun ⊢
        cases hw2 : writeCell m1 (levelWidth level - 2) (levelHeight level - 2) Cell.END with
        | error e => rw [hw2] at hrun; exact hrun
        | ok m2 =>
          rw [hw2] at hrun
          try simp only [] at hrun ⊢
          cases hcall : recursiveBacktrack sh fuel m2 ⟨1, 1⟩ 0 with
          | error e =>
            rw [hcall] at hrun
            try simp only [] at hrun
            have hne' : (Except.error e : Except Fault (Maze × Nat)) ≠ .error .outOfFuel := by
              intro hc
              rw [Except.error.injEq] at hc
              rw [hc] at hrun
              exact hne hrun.symm
            rw [recursiveBacktrack_fuel_mono sh fuel m2 ⟨1, 1⟩ 0 _ hcall hne']
            exact hrun
          | ok r =>
            rw [hcall] at hrun
            rw [recursiveBacktrack_fuel_mono sh fuel m2 ⟨1, 1⟩ 0 _ hcall (by simp)]
            exact hrun
    have := ih (fuel + 1) res hstep hne
    rw [show fuel + (k + 1) = fuel + 1 + k by omega]
    exact this

/-- C18: with every index into the grid checked, no read or write performed
by `generateMaze` (by `isValidMove` and `recursiveBacktrack` included) is out
of bounds, for every level and every outcome of the shuffles, whatever the
fuel; with enough fuel `generateMaze` returns a grid; and on a returned grid
the reads `maze[newY][newX]` and `maze[player.y][player.x]` of the play loop
are in bounds for every sequence of input characters, the loop returning a
result. -/
theorem generateMaze_in_bounds (fuel : Nat) (sh : ShuffleOracle) (level passageWidth : Int) :
    generateMaze fuel sh level passageWidth ≠ .error .outOfBounds ∧
    (1296 < fuel → ∃ m, generateMaze fuel sh level passageWidth = .ok m) ∧
    ∀ m, generateMaze fuel sh level passageWidth = .ok m →
      ∀ inputs : List Char, ∃ r, playLoop m ⟨1, 1⟩ inputs = .ok r := by
  obtain ⟨m', hm', hpost⟩ :=
    generateMaze_spec (fuel + 1297) sh level passageWidth (by omega)
  refine ⟨?_, ?_, ?_⟩
  · intro hc
    have := generateMaze_fuel_mono sh level passageWidth 1297 fuel _ hc (by simp)
    rw [hm'] at this
    exact absurd this (by simp)
  · intro hfuel
    obtain ⟨m, hm, _⟩ := generateMaze_spec fuel sh level passageWidth hfuel
    exact ⟨m, hm⟩
  · intro m hm inputs
    have := generateMaze_fuel_mono sh level passageWidth 1297 fuel _ hm (by simp)
    rw [hm'] at this
    have hmm : m' = m := Except.ok.inj this
    subst hmm
    obtain ⟨_, _, _, d4⟩ := hpost.inv.dims
    have hstart := hpost.inv.start
    obtain ⟨r, hr, _⟩ := playLoop_spec hpost.inv.rect (by omega) inputs ⟨1, 1⟩
      (by simp only []; rw [hstart]; simp) (by simp only []; rw [hstart]; simp)
    exact ⟨r, hr⟩

/-- Witness at level 2 with the identity shuffles and the input `ws`. -/
theorem generateMaze_in_bounds_witness :
    1296 < 1308 ∧ ∃ m, generateMaze 1308 ShuffleOracle.identity 2 2 = .ok m ∧
      ∃ r, playLoop m ⟨1, 1⟩ ['w', 's'] = .ok r :=
  ⟨by decide,
    let ⟨m, hm⟩ :=
      (generateMaze_in_bounds 1308 ShuffleOracle.identity 2 2).2.1 (by decide)
    ⟨m, hm, (generateMaze_in_bounds 1308 ShuffleOracle.identity 2 2).2.2 m hm ['w', 's']⟩⟩

/-! ## Termination of the backtracker -/

theorem NoNewWall.interior_le {m m' : Maze} (hc : NoNewWall m m') (w h : Nat) :
    interiorWallCount w h m' ≤ interiorWallCount w h m := by
  unfold interiorWallCount
  apply Finset.card_le_card
  intro p hp
  rw [Finset.mem_filter] at hp ⊢
  exact ⟨hp.1, hp.2.1, hc _ _ hp.2.2⟩

theorem NoNewWall.interior_lt {m m' : Maze} (hc : NoNewWall m m') {w h : Nat} {x y : Int}
    (hin : Interior w h x y) (hwall : cellAt m x y = some Cell.WALL)
    (hopen : cellAt m' x y ≠ some Cell.WALL) :
    interiorWallCount w h m' < interiorWallCount w h m := by
  obtain ⟨h1, h2, h3, h4⟩ := hin
  have hx : ((x.toNat : Nat) : Int) = x := by omega
  have hy : ((y.toNat : Nat) : Int) = y := by omega
  unfold interiorWallCount
  apply Finset.card_lt_card
  rw [Finset.ssubset_iff_of_subset]
  · refine ⟨(x.toNat, y.toNat), ?_, ?_⟩
    · rw [Finset.mem_filter]
      simp only [hx, hy]
      exact ⟨mem_gridBox (by omega) (by omega) (by omega) (by omega), ⟨h1, h2, h3, h4⟩, hwall⟩
    · rw [Finset.mem_filter]
      simp only [hx, hy]
      exact fun hmem => hopen hmem.2.2
  · intro p hp
    rw [Finset.mem_filter] at hp ⊢
    exact ⟨hp.1, hp.2.1, hc _ _ hp.2.2⟩

/-- The midpoint written for a candidate that passed `isValidMove` is a cell
of the grid, wherever the current position is. -/
theorem mid_in_bounds {w h : Nat} {cur next : Position} (hmem : next ∈ getNeighbors cur)
    (hin : Interior w h next.x next.y) :
    0 ≤ (cur.x + next.x).tdiv 2 ∧ (cur.x + next.x).tdiv 2 < (w : Int) ∧
      0 ≤ (cur.y + next.y).tdiv 2 ∧ (cur.y + next.y).tdiv 2 < (h : Int) := by
  obtain ⟨cx, cy⟩ := cur
  obtain ⟨nx, ny⟩ := next
  obtain ⟨n1, n2, n3, n4⟩ := hin
  simp only [getNeighbors, List.mem_cons, List.mem_singleton, List.not_mem_nil, or_false,
    Position.mk.injEq] at hmem
  simp only [] at n1 n2 n3 n4 ⊢
  have hx : (cx + nx).tdiv 2 = (cx + nx) / 2 :=
    Int.tdiv_eq_ediv (by rcases hmem with g | g | g | g <;> omega) (by omega)
  have hy : (cy + ny).tdiv 2 = (cy + ny) / 2 :=
    Int.tdiv_eq_ediv (by rcases hmem with g | g | g | g <;> omega) (by omega)
  rw [hx, hy]
  rcases hmem with g | g | g | g <;> omega

theorem carveLoop_total {w h : Nat} (hw : 0 < w) (hh : 0 < h)
    (rec : Maze → Position → Nat → Except Fault (Maze × Nat)) (fuel : Nat)
    (hrec : ∀ m cur n, Rect w h m → interiorWallCount w h m < fuel →
      ∃ m' n', rec m cur n = .ok (m', n') ∧ Rect w h m' ∧ NoNewWall m m')
    (cur : Position) :
    ∀ (l : List Position), (∀ q ∈ l, q ∈ getNeighbors cur) →
      ∀ m n, Rect w h m → interiorWallCount w h m ≤ fuel →
      ∃ m' n', carveLoop rec cur l m n = .ok (m', n') ∧ Rect w h m' ∧ NoNewWall m m' := by
  intro l
  induction l with
  | nil =>
    intro _ m n hr _
    exact ⟨m, n, rfl, hr, fun _ _ hc => hc⟩
  | cons next rest ih =>
    intro hsub m n hr hfuel
    have hrest : ∀ q ∈ rest, q ∈ getNeighbors cur :=
      fun q hq => hsub q (List.mem_cons_of_mem _ hq)
    have hnext : next ∈ getNeighbors cur := hsub next (List.mem_cons_self _ _)
    have hvalid := isValidMove_rect hr hw hh next.x next.y
    by_cases hgo : Interior w h next.x next.y ∧ cellAt m next.x next.y = some Cell.WALL
    · obtain ⟨hin, hwall⟩ := hgo
      obtain ⟨b1, b2, b3, b4⟩ := mid_in_bounds hnext hin
      obtain ⟨m1, hw1, hr1, hc1⟩ := writeCell_ok hr Cell.PATH b1 b2 b3 b4
      obtain ⟨i1, i2, i3, i4⟩ := hin
      obtain ⟨m2, hw2, hr2, hc2⟩ := writeCell_ok hr1 (x := next.x) (y := next.y) Cell.PATH
        (by omega) (by omega) (by omega) (by omega)
      have hnn : NoNewWall m m2 := by
        intro x y hxy
        rw [hc2] at hxy
        by_cases hx1 : x = next.x ∧ y = next.y
        · rw [if_pos hx1] at hxy; exact absurd hxy (by simp)
        · rw [if_neg hx1, hc1] at hxy
          by_cases hx2 : x = (cur.x + next.x).tdiv 2 ∧ y = (cur.y + next.y).tdiv 2
          · rw [if_pos hx2] at hxy; exact absurd hxy (by simp)
          · rw [if_neg hx2] at hxy; exact hxy
      have hlt : interiorWallCount w h m2 < interiorWallCount w h m :=
        hnn.interior_lt ⟨i1, i2, i3, i4⟩ hwall (by rw [hc2]; simp)
      obtain ⟨m3, n3, hrun3, hr3, hnn3⟩ := hrec m2 next n hr2 (by omega)
      have hnn03 : NoNewWall m m3 := fun x y hxy => hnn x y (hnn3 x y hxy)
      obtain ⟨m', n', hrun, hr', hnn'⟩ := ih hrest m3 n3 hr3
        ((hnn03.interior_le w h).trans hfuel)
      refine ⟨m', n', ?_, hr', fun x y hxy => hnn03 x y (hnn' x y hxy)⟩
      rw [carveLoop, hvalid]
      simp only [i1, i2, i3, i4, Interior, hwall, and_self, decide_True]
      rw [readCell, hwall]
      simp only [if_true, hw1, hw2, hrun3]
      exact hrun
    · obtain ⟨m', n', hrun, hpost⟩ := ih hrest m n hr hfuel
      refine ⟨m', n', ?_, hpost⟩
      rw [carveLoop, hvalid]
      simp only [hgo, decide_False]
      exact hrun

theorem recursiveBacktrack_total {w h : Nat} (hw : 0 < w) (hh : 0 < h) (sh : ShuffleOracle) :
    ∀ (fuel : Nat) (m : Maze) (cur : Position) (n : Nat), Rect w h m →
      interiorWallCount w h m < fuel →
      ∃ m' n', recursiveBacktrack sh fuel m cur n = .ok (m', n') ∧ Rect w h m' ∧
        NoNewWall m m' := by
  intro fuel
  induction fuel with
  | zero => intro m cur n _ hlt; omega
  | succ fuel ih =>
    intro m cur n hr hlt
    have hperm := sh.perm n (getNeighbors cur)
    rw [recursiveBacktrack]
    exact carveLoop_total hw hh (recursiveBacktrack sh fuel) fuel ih cur
      (sh.run n (getNeighbors cur)) (fun q hq => hperm.mem_iff.1 hq) m (n + 1) hr (by omega)

/-- C19: `recursiveBacktrack` terminates on every non-empty rectangular grid,
from every starting position and for every outcome of the shuffles: a
recursion depth (fuel) exceeding the number of interior `WALL` cells is
enough for it to return, because each nested call follows the opening of an
interior `WALL` cell; the grid it returns has the same size and no `WALL`
cell that was not `WALL` before, hence no more interior `WALL` cells. -/
theorem recursiveBacktrack_terminates (w h : Nat) (m : Maze) (hr : Rect w h m) (hw : 0 < w)
    (hh : 0 < h) (sh : ShuffleOracle) (cur : Position) (n fuel : Nat)
    (hfuel : interiorWallCount w h m < fuel) :
    ∃ m' n', recursiveBacktrack sh fuel m cur n = .ok (m', n') ∧ Rect w h m' ∧
      NoNewWall m m' ∧ interiorWallCount w h m' ≤ interiorWallCount w h m := by
  obtain ⟨m', n', hrun, hr', hnn⟩ := recursiveBacktrack_total hw hh sh fuel m cur n hr hfuel
  exact ⟨m', n', hrun, hr', hnn, hnn.interior_le w h⟩

/-- Witness on a 5 by 5 grid of walls, started outside the grid at (-1,1),
with fuel 10 for its 9 interior `WALL` cells. -/
theorem recursiveBacktrack_terminates_witness :
    Rect 5 5 (List.replicate 5 (List.replicate 5 Cell.WALL)) ∧ 0 < 5 ∧
      interiorWallCount 5 5 (List.replicate 5 (List.replicate 5 Cell.WALL)) < 10 ∧
      ∃ m' n', recursiveBacktrack ShuffleOracle.identity 10
        (List.replicate 5 (List.replicate 5 Cell.WALL)) ⟨-1, 1⟩ 0 = .ok (m', n') ∧
        Rect 5 5 m' :=
  ⟨rect_replicate 5 5, by decide, by decide,
    let ⟨m', n', hrun, hr', _⟩ := recursiveBacktrack_terminates 5 5 _ (rect_replicate 5 5)
      (by decide) (by decide) ShuffleOracle.identity ⟨-1, 1⟩ 0 10 (by decide)
    ⟨m', n', hrun, hr'⟩⟩

end MazeGame
